import Mathlib

/-!
A verification development for the `rox` bytecode-compiler core.

The Rust sources under verification are `src/opcode.rs` (instruction set and
byte codec) and `src/compiler.rs` (the AST-to-bytecode emitter).  The crate
modules they depend on (`chunk.rs`, `span.rs`, `value.rs`, the lexer token
type and the `parser::ast` node definitions) are not part of the provided
sources; those are modelled from the specification, as indicated by their
doc comments.

Machine integers are modelled as `Nat` with explicit bounds where overflow
matters: `u8` bytes are `Nat`s below 256, `u16` operands are `Nat`s below
65536, and the Rust `as u16` cast is an explicit `% 65536`.
-/

namespace Rox

/-- The two little-endian bytes of a `u16` value (`u16::to_le_bytes`),
as natural numbers below 256. -/
def toLe2 (n : Nat) : List Nat := [n % 256, n / 256 % 256]

/-- `u16::from_le_bytes` (also `ConstKey::from_le_bytes`): rebuild the value
from two little-endian bytes. -/
def fromLe2 (x y : Nat) : Nat := x + 256 * y

/-- The opcode enumeration from `src/opcode.rs`.  `ConstKey` and the `u16`
operands are modelled as `Nat`; `OpCode.wfCheck` states the `u16` range
invariant that Rust enforces by typing. -/
inductive OpCode where
  | Constant (key : Nat)
  | Unit
  | True
  | False
  | Pop
  | GetLocal (slot : Nat)
  | SetLocal (slot : Nat)
  | GetGlobal (name_key : Nat)
  | DefGlobal (name_key : Nat)
  | SetGlobal (name_key : Nat)
  | Equal
  | Greater
  | Less
  | Add
  | Subtract
  | Multiply
  | Divide
  | Not
  | Negate
  | Assert
  | Print
  | Jump (offset : Nat)
  | JumpIfTrue (offset : Nat)
  | JumpIfFalse (offset : Nat)
  | Loop (offset : Nat)
  | Return
  deriving DecidableEq

namespace OpCode

/-- Tag constants generated by the `opcodes!` macro in `src/opcode.rs`
(consecutive `u8` values starting at 0, in declaration order). -/
def CONSTANT : Nat := 0

def UNIT : Nat := 1

def TRUE : Nat := 2

def FALSE : Nat := 3

def POP : Nat := 4

def GET_LOCAL : Nat := 5

def SET_LOCAL : Nat := 6

def GET_GLOBAL : Nat := 7

def DEF_GLOBAL : Nat := 8

def SET_GLOBAL : Nat := 9

def EQUAL : Nat := 10

def GREATER : Nat := 11

def LESS : Nat := 12

def ADD : Nat := 13

def SUBTRACT : Nat := 14

def MULTIPLY : Nat := 15

def DIVIDE : Nat := 16

def NOT : Nat := 17

def NEGATE : Nat := 18

def ASSERT : Nat := 19

def PRINT : Nat := 20

def JUMP : Nat := 21

def JUMP_IF_TRUE : Nat := 22

def JUMP_IF_FALSE : Nat := 23

def LOOP : Nat := 24

def RETURN : Nat := 25

/-- `OpCode::tag` from `src/opcode.rs`. -/
def tag : OpCode → Nat
  | .Constant _ => CONSTANT
  | .Unit => UNIT
  | .True => TRUE
  | .False => FALSE
  | .Pop => POP
  | .GetLocal _ => GET_LOCAL
  | .SetLocal _ => SET_LOCAL
  | .GetGlobal _ => GET_GLOBAL
  | .DefGlobal _ => DEF_GLOBAL
  | .SetGlobal _ => SET_GLOBAL
  | .Equal => EQUAL
  | .Greater => GREATER
  | .Less => LESS
  | .Add => ADD
  | .Subtract => SUBTRACT
  | .Multiply => MULTIPLY
  | .Divide => DIVIDE
  | .Not => NOT
  | .Negate => NEGATE
  | .Assert => ASSERT
  | .Print => PRINT
  | .Jump _ => JUMP
  | .JumpIfTrue _ => JUMP_IF_TRUE
  | .JumpIfFalse _ => JUMP_IF_FALSE
  | .Loop _ => LOOP
  | .Return => RETURN

/-- `OpCode::encode` from `src/opcode.rs`: push the tag byte, then the
little-endian operand bytes for the operand-carrying variants.  The Rust
function appends to a `&mut Vec<u8>`; here it returns the appended bytes. -/
def encode (self : OpCode) : List Nat :=
  self.tag ::
    (match self with
      | .Constant key_arg | .GetGlobal key_arg | .DefGlobal key_arg | .SetGlobal key_arg =>
        toLe2 key_arg
      | .GetLocal u16_arg | .SetLocal u16_arg | .Jump u16_arg | .JumpIfTrue u16_arg
      | .JumpIfFalse u16_arg | .Loop u16_arg =>
        toLe2 u16_arg
      | _ => [])

/-- `OpCode::decode` from `src/opcode.rs`.  The Rust slice patterns are
checked in order; each pattern requires its tag byte plus, for
operand-carrying opcodes, two further operand bytes, and binds the rest. -/
def decode (code : List Nat) : Option (OpCode × List Nat) :=
  match code with
  | [] => none
  | t :: tl =>
    if t = CONSTANT then
      match tl with
      | x :: y :: rest => some (.Constant (fromLe2 x y), rest)
      | _ => none
    else if t = UNIT then some (.Unit, tl)
    else if t = TRUE then some (.True, tl)
    else if t = FALSE then some (.False, tl)
    else if t = POP then some (.Pop, tl)
    else if t = GET_LOCAL then
      match tl with
      | x :: y :: rest => some (.GetLocal (fromLe2 x y), rest)
      | _ => none
    else if t = SET_LOCAL then
      match tl with
      | x :: y :: rest => some (.SetLocal (fromLe2 x y), rest)
      | _ => none
    else if t = GET_GLOBAL then
      match tl with
      | x :: y :: rest => some (.GetGlobal (fromLe2 x y), rest)
      | _ => none
    else if t = DEF_GLOBAL then
      match tl with
      | x :: y :: rest => some (.DefGlobal (fromLe2 x y), rest)
      | _ => none
    else if t = SET_GLOBAL then
      match tl with
      | x :: y :: rest => some (.SetGlobal (fromLe2 x y), rest)
      | _ => none
    else if t = EQUAL then some (.Equal, tl)
    else if t = GREATER then some (.Greater, tl)
    else if t = LESS then some (.Less, tl)
    else if t = ADD then some (.Add, tl)
    else if t = SUBTRACT then some (.Subtract, tl)
    else if t = MULTIPLY then some (.Multiply, tl)
    else if t = DIVIDE then some (.Divide, tl)
    else if t = NOT then some (.Not, tl)
    else if t = NEGATE then some (.Negate, tl)
    else if t = ASSERT then some (.Assert, tl)
    else if t = PRINT then some (.Print, tl)
    else if t = JUMP then
      match tl with
      | x :: y :: rest => some (.Jump (fromLe2 x y), rest)
      | _ => none
    else if t = JUMP_IF_TRUE then
      match tl with
      | x :: y :: rest => some (.JumpIfTrue (fromLe2 x y), rest)
      | _ => none
    else if t = JUMP_IF_FALSE then
      match tl with
      | x :: y :: rest => some (.JumpIfFalse (fromLe2 x y), rest)
      | _ => none
    else if t = LOOP then
      match tl with
      | x :: y :: rest => some (.Loop (fromLe2 x y), rest)
      | _ => none
    else if t = RETURN then some (.Return, tl)
    else none

/-- The `u16` range invariant on operands that Rust enforces by typing. -/
def wfCheck : OpCode → Bool
  | .Constant k | .GetGlobal k | .DefGlobal k | .SetGlobal k => k < 65536
  | .GetLocal s | .SetLocal s => s < 65536
  | .Jump o | .JumpIfTrue o | .JumpIfFalse o | .Loop o => o < 65536
  | _ => true

/-- Encoded byte width of one instruction: 1 tag byte plus 2 operand bytes
for the operand-carrying opcodes. -/
def size : OpCode → Nat
  | .Constant _ | .GetLocal _ | .SetLocal _ | .GetGlobal _ | .DefGlobal _ | .SetGlobal _
  | .Jump _ | .JumpIfTrue _ | .JumpIfFalse _ | .Loop _ => 3
  | _ => 1

theorem size_pos (op : OpCode) : 0 < op.size := by
  cases op <;> simp [size]

theorem encode_length (op : OpCode) : op.encode.length = op.size := by
  cases op <;> simp [encode, size, toLe2]

theorem decode_encode (op : OpCode) (rest : List Nat) (h : op.wfCheck = true) :
    decode (op.encode ++ rest) = some (op, rest) := by
  cases op <;>
    simp_all [encode, decode, tag, toLe2, fromLe2, wfCheck,
      CONSTANT, UNIT, TRUE, FALSE, POP, GET_LOCAL, SET_LOCAL, GET_GLOBAL, DEF_GLOBAL,
      SET_GLOBAL, EQUAL, GREATER, LESS, ADD, SUBTRACT, MULTIPLY, DIVIDE, NOT, NEGATE,
      ASSERT, PRINT, JUMP, JUMP_IF_TRUE, JUMP_IF_FALSE, LOOP, RETURN] <;>
    omega

end OpCode

/-- Concatenation of the encodings of a sequence of opcodes (the byte stream
of an emitted chunk, per the spec's chunk layout). -/
def encodeAll : List OpCode → List Nat
  | [] => []
  | op :: ops => op.encode ++ encodeAll ops

/-- Repeatedly apply `OpCode.decode`, peeling `fuel` instructions (or
stopping early when the byte stream is exhausted); `none` when some
decode step fails or the fuel runs out with bytes remaining. -/
def decodeIter : Nat → List Nat → Option (List OpCode)
  | _, [] => some []
  | 0, _ :: _ => none
  | fuel + 1, code =>
    match OpCode.decode code with
    | none => none
    | some (op, rest) => (decodeIter fuel rest).map (fun ops => op :: ops)

theorem encodeAll_ne_nil (op : OpCode) (ops : List OpCode) :
    encodeAll (op :: ops) ≠ [] := by
  have h := op.encode_length
  have := op.size_pos
  simp only [encodeAll]
  intro hc
  rcases List.append_eq_nil.mp hc with ⟨h1, _⟩
  rw [h1] at h
  simp at h
  omega

theorem decodeIter_encodeAll (ops : List OpCode) (h : ∀ op ∈ ops, op.wfCheck = true) :
    decodeIter ops.length (encodeAll ops) = some ops := by
  induction ops with
  | nil => simp [decodeIter, encodeAll]
  | cons op ops ih =>
    have hop : op.wfCheck = true := h op (List.mem_cons_self op ops)
    have hops : ∀ o ∈ ops, o.wfCheck = true := fun o ho => h o (List.mem_cons_of_mem op ho)
    have hne := encodeAll_ne_nil op ops
    have hd : OpCode.decode (encodeAll (op :: ops)) = some (op, encodeAll ops) := by
      simp only [encodeAll]
      exact OpCode.decode_encode op (encodeAll ops) hop
    cases hcode : encodeAll (op :: ops) with
    | nil => exact absurd hcode hne
    | cons b bs =>
      rw [hcode] at hd
      simp only [List.length_cons, decodeIter]
      rw [hd]
      simp [ih hops]

/-- A byte is a valid opcode tag when it is one of the 26 values the
`opcodes!` macro generates (0 through 25). -/
def validTag (t : Nat) : Bool := t < 26

/-- Fixed operand width (in bytes) of the instruction with tag `t`:
2 for the operand-carrying opcodes, 0 otherwise. -/
def operandWidth (t : Nat) : Nat :=
  if t = OpCode.CONSTANT ∨ t = OpCode.GET_LOCAL ∨ t = OpCode.SET_LOCAL ∨
      t = OpCode.GET_GLOBAL ∨ t = OpCode.DEF_GLOBAL ∨ t = OpCode.SET_GLOBAL ∨
      t = OpCode.JUMP ∨ t = OpCode.JUMP_IF_TRUE ∨ t = OpCode.JUMP_IF_FALSE ∨
      t = OpCode.LOOP then 2 else 0

/-- "Truncated" in the claim's sense: the input starts a valid instruction
but ends before that instruction's fixed-width operands are complete. -/
def TruncatedB (code : List Nat) : Bool :=
  match code with
  | [] => false
  | t :: tl => validTag t && decide (tl.length < operandWidth t)

theorem decode_none_iff (code : List Nat) :
    OpCode.decode code = none ↔
      code = [] ∨ TruncatedB code = true ∨
        ∃ t tl, code = t :: tl ∧ validTag t = false := by
  cases code with
  | nil => simp [OpCode.decode]
  | cons t tl =>
    by_cases ht : t < 26
    · interval_cases t <;>
        rcases tl with _ | ⟨x, _ | ⟨y, tl⟩⟩ <;>
          simp [OpCode.decode, TruncatedB, validTag, operandWidth,
            OpCode.CONSTANT, OpCode.UNIT, OpCode.TRUE, OpCode.FALSE, OpCode.POP,
            OpCode.GET_LOCAL, OpCode.SET_LOCAL, OpCode.GET_GLOBAL, OpCode.DEF_GLOBAL,
            OpCode.SET_GLOBAL, OpCode.EQUAL, OpCode.GREATER, OpCode.LESS, OpCode.ADD,
            OpCode.SUBTRACT, OpCode.MULTIPLY, OpCode.DIVIDE, OpCode.NOT, OpCode.NEGATE,
            OpCode.ASSERT, OpCode.PRINT, OpCode.JUMP, OpCode.JUMP_IF_TRUE,
            OpCode.JUMP_IF_FALSE, OpCode.LOOP, OpCode.RETURN]
    · have hdec : OpCode.decode (t :: tl) = none := by
        simp only [OpCode.decode,
          OpCode.CONSTANT, OpCode.UNIT, OpCode.TRUE, OpCode.FALSE, OpCode.POP,
          OpCode.GET_LOCAL, OpCode.SET_LOCAL, OpCode.GET_GLOBAL, OpCode.DEF_GLOBAL,
          OpCode.SET_GLOBAL, OpCode.EQUAL, OpCode.GREATER, OpCode.LESS, OpCode.ADD,
          OpCode.SUBTRACT, OpCode.MULTIPLY, OpCode.DIVIDE, OpCode.NOT, OpCode.NEGATE,
          OpCode.ASSERT, OpCode.PRINT, OpCode.JUMP, OpCode.JUMP_IF_TRUE,
          OpCode.JUMP_IF_FALSE, OpCode.LOOP, OpCode.RETURN]
        repeat' rw [if_neg (by omega)]
      simp only [hdec, validTag, true_iff]
      right
      right
      exact ⟨t, tl, rfl, by simp; omega⟩

/-- C1.  Codec round-trip: decoding the encoding of any (well-typed) opcode
yields exactly that opcode with no bytes left over, and repeatedly applying
`decode` to the concatenation of the encodings of any finite opcode sequence
reproduces the sequence in its original order. -/
theorem c1_codec_round_trip :
    (∀ op : OpCode, op.wfCheck = true → OpCode.decode op.encode = some (op, [])) ∧
    (∀ ops : List OpCode, (∀ op ∈ ops, op.wfCheck = true) →
      decodeIter ops.length (encodeAll ops) = some ops) := by
  constructor
  · intro op h
    simpa using OpCode.decode_encode op [] h
  · exact decodeIter_encodeAll

theorem c1_witness :
    (OpCode.wfCheck (.Jump 40000) = true ∧
      OpCode.decode (OpCode.encode (.Jump 40000)) = some (.Jump 40000, [])) ∧
    ((∀ op ∈ [OpCode.Constant 7, OpCode.Pop, OpCode.Jump 40000], op.wfCheck = true) ∧
      decodeIter 3 (encodeAll [OpCode.Constant 7, OpCode.Pop, OpCode.Jump 40000]) =
        some [OpCode.Constant 7, OpCode.Pop, OpCode.Jump 40000]) :=
  ⟨⟨by decide, c1_codec_round_trip.1 _ (by decide)⟩,
   ⟨by decide,
    c1_codec_round_trip.2 [OpCode.Constant 7, OpCode.Pop, OpCode.Jump 40000] (by decide)⟩⟩

/-- C9 counterexample.  The byte slice `[26]` is neither empty nor truncated
(26 is not a valid opcode tag, so no instruction's operands are missing),
yet `decode` returns `none`.  This refutes the claim that `decode` fails
*precisely* on empty or truncated input. -/
theorem c9_counterexample :
    OpCode.decode [26] = none ∧ ([26] : List Nat) ≠ [] ∧ TruncatedB [26] = false := by
  refine ⟨?_, by simp, by decide⟩
  decide

/-- C9 (amended).  `decode` returns `none` exactly when the input is empty,
or is truncated (a valid leading tag whose fixed-width operands are
incomplete), or starts with an invalid tag byte (one of the 230 byte values
that are not opcode tags); on every slice whose leading bytes form a
complete encoded instruction, `decode` succeeds and returns that instruction
together with the remaining bytes. -/
theorem c9_amended_decode_failure :
    (∀ code : List Nat,
      OpCode.decode code = none ↔
        code = [] ∨ TruncatedB code = true ∨
          ∃ t tl, code = t :: tl ∧ validTag t = false) ∧
    (∀ (op : OpCode) (rest : List Nat), op.wfCheck = true →
      OpCode.decode (op.encode ++ rest) = some (op, rest)) :=
  ⟨decode_none_iff, OpCode.decode_encode⟩

theorem c9_witness :
    (OpCode.decode ([OpCode.GET_LOCAL, 3] : List Nat) = none ↔
      ([OpCode.GET_LOCAL, 3] : List Nat) = [] ∨
        TruncatedB [OpCode.GET_LOCAL, 3] = true ∨
          ∃ t tl, ([OpCode.GET_LOCAL, 3] : List Nat) = t :: tl ∧ validTag t = false) ∧
    (OpCode.wfCheck (.GetLocal 3) = true ∧
      OpCode.decode (OpCode.encode (.GetLocal 3) ++ [9, 9]) = some (.GetLocal 3, [9, 9])) :=
  ⟨c9_amended_decode_failure.1 _,
   ⟨by decide, c9_amended_decode_failure.2 _ [9, 9] (by decide)⟩⟩

/-!
## The compiler core (`src/compiler.rs`) and its spec-modelled dependencies
-/

/-- Modelled from the spec (§3 `FreeSpan`; `span.rs` is not in the provided
sources): a byte-offset pair `(start, end)` into the source text.  The
second field is named `stop` because `end` is reserved in Lean. -/
structure FreeSpan where
  start : Nat
  stop : Nat
  deriving DecidableEq

/-- Modelled from the spec (§3): joining two spans forms an enclosing span. -/
def FreeSpan.join (a b : FreeSpan) : FreeSpan :=
  ⟨min a.start b.start, max a.stop b.stop⟩

/-- Modelled from the spec: `span.anchor(source).as_str()` — the source
slice the span covers.  Source text is modelled as a list of characters
(byte-level identifier comparison coincides with character comparison for
the programs considered here). -/
def FreeSpan.anchor (s : FreeSpan) (source : List Char) : List Char :=
  (source.drop s.start).take (s.stop - s.start)

/-- Modelled from the spec (§6; the lexer is not in the provided sources):
the token kinds that `parser.rs` and `compiler.rs` consume. -/
inductive TokenKind where
  | Class
  | Fun
  | Var
  | For
  | If
  | Else
  | Assert
  | Print
  | Return
  | While
  | LeftBrace
  | RightBrace
  | LeftParen
  | RightParen
  | Semicolon
  | Eof
  | Equal
  | Or
  | And
  | BangEqual
  | EqualEqual
  | Greater
  | GreaterEqual
  | Less
  | LessEqual
  | Minus
  | Plus
  | Slash
  | Star
  | Bang
  | Nil
  | True
  | False
  | This
  | Super
  | Number
  | String
  | Identifier
  deriving DecidableEq

/-- Modelled from the spec (§6): a token carries its kind and source span. -/
structure Token where
  kind : TokenKind
  span : FreeSpan
  deriving DecidableEq

/-- `ast::Identifier` (used by `compiler.rs`): a wrapped identifier token. -/
structure Identifier where
  token : Token
  deriving DecidableEq

/-- The `Spanned` impl for `Identifier` (`name.span()` in `compiler.rs`). -/
def Identifier.span (i : Identifier) : FreeSpan := i.token.span

/-- Modelled from the spec (§3 `Value`; `value.rs` and the object string
type are not in the provided sources): a sum of Nil, Bool, Number and
Object (interned string).  The IEEE-754 payload of `Number` is represented
by its source lexeme — no claim depends on numeric semantics — and object
strings by their character data. -/
inductive Value where
  | nil
  | bool (b : Bool)
  | number (lexeme : List Char)
  | object (data : List Char)
  deriving DecidableEq

/-- Modelled from the spec (§7: the lexer admits digits-and-dot shapes and
the emitter validates on parse): acceptance of a number lexeme by
`f64::from_str`, restricted to the digits-and-dot shapes the lexer admits —
at least one digit and at most one dot.  Only parse success/failure
matters to any claim, never the numeric value. -/
def validNumberLexeme (s : List Char) : Bool :=
  s.all (fun c => c.isDigit || c = '.') &&
    decide (s.countP (fun c => c = '.') ≤ 1) && s.any (fun c => c.isDigit)

/-- `compiler::Error` from `src/compiler.rs`.  The `ParseFloatError` cause
of `InvalidNumberLiteral` is modelled by the offending lexeme. -/
inductive Error where
  | NotYetImplemented (feature : List Char) (span : FreeSpan)
  | TooManyLocals (span : FreeSpan)
  | Shadowing (shadowing_span : FreeSpan) (shadowed_span : FreeSpan)
  | InvalidNumberLiteral (cause : List Char) (span : FreeSpan)
  | InvalidAssignmentTarget (span : FreeSpan)
  deriving DecidableEq

/-- Sites in `compiler.rs` that abort abnormally (`todo!`, `unreachable!`,
a failed `assert!` or `unwrap`) rather than returning an `Error`. -/
inductive PanicSite where
  | for_stmt
  | return_stmt
  | field_expr
  | call_expr
  | this_expr
  | super_expr
  | end_scope_assert
  | string_unwrap
  | binary_unreachable
  | unary_unreachable
  | primary_unreachable
  deriving DecidableEq

/-- A Rust process abort: a distinct abnormal outcome, not an `Error`. -/
inductive RPanic where
  | todoAt (site : PanicSite)
  | unreachableAt (site : PanicSite)
  | assertAt (site : PanicSite)
  | unwrapAt (site : PanicSite)
  deriving DecidableEq

/-- Outcome of a fallible compiler step: a returned `Error` value (the `?`
propagation in Rust) or a process abort. -/
inductive Fail where
  | err (e : Error)
  | panicked (p : RPanic)
  deriving DecidableEq

/-- Modelled from the spec (§3, §4.2; `chunk.rs` is not in the provided
sources).  The spec's byte-level `code` array is represented as the list of
instructions in emission order — its `encodeAll` image is the byte array,
and instruction indices correspond one-to-one to the byte offsets that the
spec's patch handles denote, via `sizeTo`.  Branch operands hold byte
distances exactly as the spec prescribes. -/
structure Chunk where
  code : List OpCode
  constants : List Value
  spans : List FreeSpan
  deriving DecidableEq

/-- `Chunk::default()`: the empty chunk. -/
def Chunk.empty : Chunk := ⟨[], [], []⟩

/-- Byte offset of the instruction boundary before instruction `n`. -/
def sizeTo (c : List OpCode) (n : Nat) : Nat :=
  ((c.take n).map OpCode.size).sum

/-- Spec §4.2 `emit(op, span) → InstrOffset`: append the encoded op,
record the span, and return the patch handle (the instruction index,
standing for the byte offset `sizeTo code index`). -/
def Chunk.emit (c : Chunk) (op : OpCode) (span : FreeSpan) : Chunk × Nat :=
  (⟨c.code ++ [op], c.constants, c.spans ++ [span]⟩, c.code.length)

/-- Spec §4.2 `insert_constant(value) → ConstKey`: append to the pool and
return the new entry's index.  (The spec says the pool "fails" past 2¹⁶
entries; no claim exercises that bound, and the `ConstKey` is a `Nat`.) -/
def Chunk.insert_constant (c : Chunk) (v : Value) : Chunk × Nat :=
  (⟨c.code, c.constants ++ [v], c.spans⟩, c.constants.length)

/-- Replace a branch instruction's operand, leaving other opcodes alone. -/
def withOffset (op : OpCode) (off : Nat) : OpCode :=
  match op with
  | .Jump _ => .Jump off
  | .JumpIfTrue _ => .JumpIfTrue off
  | .JumpIfFalse _ => .JumpIfFalse off
  | .Loop _ => .Loop off
  | other => other

/-- Spec §4.2 `patch_jump(handle)`: overwrite the 2-byte operand at
`handle` so the branch targets the current end of code — the operand
becomes the byte distance from the end of the branch instruction (the
boundary after index `handle`) to the current end of code. -/
def Chunk.patch_jump (c : Chunk) (handle : Nat) : Chunk :=
  match c.code[handle]? with
  | some op =>
    ⟨c.code.set handle
        (withOffset op (sizeTo c.code c.code.length - sizeTo c.code (handle + 1))),
      c.constants, c.spans⟩
  | none => c

/-- Spec §4.2 `loop_point()`: snapshot the current end of code. -/
def Chunk.loop_point (c : Chunk) : Nat := c.code.length

/-- Spec §4.2 `emit_loop(target, span)`: emit a `Loop` whose operand is the
byte distance from the end of the `Loop` instruction back to `target`. -/
def Chunk.emit_loop (c : Chunk) (target : Nat) (span : FreeSpan) : Chunk :=
  (c.emit (.Loop (sizeTo c.code c.code.length + 3 - sizeTo c.code target)) span).1

/-!
### The AST (`parser::ast`)

The `parser/ast` module file is not in the provided sources (only its
`fmt.rs`); node shapes and field order follow their construction in
`parser.rs` and their consumption in `compiler.rs`.  Node structs are
single-constructor inductives so the whole family can be mutually
inductive; field accessors are defined below the block.
-/

/-- `ast::ClassDecl` — only its `class_tok` is consumed (`compiler.rs`). -/
structure ClassDecl where
  class_tok : Token
  deriving DecidableEq

/-- `ast::FunDecl` — only its `fun_tok` is consumed (`compiler.rs`). -/
structure FunDecl where
  fun_tok : Token
  deriving DecidableEq

/-- `ast::PrimaryExpr` (from `parser.rs`): a single token. -/
structure PrimaryExpr where
  token : Token
  deriving DecidableEq

/-- The `Spanned` impl for `PrimaryExpr`. -/
def PrimaryExpr.span (p : PrimaryExpr) : FreeSpan := p.token.span

mutual

inductive Expression where
  | Binary (b : BinaryExpr)
  | Unary (u : UnaryExpr)
  | Field (f : FieldExpr)
  | Group (g : GroupExpr)
  | Call (c : CallExpr)
  | Primary (p : PrimaryExpr)

inductive BinaryExpr where
  | mk (lhs : Expression) (operator : Token) (rhs : Expression)

inductive UnaryExpr where
  | mk (operator : Token) (expr : Expression)

inductive FieldExpr where
  | mk (expr : Expression) (field_tok : Token)

inductive CallExpr where
  | mk (callee : Expression)

inductive GroupExpr where
  | mk (left_paren_tok : Token) (expr : Expression) (right_paren_tok : Token)

inductive VarInit where
  | mk (equal_tok : Token) (expr : Expression)

inductive VarDecl where
  | mk (var_tok : Token) (ident : Identifier) (init : Option VarInit) (semicolon_tok : Token)

inductive Declaration where
  | Class (c : ClassDecl)
  | Fun (f : FunDecl)
  | Var (v : VarDecl)
  | Statement (s : Statement)

inductive Statement where
  | Expr (e : ExprStmt)
  | For (f : ForStmt)
  | If (i : IfStmt)
  | Assert (a : AssertStmt)
  | Print (p : PrintStmt)
  | Return (r : ReturnStmt)
  | While (w : WhileStmt)
  | Block (b : Block)

inductive ExprStmt where
  | mk (expr : Expression) (semicolon_tok : Token)

inductive ForStmt where
  | mk (elem : Identifier) (iter : Expression) (body : Block)

inductive IfStmt where
  | mk (if_tok : Token) (pred : Expression) (body : Block) (else_branch : Option ElseBranch)

inductive ElseBranch where
  | mk (else_tok : Token) (body : Block)

inductive AssertStmt where
  | mk (assert_tok : Token) (expr : Expression) (semicolon_tok : Token)

inductive PrintStmt where
  | mk (print_tok : Token) (expr : Expression) (semicolon_tok : Token)

inductive ReturnStmt where
  | mk (return_tok : Token) (expr : Expression) (semicolon_tok : Token)

inductive WhileStmt where
  | mk (while_tok : Token) (pred : Expression) (body : Block)

inductive Block where
  | mk (left_brace_tok : Token) (body : List Declaration) (right_brace_tok : Token)

end

/-- `ast::Program` (from `parser.rs`): a sequence of declarations. -/
def Program := List Declaration

def BinaryExpr.lhs : BinaryExpr → Expression
  | .mk l _ _ => l

def BinaryExpr.operator : BinaryExpr → Token
  | .mk _ o _ => o

def BinaryExpr.rhs : BinaryExpr → Expression
  | .mk _ _ r => r

def VarDecl.ident : VarDecl → Identifier
  | .mk _ i _ _ => i

def VarDecl.init : VarDecl → Option VarInit
  | .mk _ _ i _ => i

def VarInit.expr : VarInit → Expression
  | .mk _ x => x

def Block.body : Block → List Declaration
  | .mk _ ds _ => ds

def IfStmt.pred : IfStmt → Expression
  | .mk _ p _ _ => p

def WhileStmt.pred : WhileStmt → Expression
  | .mk _ p _ => p

/-- The `Spanned` impls for expressions (modelled from the spec: spans of
compound nodes enclose their parts). -/
def Expression.span : Expression → FreeSpan
  | .Binary (.mk lhs _ rhs) => (Expression.span lhs).join (Expression.span rhs)
  | .Unary (.mk operator expr) => operator.span.join (Expression.span expr)
  | .Field (.mk expr field_tok) => (Expression.span expr).join field_tok.span
  | .Group (.mk l _ r) => l.span.join r.span
  | .Call (.mk callee) => Expression.span callee
  | .Primary p => p.span

/-- The `Spanned` impl for `BinaryExpr` (`binary_expr.span()`). -/
def BinaryExpr.span (b : BinaryExpr) : FreeSpan :=
  match b with
  | .mk lhs _ rhs => lhs.span.join rhs.span

/-- The `Spanned` impl for `UnaryExpr` (`unary_expr.span()`). -/
def UnaryExpr.span (u : UnaryExpr) : FreeSpan :=
  match u with
  | .mk operator expr => operator.span.join expr.span

/-- The `Spanned` impl for `VarDecl` (`var_decl.span()`). -/
def VarDecl.span (v : VarDecl) : FreeSpan :=
  match v with
  | .mk var_tok _ _ semicolon_tok => var_tok.span.join semicolon_tok.span

/-- The `Spanned` impl for `AssertStmt`. -/
def AssertStmt.span (a : AssertStmt) : FreeSpan :=
  match a with
  | .mk assert_tok _ semicolon_tok => assert_tok.span.join semicolon_tok.span

/-- The `Spanned` impl for `PrintStmt`. -/
def PrintStmt.span (p : PrintStmt) : FreeSpan :=
  match p with
  | .mk print_tok _ semicolon_tok => print_tok.span.join semicolon_tok.span

/-- `compiler::Local`: a compile-time binding record. -/
structure Local where
  name : Identifier
  depth : Int
  deriving DecidableEq

/-- `compiler::Emitter`: the transient compile state. -/
structure Emitter where
  source : List Char
  chunk : Chunk
  locals : List Local
  scope_depth : Int
  deriving DecidableEq

/-- `const DUMMY: u16 = u16::MAX` — the unpatched-branch sentinel. -/
def DUMMY : Nat := 65535

/-- Rust `Iterator::rposition`: index of the last element satisfying `p`. -/
def rposition (p : α → Bool) : List α → Option Nat
  | [] => none
  | a :: as =>
    match rposition p as with
    | some i => some (i + 1)
    | none => if p a then some 0 else none

namespace Emitter

/-- The `ident_slice` closure of `add_local`/`resolve_local`. -/
def identSlice (e : Emitter) (ident : Identifier) : List Char :=
  ident.token.span.anchor e.source

/-- `Emitter::identifier_constant`. -/
def identifier_constant (e : Emitter) (ident : Identifier) : Nat × Emitter :=
  let span_str := ident.token.span.anchor e.source
  let value := Value.object span_str
  let (ch, key) := e.chunk.insert_constant value
  (key, { e with chunk := ch })

/-- `Emitter::add_local`: capacity check against `u16::MAX` (= 65535), then
the same-scope shadowing scan (from the top of `locals`, only while entries
share the current scope depth), then push. -/
def add_local (e : Emitter) (name : Identifier) : Except Fail Emitter :=
  if e.locals.length ≥ 65535 then
    .error (.err (.TooManyLocals name.span))
  else
    match (e.locals.reverse.takeWhile fun loc => loc.depth == e.scope_depth).find?
        (fun loc => e.identSlice loc.name == e.identSlice name) with
    | some loc => .error (.err (.Shadowing name.span loc.name.span))
    | none => .ok { e with locals := e.locals ++ [⟨name, e.scope_depth⟩] }

/-- `Emitter::resolve_local`: highest-indexed local whose source slice
equals `name`'s; the Rust `index as u16` cast is the explicit `% 65536`. -/
def resolve_local (e : Emitter) (name : Identifier) : Option Nat :=
  (rposition (fun loc => e.identSlice loc.name == e.identSlice name) e.locals).map
    (fun index => index % 65536)

/-- `Emitter::begin_scope`. -/
def begin_scope (e : Emitter) : Emitter :=
  { e with scope_depth := e.scope_depth + 1 }

/-- The pop loop of `Emitter::end_scope`: while the top local's depth
exceeds the (already decremented) scope depth, pop it and emit `Pop`. -/
def popScopeLocals (e : Emitter) (span : FreeSpan) : Emitter :=
  match h : e.locals.getLast? with
  | some top =>
    if top.depth > e.scope_depth then
      popScopeLocals
        { e with
          locals := e.locals.dropLast,
          chunk := (e.chunk.emit .Pop span).1 } span
    else e
  | none => e
  termination_by e.locals.length
  decreasing_by
    have hne : e.locals ≠ [] := by
      intro hnil
      rw [hnil] at h
      simp at h
    simp only [List.length_dropLast]
    have : 0 < e.locals.length := List.length_pos.mpr hne
    omega

/-- `Emitter::end_scope`: `assert!(scope_depth > 0)`, decrement, pop. -/
def end_scope (e : Emitter) (span : FreeSpan) : Except Fail Emitter :=
  if e.scope_depth > 0 then
    .ok (popScopeLocals { e with scope_depth := e.scope_depth - 1 } span)
  else
    .error (.panicked (.assertAt .end_scope_assert))

/-- `self.chunk.emit(..)` threaded through the emitter state. -/
def emit (e : Emitter) (op : OpCode) (span : FreeSpan) : Emitter × Nat :=
  let (ch, handle) := e.chunk.emit op span
  ({ e with chunk := ch }, handle)

/-- `emit` with the returned handle discarded. -/
def emit1 (e : Emitter) (op : OpCode) (span : FreeSpan) : Emitter :=
  (e.emit op span).1

/-- `self.chunk.patch_jump(..)` threaded through the emitter state. -/
def patch (e : Emitter) (handle : Nat) : Emitter :=
  { e with chunk := e.chunk.patch_jump handle }

/-- `Emitter::class_decl`: immediately `NotYetImplemented`. -/
def class_decl (_e : Emitter) (c : ClassDecl) : Except Fail Emitter :=
  .error (.err (.NotYetImplemented ['c', 'l', 'a', 's', 's'] c.class_tok.span))

/-- `Emitter::fun_decl`: immediately `NotYetImplemented`. -/
def fun_decl (_e : Emitter) (f : FunDecl) : Except Fail Emitter :=
  .error (.err (.NotYetImplemented
    ['f', 'u', 'n', 'c', 't', 'i', 'o', 'n'] f.fun_tok.span))

/-- `Emitter::for_stmt` is `todo!()` — a panic, not an `Error` return. -/
def for_stmt (_e : Emitter) (_f : ForStmt) : Except Fail Emitter :=
  .error (.panicked (.todoAt .for_stmt))

/-- `Emitter::return_stmt` is `todo!()` — a panic, not an `Error` return. -/
def return_stmt (_e : Emitter) (_r : ReturnStmt) : Except Fail Emitter :=
  .error (.panicked (.todoAt .return_stmt))

/-- `Emitter::field_expr` is `todo!()`. -/
def field_expr (_e : Emitter) (_f : FieldExpr) : Except Fail Emitter :=
  .error (.panicked (.todoAt .field_expr))

/-- `Emitter::call_expr` is `todo!()`. -/
def call_expr (_e : Emitter) (_c : CallExpr) : Except Fail Emitter :=
  .error (.panicked (.todoAt .call_expr))

/-- The character `"` (used by the string-literal quote stripping). -/
def quoteChar : Char := Char.ofNat 34

/-- `.strip_prefix('"').unwrap().strip_suffix('"').unwrap()` on the
string literal's source slice; `none` stands for the unwrap panic. -/
def stripQuoteEnds (s : List Char) : Option (List Char) :=
  match s with
  | c :: rest =>
    if c = quoteChar then
      match rest.getLast? with
      | some d => if d = quoteChar then some rest.dropLast else none
      | none => none
    else none
  | [] => none

/-- `Emitter::number`: parse the source slice as a double; on success
insert the constant and emit `Constant`, otherwise `InvalidNumberLiteral`. -/
def number (e : Emitter) (primary : PrimaryExpr) : Except Fail Emitter :=
  let span := primary.token.span
  let slice := span.anchor e.source
  if validNumberLexeme slice then
    let value := Value.number slice
    let (ch, key) := e.chunk.insert_constant value
    .ok (emit1 { e with chunk := ch } (.Constant key) span)
  else
    .error (.err (.InvalidNumberLiteral slice span))

/-- `Emitter::string`: strip the surrounding quotes, intern, emit
`Constant`.  The unwraps panic when a quote is missing. -/
def string (e : Emitter) (primary : PrimaryExpr) : Except Fail Emitter :=
  let span := primary.token.span
  let slice := span.anchor e.source
  match stripQuoteEnds slice with
  | some inner =>
    let (ch, key) := e.chunk.insert_constant (Value.object inner)
    .ok (emit1 { e with chunk := ch } (.Constant key) span)
  | none => .error (.panicked (.unwrapAt .string_unwrap))

/-- `Emitter::identifier`: a local resolves to `GetLocal`, otherwise the
name is interned and `GetGlobal` emitted. -/
def identifier (e : Emitter) (primary : PrimaryExpr) : Except Fail Emitter :=
  let ident : Identifier := ⟨primary.token⟩
  match e.resolve_local ident with
  | some slot => .ok (emit1 e (.GetLocal slot) ident.span)
  | none =>
    let (name_key, e') := e.identifier_constant ident
    .ok (emit1 e' (.GetGlobal name_key) ident.span)

/-- `Emitter::primary_expr`.  `compiler.rs` emits `OpCode::Nil` for the
`nil` literal; in the provided `opcode.rs` the zero-operand push-nil slot
is the variant named `Unit`, which this model uses throughout. -/
def primary_expr (e : Emitter) (primary : PrimaryExpr) : Except Fail Emitter :=
  let op := primary.token.kind
  let span := primary.span
  match op with
  | .Nil => .ok (emit1 e .Unit span)
  | .True => .ok (emit1 e .True span)
  | .False => .ok (emit1 e .False span)
  | .This => .error (.panicked (.todoAt .this_expr))
  | .Super => .error (.panicked (.todoAt .super_expr))
  | .Number => number e primary
  | .String => string e primary
  | .Identifier => identifier e primary
  | _ => .error (.panicked (.unreachableAt .primary_unreachable))

mutual

/-- `Emitter::declaration`: dispatch on the declaration kind. -/
def declaration (e : Emitter) (d : Declaration) : Except Fail Emitter :=
  match d with
  | .Class c => class_decl e c
  | .Fun f => fun_decl e f
  | .Var v => var_decl e v
  | .Statement s => statement e s
  termination_by (sizeOf d, 0)

/-- `Emitter::var_decl`: lower the initializer (or emit the nil-push op),
then bind — `DefGlobal` at depth 0, `add_local` otherwise. -/
def var_decl (e : Emitter) (v : VarDecl) : Except Fail Emitter :=
  match v with
  | .mk var_tok ident init semicolon_tok => do
    let span := (VarDecl.mk var_tok ident init semicolon_tok).span
    let e ← match init with
      | some (.mk _ initExpr) => expression e initExpr
      | none => pure (emit1 e .Unit span)
    if e.scope_depth = 0 then
      let (name_key, e') := identifier_constant e ident
      pure (emit1 e' (.DefGlobal name_key) span)
    else
      add_local e ident

/-- `Emitter::statement`: dispatch on the statement kind. -/
def statement (e : Emitter) (s : Statement) : Except Fail Emitter :=
  match s with
  | .Expr es => expr_stmt e es
  | .For f => for_stmt e f
  | .If i => if_stmt e i
  | .Assert a => assert_stmt e a
  | .Print p => print_stmt e p
  | .Return r => return_stmt e r
  | .While w => while_stmt e w
  | .Block b => block e b
  termination_by (sizeOf s, 0)

/-- `Emitter::expr_stmt`: lower the expression, emit `Pop`. -/
def expr_stmt (e : Emitter) (es : ExprStmt) : Except Fail Emitter :=
  match es with
  | .mk expr semicolon_tok => do
    let e ← expression e expr
    pure (emit1 e .Pop semicolon_tok.span)

/-- `Emitter::if_stmt`: predicate, `JumpIfFalse` over the then branch,
`Pop`, then block, `Jump` over the else branch, patch, `Pop`, optional
else block, patch. -/
def if_stmt (e : Emitter) (i : IfStmt) : Except Fail Emitter :=
  match i with
  | .mk if_tok pred body else_branch => do
    let e ← expression e pred
    let (e, then_jump) := emit e (.JumpIfFalse DUMMY) if_tok.span
    let e := emit1 e .Pop if_tok.span
    let e ← block e body
    let (e, else_jump) := emit e (.Jump DUMMY) if_tok.span
    let e := patch e then_jump
    let e := emit1 e .Pop if_tok.span
    let e ← match else_branch with
      | some (.mk _ elseBody) => block e elseBody
      | none => pure e
    pure (patch e else_jump)
  termination_by (sizeOf i, 0)

/-- `Emitter::assert_stmt`: lower the expression, emit `Assert`. -/
def assert_stmt (e : Emitter) (a : AssertStmt) : Except Fail Emitter :=
  match a with
  | .mk assert_tok expr semicolon_tok => do
    let e ← expression e expr
    pure (emit1 e .Assert (AssertStmt.span (.mk assert_tok expr semicolon_tok)))

/-- `Emitter::print_stmt`: lower the expression, emit `Print`. -/
def print_stmt (e : Emitter) (p : PrintStmt) : Except Fail Emitter :=
  match p with
  | .mk print_tok expr semicolon_tok => do
    let e ← expression e expr
    pure (emit1 e .Print (PrintStmt.span (.mk print_tok expr semicolon_tok)))

/-- `Emitter::while_stmt`: loop point, predicate, `JumpIfFalse` out,
`Pop`, body, `Loop` back, patch, `Pop`. -/
def while_stmt (e : Emitter) (w : WhileStmt) : Except Fail Emitter :=
  match w with
  | .mk while_tok pred body => do
    let loop_start := e.chunk.loop_point
    let e ← expression e pred
    let span := FreeSpan.join while_tok.span pred.span
    let (e, exit_jump) := emit e (.JumpIfFalse DUMMY) span
    match body with
    | .mk left_brace_tok bodyDecls right_brace_tok => do
      let e := emit1 e .Pop left_brace_tok.span
      let e ← block e (.mk left_brace_tok bodyDecls right_brace_tok)
      let e := { e with chunk := e.chunk.emit_loop loop_start right_brace_tok.span }
      let e := patch e exit_jump
      pure (emit1 e .Pop right_brace_tok.span)
  termination_by (sizeOf w, 0)

/-- `Emitter::block`: `begin_scope`, lower the contained declarations in
order, `end_scope`. -/
def block (e : Emitter) (b : Block) : Except Fail Emitter :=
  match b with
  | .mk _ body right_brace_tok => do
    let e := begin_scope e
    let e ← declList e body
    end_scope e right_brace_tok.span
  termination_by (sizeOf b, 1)

/-- The `for d in ..` loop bodies of `compile` and `Emitter::block`:
lower each declaration in order, propagating the first failure. -/
def declList (e : Emitter) (ds : List Declaration) : Except Fail Emitter :=
  match ds with
  | [] => .ok e
  | d :: rest => do
    let e ← declaration e d
    declList e rest
  termination_by (sizeOf ds, 0)

/-- `Emitter::expression`: dispatch on the expression kind (a group is
lowered as its inner expression). -/
def expression (e : Emitter) (x : Expression) : Except Fail Emitter :=
  match x with
  | .Binary b => binary_expr e b
  | .Unary u => unary_expr e u
  | .Field f => field_expr e f
  | .Group (.mk _ inner _) => expression e inner
  | .Call c => call_expr e c
  | .Primary p => primary_expr e p
  termination_by (sizeOf x, 0)

/-- `Emitter::binary_expr`: assignment (identifier targets only), the
short-circuit operators, then the eagerly-evaluated binary operators. -/
def binary_expr (e : Emitter) (b : BinaryExpr) : Except Fail Emitter :=
  match b with
  | .mk lhs operator rhs =>
    let op := operator.kind
    if op = .Equal then
      match lhs with
      | .Primary primary =>
        if primary.token.kind = .Identifier then do
          let ident : Identifier := ⟨primary.token⟩
          let e ← expression e rhs
          match resolve_local e ident with
          | some slot =>
            pure (emit1 e (.SetLocal slot) (BinaryExpr.span (.mk lhs operator rhs)))
          | none =>
            let (name_key, e') := identifier_constant e ident
            pure (emit1 e' (.SetGlobal name_key) (BinaryExpr.span (.mk lhs operator rhs)))
        else
          .error (.err (.InvalidAssignmentTarget lhs.span))
      | _ => .error (.err (.InvalidAssignmentTarget lhs.span))
    else if op = .Or then
      or e (.mk lhs operator rhs)
    else if op = .And then
      and e (.mk lhs operator rhs)
    else do
      let e ← expression e lhs
      let e ← expression e rhs
      let span := BinaryExpr.span (.mk lhs operator rhs)
      match op with
      | .BangEqual => pure (emit1 (emit1 e .Equal span) .Not span)
      | .EqualEqual => pure (emit1 e .Equal span)
      | .Greater => pure (emit1 e .Greater span)
      | .GreaterEqual => pure (emit1 (emit1 e .Less span) .Not span)
      | .Less => pure (emit1 e .Less span)
      | .LessEqual => pure (emit1 (emit1 e .Greater span) .Not span)
      | .Plus => pure (emit1 e .Add span)
      | .Minus => pure (emit1 e .Subtract span)
      | .Star => pure (emit1 e .Multiply span)
      | .Slash => pure (emit1 e .Divide span)
      | _ => .error (.panicked (.unreachableAt .binary_unreachable))
  termination_by (sizeOf b, 1)

/-- `Emitter::and`: lower lhs; `JumpIfFalse` (dummy) over the rest; `Pop`;
lower rhs; patch the jump to the current end of code. -/
def and (e : Emitter) (b : BinaryExpr) : Except Fail Emitter :=
  match b with
  | .mk lhs operator rhs => do
    let e ← expression e lhs
    let span := FreeSpan.join lhs.span operator.span
    let (e, end_jump) := emit e (.JumpIfFalse DUMMY) span
    let e := emit1 e .Pop operator.span
    let e ← expression e rhs
    pure (patch e end_jump)
  termination_by (sizeOf b, 0)

/-- `Emitter::or`: dual of `and` with `JumpIfTrue`. -/
def or (e : Emitter) (b : BinaryExpr) : Except Fail Emitter :=
  match b with
  | .mk lhs operator rhs => do
    let e ← expression e lhs
    let span := FreeSpan.join lhs.span operator.span
    let (e, end_jump) := emit e (.JumpIfTrue DUMMY) span
    let e := emit1 e .Pop operator.span
    let e ← expression e rhs
    pure (patch e end_jump)
  termination_by (sizeOf b, 0)

/-- `Emitter::unary_expr`: lower the operand, emit `Not` or `Negate`. -/
def unary_expr (e : Emitter) (u : UnaryExpr) : Except Fail Emitter :=
  match u with
  | .mk operator expr => do
    let op := operator.kind
    let e ← expression e expr
    let span := UnaryExpr.span (.mk operator expr)
    match op with
    | .Bang => pure (emit1 e .Not span)
    | .Minus => pure (emit1 e .Negate span)
    | _ => .error (.panicked (.unreachableAt .unary_unreachable))
  termination_by (sizeOf u, 0)

end

end Emitter

/-- `compiler::compile`: fresh emitter, lower every declaration in order,
return the finished chunk.  A `Fail.err` is the `Err` the Rust function
returns; a `Fail.panicked` is a process abort escaping it. -/
def compile (source : List Char) (ast : List Declaration) : Except Fail Chunk := do
  let e : Emitter :=
    { source := source, chunk := Chunk.empty, locals := [], scope_depth := 0 }
  let e ← Emitter.declList e ast
  pure e.chunk

/-!
## Static stack discipline: control-flow paths over an instruction sequence

The claims about stack discipline quantify over every control-flow path
through an emitted instruction sequence.  A program counter / stack-height
pair steps through a code slice: non-branch opcodes advance by one
instruction and add their net stack effect (the per-op effects of spec
§4.1); forward branches move to the instruction boundary whose byte
distance from the end of the branch equals the operand; `Loop` moves
backward likewise.  Conditional branches do not touch the height (they do
not pop the tested value).
-/

/-- Net stack effect of each opcode, from the spec §4.1 semantics column.
(`Return` is never emitted by the compiler under verification; its
VM-dependent effect is taken as 0.) -/
def OpCode.effect : OpCode → Int
  | .Constant _ => 1
  | .Unit => 1
  | .True => 1
  | .False => 1
  | .Pop => -1
  | .GetLocal _ => 1
  | .SetLocal _ => 0
  | .GetGlobal _ => 1
  | .DefGlobal _ => -1
  | .SetGlobal _ => 0
  | .Equal => -1
  | .Greater => -1
  | .Less => -1
  | .Add => -1
  | .Subtract => -1
  | .Multiply => -1
  | .Divide => -1
  | .Not => 0
  | .Negate => 0
  | .Assert => -1
  | .Print => -1
  | .Jump _ => 0
  | .JumpIfTrue _ => 0
  | .JumpIfFalse _ => 0
  | .Loop _ => 0
  | .Return => 0

/-- Control-flow classification of an opcode: plain (with its net stack
effect), unconditional forward branch, conditional forward branch, or
unconditional backward branch. -/
inductive IClass where
  | plain (d : Int)
  | jmp (off : Nat)
  | cjmp (off : Nat)
  | loopb (off : Nat)
  deriving DecidableEq

def OpCode.cls : OpCode → IClass
  | .Jump o => .jmp o
  | .JumpIfTrue o => .cjmp o
  | .JumpIfFalse o => .cjmp o
  | .Loop o => .loopb o
  | op => .plain op.effect

/-- Total encoded byte length of an instruction sequence. -/
def weight (cs : List OpCode) : Nat := (cs.map OpCode.size).sum

/-- Forward branch target: boundary `j` lies in the slice and its byte
offset exceeds the boundary after the branch by exactly `off` (spec §4.1:
"count of bytes from the end of the branch instruction to the target"). -/
def TgtF (cs : List OpCode) (pc off j : Nat) : Prop :=
  j ≤ cs.length ∧ sizeTo cs j = sizeTo cs (pc + 1) + off

/-- Backward branch target of `Loop`: boundary `j` at or before the branch
whose byte offset is `off` bytes before the boundary after the branch. -/
def TgtB (cs : List OpCode) (pc off j : Nat) : Prop :=
  j ≤ pc ∧ sizeTo cs (pc + 1) = sizeTo cs j + off

/-- One control-flow step over the slice `c`, on program-counter /
stack-height pairs. -/
inductive Step (cs : List OpCode) : Nat × Int → Nat × Int → Prop where
  | plain : ∀ pc h op d, cs[pc]? = some op → op.cls = .plain d →
      Step cs (pc, h) (pc + 1, h + d)
  | jmp : ∀ pc h op o j, cs[pc]? = some op → op.cls = .jmp o → TgtF cs pc o j →
      Step cs (pc, h) (j, h)
  | cjmpTake : ∀ pc h op o j, cs[pc]? = some op → op.cls = .cjmp o → TgtF cs pc o j →
      Step cs (pc, h) (j, h)
  | cjmpFall : ∀ pc h op o, cs[pc]? = some op → op.cls = .cjmp o →
      Step cs (pc, h) (pc + 1, h)
  | loopb : ∀ pc h op o j, cs[pc]? = some op → op.cls = .loopb o → TgtB cs pc o j →
      Step cs (pc, h) (j, h)

/-- A control-flow path: finitely many steps. -/
def Reach (cs : List OpCode) : Nat × Int → Nat × Int → Prop :=
  Relation.ReflTransGen (Step cs)

/-- Local consistency of a height annotation `H` (expected stack height at
each instruction boundary) with the instruction at `pc`. -/
def InstrOK (cs : List OpCode) (H : Nat → Int) (pc : Nat) (op : OpCode) : Prop :=
  match op.cls with
  | .plain d => H (pc + 1) = H pc + d
  | .jmp o => ∀ j, TgtF cs pc o j → H j = H pc
  | .cjmp o => (∀ j, TgtF cs pc o j → H j = H pc) ∧ H (pc + 1) = H pc
  | .loopb o => ∀ j, TgtB cs pc o j → H j = H pc

def consistent (cs : List OpCode) (H : Nat → Int) : Prop :=
  ∀ pc op, cs[pc]? = some op → InstrOK cs H pc op

/-- Every branch instruction at `pc` has a target boundary inside `c`. -/
def ConfinedAt (cs : List OpCode) (pc : Nat) (op : OpCode) : Prop :=
  match op.cls with
  | .plain _ => True
  | .jmp o => ∃ j, TgtF cs pc o j
  | .cjmp o => ∃ j, TgtF cs pc o j
  | .loopb o => ∃ j, TgtB cs pc o j

def Confined (cs : List OpCode) : Prop :=
  ∀ pc op, cs[pc]? = some op → ConfinedAt cs pc op

/-- The slice `c`, entered at its start, changes the stack height by
exactly `d` along every control-flow path that reaches its end, as
witnessed by a consistent height annotation; all its branches stay inside
the slice. -/
def Bal (cs : List OpCode) (d : Int) : Prop :=
  Confined cs ∧ ∃ H : Nat → Int, H 0 = 0 ∧ H cs.length = d ∧ consistent cs H

theorem step_height {cs : List OpCode} {H : Nat → Int} (hc : consistent cs H)
    {s s' : Nat × Int} (hs : Step cs s s') : s'.2 - s.2 = H s'.1 - H s.1 := by
  cases hs with
  | plain pc h op d hget hcls =>
    have hi := hc pc op hget
    simp only [InstrOK, hcls] at hi
    simp
    omega
  | jmp pc h op o j hget hcls ht =>
    have hi := hc pc op hget
    simp only [InstrOK, hcls] at hi
    simp [hi j ht]
  | cjmpTake pc h op o j hget hcls ht =>
    have hi := hc pc op hget
    simp only [InstrOK, hcls] at hi
    simp [hi.1 j ht]
  | cjmpFall pc h op o hget hcls =>
    have hi := hc pc op hget
    simp only [InstrOK, hcls] at hi
    simp [hi.2]
  | loopb pc h op o j hget hcls ht =>
    have hi := hc pc op hget
    simp only [InstrOK, hcls] at hi
    simp [hi j ht]

theorem reach_height {cs : List OpCode} {H : Nat → Int} (hc : consistent cs H)
    {s s' : Nat × Int} (hr : Reach cs s s') : s'.2 - s.2 = H s'.1 - H s.1 := by
  induction hr with
  | refl => simp
  | tail _ hstep ih =>
    have := step_height hc hstep
    omega

/-- The path-facing reading of `Bal`: every control-flow path from the
start of the slice to its end changes the height by exactly `d`. -/
theorem bal_reach {cs : List OpCode} {d : Int} (hb : Bal cs d) {h h' : Int}
    (hr : Reach cs (0, h) (cs.length, h')) : h' = h + d := by
  obtain ⟨-, H, h0, hl, hc⟩ := hb
  have := reach_height hc hr
  simp [h0, hl] at this
  omega

/-!
### Arithmetic of `sizeTo`
-/

theorem sizeTo_zero (cs : List OpCode) : sizeTo cs 0 = 0 := by
  simp [sizeTo]

theorem sizeTo_length (cs : List OpCode) : sizeTo cs cs.length = weight cs := by
  simp [sizeTo, weight]

theorem sizeTo_succ (cs : List OpCode) (n : Nat) (op : OpCode) (h : cs[n]? = some op) :
    sizeTo cs (n + 1) = sizeTo cs n + op.size := by
  simp [sizeTo, List.take_succ, h]

theorem sizeTo_add (cs : List OpCode) (a k : Nat) :
    sizeTo cs (a + k) = sizeTo cs a + (((cs.drop a).take k).map OpCode.size).sum := by
  simp [sizeTo, List.take_add]

theorem weight_nonempty {l : List OpCode} (h : l ≠ []) :
    1 ≤ (l.map OpCode.size).sum := by
  cases l with
  | nil => exact absurd rfl h
  | cons op rest =>
    have := op.size_pos
    simp
    omega

theorem sizeTo_lt (cs : List OpCode) {a b : Nat} (hab : a < b) (hb : a < cs.length) :
    sizeTo cs a < sizeTo cs b := by
  have hk : b = a + (b - a) := by omega
  rw [hk, sizeTo_add]
  have hne : (cs.drop a).take (b - a) ≠ [] := by
    have hlen : ((cs.drop a).take (b - a)).length = min (b - a) (cs.length - a) := by
      simp
    intro hnil
    rw [hnil] at hlen
    simp at hlen
    omega
  have := weight_nonempty hne
  omega

theorem sizeTo_mono (cs : List OpCode) {a b : Nat} (hab : a ≤ b) :
    sizeTo cs a ≤ sizeTo cs b := by
  have hk : b = a + (b - a) := by omega
  rw [hk, sizeTo_add]
  omega

theorem sizeTo_inj (cs : List OpCode) {a b : Nat} (ha : a ≤ cs.length)
    (hb : b ≤ cs.length) (h : sizeTo cs a = sizeTo cs b) : a = b := by
  rcases Nat.lt_trichotomy a b with hlt | heq | hgt
  · have := sizeTo_lt cs hlt (by omega)
    omega
  · exact heq
  · have := sizeTo_lt cs hgt (by omega)
    omega

theorem sizeTo_append_left (c1 c2 : List OpCode) {n : Nat} (h : n ≤ c1.length) :
    sizeTo (c1 ++ c2) n = sizeTo c1 n := by
  simp [sizeTo, List.take_append_of_le_length h]

theorem sizeTo_append_right (c1 c2 : List OpCode) (k : Nat) :
    sizeTo (c1 ++ c2) (c1.length + k) = weight c1 + sizeTo c2 k := by
  rw [sizeTo_add]
  simp [sizeTo, weight]

theorem sizeTo_all (cs : List OpCode) {n : Nat} (h : cs.length ≤ n) :
    sizeTo cs n = weight cs := by
  simp [sizeTo, weight, List.take_of_length_le h]

theorem weight_append (c1 c2 : List OpCode) :
    weight (c1 ++ c2) = weight c1 + weight c2 := by
  simp [weight]

/-!
### Transferring targets and consistency into a surrounding sequence
-/

theorem sizeTo_embed (c1 c2 c3 : List OpCode) {x : Nat} (hx : x ≤ c2.length) :
    sizeTo (c1 ++ c2 ++ c3) (c1.length + x) = weight c1 + sizeTo c2 x := by
  rw [List.append_assoc, sizeTo_append_right, sizeTo_append_left c2 c3 hx]

theorem TgtF_unique (cs : List OpCode) {pc o j j' : Nat}
    (h1 : TgtF cs pc o j) (h2 : TgtF cs pc o j') : j = j' :=
  sizeTo_inj cs h1.1 h2.1 (h1.2.trans h2.2.symm)

theorem TgtB_unique (cs : List OpCode) {pc o j j' : Nat} (hpc : pc < cs.length)
    (h1 : TgtB cs pc o j) (h2 : TgtB cs pc o j') : j = j' := by
  obtain ⟨hj1, he1⟩ := h1
  obtain ⟨hj2, he2⟩ := h2
  refine sizeTo_inj cs (by omega) (by omega) ?_
  omega

theorem TgtF_embed (c1 c2 c3 : List OpCode) {k o j2 : Nat} (hk : k < c2.length)
    (ht : TgtF c2 k o j2) :
    TgtF (c1 ++ c2 ++ c3) (c1.length + k) o (c1.length + j2) := by
  obtain ⟨hj2, heq⟩ := ht
  constructor
  · simp
    omega
  · have e1 := sizeTo_embed c1 c2 c3 hj2
    have e2 := sizeTo_embed c1 c2 c3 (show k + 1 ≤ c2.length by omega)
    have hrw : c1.length + k + 1 = c1.length + (k + 1) := rfl
    rw [e1, hrw, e2]
    omega

theorem TgtB_embed (c1 c2 c3 : List OpCode) {k o j2 : Nat} (hk : k < c2.length)
    (ht : TgtB c2 k o j2) :
    TgtB (c1 ++ c2 ++ c3) (c1.length + k) o (c1.length + j2) := by
  obtain ⟨hj2, heq⟩ := ht
  constructor
  · omega
  · have e1 := sizeTo_embed c1 c2 c3 (show j2 ≤ c2.length by omega)
    have e2 := sizeTo_embed c1 c2 c3 (show k + 1 ≤ c2.length by omega)
    have hrw : c1.length + k + 1 = c1.length + (k + 1) := rfl
    rw [hrw, e2, e1]
    omega

theorem getElem?_some_lt {α : Type} {l : List α} {n : Nat} {x : α}
    (h : l[n]? = some x) : n < l.length := by
  by_contra hc
  rw [List.getElem?_eq_none (by omega)] at h
  exact Option.noConfusion h

theorem getElem?_append_cases {α : Type} (a b : List α) (pc : Nat) (x : α)
    (h : (a ++ b)[pc]? = some x) :
    (pc < a.length ∧ a[pc]? = some x) ∨
      ∃ k, pc = a.length + k ∧ b[k]? = some x := by
  by_cases hpc : pc < a.length
  · left
    refine ⟨hpc, ?_⟩
    rw [List.getElem?_append] at h
    simpa [hpc] using h
  · right
    refine ⟨pc - a.length, by omega, ?_⟩
    rw [List.getElem?_append] at h
    simpa [hpc] using h

theorem getElem?_embed {α : Type} (c1 c2 c3 : List α) {k : Nat} {x : α}
    (h : c2[k]? = some x) : (c1 ++ c2 ++ c3)[c1.length + k]? = some x := by
  have hk := getElem?_some_lt h
  rw [List.append_assoc, List.getElem?_append, if_neg (by omega)]
  rw [show c1.length + k - c1.length = k by omega]
  rw [List.getElem?_append, if_pos hk]
  exact h

theorem instrOK_embed (c1 c2 c3 : List OpCode) (H : Nat → Int) (δ : Int)
    (H2 : Nat → Int) (conf2 : Confined c2) (cons2 : consistent c2 H2)
    (agree : ∀ x, x ≤ c2.length → H (c1.length + x) = δ + H2 x) :
    ∀ k op, c2[k]? = some op → InstrOK (c1 ++ c2 ++ c3) H (c1.length + k) op := by
  intro k op hget
  have hk : k < c2.length := getElem?_some_lt hget
  have hOK := cons2 k op hget
  have hCf := conf2 k op hget
  unfold InstrOK at hOK ⊢
  unfold ConfinedAt at hCf
  cases hcls : op.cls with
  | plain d =>
    rw [hcls] at hOK
    have e1 := agree (k + 1) (by omega)
    have e2 := agree k (by omega)
    have hrw : c1.length + k + 1 = c1.length + (k + 1) := rfl
    rw [hrw, e1, e2]
    omega
  | jmp o =>
    rw [hcls] at hOK hCf
    obtain ⟨j2, hj2⟩ := hCf
    intro j hj
    have hj2e := TgtF_embed c1 c2 c3 hk hj2
    have hjj : j = c1.length + j2 := TgtF_unique _ hj hj2e
    subst hjj
    rw [agree j2 hj2.1, agree k (by omega)]
    have := hOK j2 hj2
    omega
  | cjmp o =>
    rw [hcls] at hOK hCf
    obtain ⟨j2, hj2⟩ := hCf
    constructor
    · intro j hj
      have hj2e := TgtF_embed c1 c2 c3 hk hj2
      have hjj : j = c1.length + j2 := TgtF_unique _ hj hj2e
      subst hjj
      rw [agree j2 hj2.1, agree k (by omega)]
      have := hOK.1 j2 hj2
      omega
    · have e1 := agree (k + 1) (by omega)
      have e2 := agree k (by omega)
      have hrw : c1.length + k + 1 = c1.length + (k + 1) := rfl
      rw [hrw, e1, e2]
      have := hOK.2
      omega
  | loopb o =>
    rw [hcls] at hOK hCf
    obtain ⟨j2, hj2⟩ := hCf
    intro j hj
    have hj2e := TgtB_embed c1 c2 c3 hk hj2
    have hpc : c1.length + k < (c1 ++ c2 ++ c3).length := by
      rw [List.length_append, List.length_append]
      omega
    have hjj : j = c1.length + j2 := TgtB_unique _ hpc hj hj2e
    have hj2le : j2 ≤ k := hj2.1
    subst hjj
    rw [agree j2 (by omega), agree k (by omega)]
    have := hOK j2 hj2
    omega

theorem confinedAt_embed (c1 c2 c3 : List OpCode) (conf2 : Confined c2) :
    ∀ k op, c2[k]? = some op → ConfinedAt (c1 ++ c2 ++ c3) (c1.length + k) op := by
  intro k op hget
  have hk : k < c2.length := getElem?_some_lt hget
  have hCf := conf2 k op hget
  unfold ConfinedAt at hCf ⊢
  cases hcls : op.cls with
  | plain d => trivial
  | jmp o =>
    rw [hcls] at hCf
    obtain ⟨j2, hj2⟩ := hCf
    exact ⟨c1.length + j2, TgtF_embed c1 c2 c3 hk hj2⟩
  | cjmp o =>
    rw [hcls] at hCf
    obtain ⟨j2, hj2⟩ := hCf
    exact ⟨c1.length + j2, TgtF_embed c1 c2 c3 hk hj2⟩
  | loopb o =>
    rw [hcls] at hCf
    obtain ⟨j2, hj2⟩ := hCf
    exact ⟨c1.length + j2, TgtB_embed c1 c2 c3 hk hj2⟩

/-!
### Balance of basic blocks and of the emitted control-flow shapes
-/

theorem bal_nil : Bal [] 0 := by
  refine ⟨?_, fun _ => 0, rfl, rfl, ?_⟩
  · intro pc op hget
    simp at hget
  · intro pc op hget
    simp at hget

theorem bal_single {op : OpCode} {d : Int} (hcls : op.cls = .plain d) : Bal [op] d := by
  refine ⟨?_, fun p => if p = 0 then 0 else d, by simp, by simp, ?_⟩
  · intro pc op' hget
    have hpc : pc < 1 := getElem?_some_lt hget
    interval_cases pc
    simp at hget
    subst hget
    simp only [ConfinedAt, hcls]
  · intro pc op' hget
    have hpc : pc < 1 := getElem?_some_lt hget
    interval_cases pc
    simp at hget
    subst hget
    simp only [InstrOK, hcls]
    simp

theorem sizeTo_cons (op : OpCode) (tail : List OpCode) (n : Nat) :
    sizeTo (op :: tail) (n + 1) = op.size + sizeTo tail n := by
  simp [sizeTo]

theorem size_of_cjmp {op : OpCode} {o : Nat} (h : op.cls = .cjmp o) : op.size = 3 := by
  cases op <;> simp_all [OpCode.cls, OpCode.size]

theorem size_of_jmp {op : OpCode} {o : Nat} (h : op.cls = .jmp o) : op.size = 3 := by
  cases op <;> simp_all [OpCode.cls, OpCode.size]

theorem size_of_loopb {op : OpCode} {o : Nat} (h : op.cls = .loopb o) : op.size = 3 := by
  cases op <;> simp_all [OpCode.cls, OpCode.size]

theorem getElem?_cons_cases {α : Type} (x : α) (l : List α) (k : Nat) (z : α)
    (h : (x :: l)[k]? = some z) :
    (k = 0 ∧ z = x) ∨ ∃ k', k = k' + 1 ∧ l[k']? = some z := by
  cases k with
  | zero =>
    left
    simp at h
    exact ⟨rfl, h.symm⟩
  | succ k' =>
    right
    exact ⟨k', rfl, by simpa using h⟩

/-- Height annotation for the sequential composition of two slices. -/
def seqH (n1 : Nat) (d1 : Int) (H1 H2 : Nat → Int) : Nat → Int :=
  fun p => if p ≤ n1 then H1 p else d1 + H2 (p - n1)

theorem bal_append {c1 c2 : List OpCode} {d1 d2 : Int}
    (h1 : Bal c1 d1) (h2 : Bal c2 d2) : Bal (c1 ++ c2) (d1 + d2) := by
  obtain ⟨cf1, H1, h10, h1l, hc1⟩ := h1
  obtain ⟨cf2, H2, h20, h2l, hc2⟩ := h2
  have agree1 : ∀ x, x ≤ c1.length →
      seqH c1.length d1 H1 H2 (0 + x) = 0 + H1 x := by
    intro x hx
    simp [seqH, hx]
  have agree2 : ∀ x, x ≤ c2.length →
      seqH c1.length d1 H1 H2 (c1.length + x) = d1 + H2 x := by
    intro x hx
    rcases Nat.eq_zero_or_pos x with rfl | hpos
    · simp [seqH, h1l, h20]
    · simp only [seqH, if_neg (by omega : ¬ c1.length + x ≤ c1.length)]
      rw [show c1.length + x - c1.length = x by omega]
  refine ⟨?_, seqH c1.length d1 H1 H2, by simp [seqH, h10], ?_, ?_⟩
  · intro pc op hget
    rcases getElem?_append_cases c1 c2 pc op hget with ⟨hpc, hg⟩ | ⟨k, rfl, hg⟩
    · have := confinedAt_embed [] c1 c2 cf1 pc op hg
      simpa using this
    · have := confinedAt_embed c1 c2 [] cf2 k op hg
      simpa using this
  · rcases Nat.eq_zero_or_pos c2.length with hz | hpos
    · have hd2 : d2 = 0 := by
        rw [hz] at h2l
        rw [h20] at h2l
        omega
      simp [seqH, List.length_append, hz, h1l, hd2]
    · simp only [seqH, List.length_append,
        if_neg (by omega : ¬ c1.length + c2.length ≤ c1.length)]
      rw [show c1.length + c2.length - c1.length = c2.length by omega, h2l]
  · intro pc op hget
    rcases getElem?_append_cases c1 c2 pc op hget with ⟨hpc, hg⟩ | ⟨k, rfl, hg⟩
    · have := instrOK_embed [] c1 c2 (seqH c1.length d1 H1 H2) 0 H1 cf1 hc1
        agree1 pc op hg
      simpa using this
    · have := instrOK_embed c1 c2 [] (seqH c1.length d1 H1 H2) d1 H2 cf2 hc2
        agree2 k op hg
      simpa using this

/-- Height annotation for the short-circuit (`and`/`or`) shape. -/
def scH (n1 : Nat) (HL HR : Nat → Int) : Nat → Int :=
  fun p =>
    if p ≤ n1 then HL p
    else if p = n1 + 1 then 1
    else HR (p - (n1 + 2))

/-- The emitted shape of `Emitter::and` / `Emitter::or`: lhs code, a
conditional branch over `Pop ++ rhs` (no pop on the short-circuit path),
`Pop`, rhs code.  Both operand slices push one value; so does the whole. -/
theorem bal_shortcircuit {L R : List OpCode} {jop : OpCode}
    (hj : jop.cls = .cjmp (1 + weight R)) (hL : Bal L 1) (hR : Bal R 1) :
    Bal (L ++ jop :: OpCode.Pop :: R) 1 := by
  obtain ⟨cfL, HL, hL0, hLl, hcL⟩ := hL
  obtain ⟨cfR, HR, hR0, hRl, hcR⟩ := hR
  have hsz : jop.size = 3 := size_of_cjmp hj
  have hlen : (L ++ jop :: OpCode.Pop :: R).length = L.length + (2 + R.length) := by
    simp
    omega
  have htail : ∀ k, sizeTo (jop :: OpCode.Pop :: R) (2 + k) = 4 + sizeTo R k := by
    intro k
    rw [show 2 + k = (1 + k) + 1 from by omega, sizeTo_cons]
    rw [show 1 + k = k + 1 from by omega, sizeTo_cons]
    rw [hsz]
    simp [OpCode.size]
    omega
  have hs1 : sizeTo (L ++ jop :: OpCode.Pop :: R) (L.length + 1) = weight L + 3 := by
    rw [sizeTo_append_right]
    rw [show (1 : Nat) = 0 + 1 from rfl, sizeTo_cons, sizeTo_zero, hsz]
  have hsEnd : sizeTo (L ++ jop :: OpCode.Pop :: R) (L.length + (2 + R.length)) =
      weight L + (4 + weight R) := by
    rw [sizeTo_append_right, htail, sizeTo_length]
  have hTgt : TgtF (L ++ jop :: OpCode.Pop :: R) L.length (1 + weight R)
      (L.length + (2 + R.length)) := by
    refine ⟨by rw [hlen], ?_⟩
    rw [hsEnd, hs1]
    omega
  have agreeL : ∀ x, x ≤ L.length → scH L.length HL HR (0 + x) = 0 + HL x := by
    intro x hx
    simp [scH, hx]
  have agreeR : ∀ x, x ≤ R.length →
      scH L.length HL HR ((L ++ [jop, OpCode.Pop]).length + x) = 0 + HR x := by
    intro x hx
    have hl2 : (L ++ [jop, OpCode.Pop]).length = L.length + 2 := by simp
    rw [hl2]
    simp only [scH, if_neg (by omega : ¬ L.length + 2 + x ≤ L.length),
      if_neg (by omega : ¬ L.length + 2 + x = L.length + 1)]
    rw [show L.length + 2 + x - (L.length + 2) = x by omega]
    omega
  have hHend : scH L.length HL HR (L.length + (2 + R.length)) = 1 := by
    simp only [scH, if_neg (by omega : ¬ L.length + (2 + R.length) ≤ L.length),
      if_neg (by omega : ¬ L.length + (2 + R.length) = L.length + 1)]
    rw [show L.length + (2 + R.length) - (L.length + 2) = R.length by omega, hRl]
  have hHmid : scH L.length HL HR L.length = 1 := by
    simp [scH, hLl]
  have hHfall : scH L.length HL HR (L.length + 1) = 1 := by
    simp only [scH, if_neg (by omega : ¬ L.length + 1 ≤ L.length)]
    simp
  have hHpop : scH L.length HL HR (L.length + 2) = 0 := by
    simp only [scH, if_neg (by omega : ¬ L.length + 2 ≤ L.length),
      if_neg (by omega : ¬ L.length + 2 = L.length + 1)]
    rw [show L.length + 2 - (L.length + 2) = 0 by omega, hR0]
  have hconv : (L ++ [jop, OpCode.Pop]) ++ R ++ [] = L ++ jop :: OpCode.Pop :: R := by
    simp
  refine ⟨?_, scH L.length HL HR, by simp [scH, hL0], by rw [hlen, hHend], ?_⟩
  · intro pc op hget
    rcases getElem?_append_cases L _ pc op hget with ⟨hpc, hg⟩ | ⟨k, rfl, hg⟩
    · have := confinedAt_embed [] L (jop :: OpCode.Pop :: R) cfL pc op hg
      simpa using this
    · rcases getElem?_cons_cases _ _ _ _ hg with ⟨rfl, rfl⟩ | ⟨k', rfl, hg'⟩
      · simp only [ConfinedAt, hj]
        exact ⟨L.length + (2 + R.length), by simpa using hTgt⟩
      · rcases getElem?_cons_cases _ _ _ _ hg' with ⟨rfl, rfl⟩ | ⟨k'', rfl, hg''⟩
        · simp [ConfinedAt, OpCode.cls]
        · have := confinedAt_embed (L ++ [jop, OpCode.Pop]) R [] cfR k'' op hg''
          rw [hconv] at this
          have hpos : (L ++ [jop, OpCode.Pop]).length + k'' = L.length + (k'' + 1 + 1) := by
            simp
            omega
          rwa [hpos] at this
  · intro pc op hget
    rcases getElem?_append_cases L _ pc op hget with ⟨hpc, hg⟩ | ⟨k, rfl, hg⟩
    · have := instrOK_embed [] L (jop :: OpCode.Pop :: R) (scH L.length HL HR) 0 HL
        cfL hcL agreeL pc op hg
      simpa using this
    · rcases getElem?_cons_cases _ _ _ _ hg with ⟨rfl, rfl⟩ | ⟨k', rfl, hg'⟩
      · simp only [InstrOK, hj, Nat.add_zero]
        constructor
        · intro j hjt
          have hju : j = L.length + (2 + R.length) := TgtF_unique _ hjt hTgt
          rw [hju, hHend, hHmid]
        · rw [hHfall, hHmid]
      · rcases getElem?_cons_cases _ _ _ _ hg' with ⟨rfl, rfl⟩ | ⟨k'', rfl, hg''⟩
        · simp only [InstrOK, show OpCode.Pop.cls = .plain (-1) from rfl]
          rw [show L.length + (0 + 1) + 1 = L.length + 2 by omega, hHpop]
          rw [show L.length + (0 + 1) = L.length + 1 by omega, hHfall]
          omega
        · have := instrOK_embed (L ++ [jop, OpCode.Pop]) R [] (scH L.length HL HR) 0 HR
            cfR hcR agreeR k'' op hg''
          rw [hconv] at this
          have hpos : (L ++ [jop, OpCode.Pop]).length + k'' = L.length + (k'' + 1 + 1) := by
            simp
            omega
          rwa [hpos] at this

/-- Height annotation for the if-statement shape. -/
def ifH (n1 nT : Nat) (HP HT HE : Nat → Int) : Nat → Int :=
  fun p =>
    if p ≤ n1 then HP p
    else if p = n1 + 1 then 1
    else if p ≤ n1 + 2 + nT then HT (p - (n1 + 2))
    else if p = n1 + 3 + nT then 1
    else HE (p - (n1 + 4 + nT))

/-- The emitted shape of `Emitter::if_stmt`: predicate, `JumpIfFalse` to
the else-side `Pop`, `Pop`, then-block, `Jump` to the end, `Pop`,
else-block.  Every path through it is stack neutral. -/
theorem bal_ifshape {P T E : List OpCode} (hP : Bal P 1) (hT : Bal T 0) (hE : Bal E 0) :
    Bal (P ++ OpCode.JumpIfFalse (4 + weight T) :: OpCode.Pop ::
      (T ++ OpCode.Jump (1 + weight E) :: OpCode.Pop :: E)) 0 := by
  obtain ⟨cfP, HP, hP0, hPl, hcP⟩ := hP
  obtain ⟨cfT, HT, hT0, hTl, hcT⟩ := hT
  obtain ⟨cfE, HE, hE0, hEl, hcE⟩ := hE
  have hlen : (P ++ OpCode.JumpIfFalse (4 + weight T) :: OpCode.Pop ::
      (T ++ OpCode.Jump (1 + weight E) :: OpCode.Pop :: E)).length =
      P.length + (4 + T.length + E.length) := by
    simp
    omega
  have hTL : ∀ m, sizeTo (T ++ OpCode.Jump (1 + weight E) :: OpCode.Pop :: E)
      (T.length + m) =
      weight T + sizeTo (OpCode.Jump (1 + weight E) :: OpCode.Pop :: E) m := by
    intro m
    rw [sizeTo_append_right]
  have hTLk : ∀ k, k ≤ T.length →
      sizeTo (T ++ OpCode.Jump (1 + weight E) :: OpCode.Pop :: E) k = sizeTo T k :=
    fun k hk => sizeTo_append_left T _ hk
  have htail : ∀ x, sizeTo (P ++ OpCode.JumpIfFalse (4 + weight T) :: OpCode.Pop ::
      (T ++ OpCode.Jump (1 + weight E) :: OpCode.Pop :: E)) (P.length + x) =
      weight P + sizeTo (OpCode.JumpIfFalse (4 + weight T) :: OpCode.Pop ::
        (T ++ OpCode.Jump (1 + weight E) :: OpCode.Pop :: E)) x :=
    fun x => sizeTo_append_right P _ x
  have hcons2 : ∀ k, sizeTo (OpCode.JumpIfFalse (4 + weight T) :: OpCode.Pop ::
      (T ++ OpCode.Jump (1 + weight E) :: OpCode.Pop :: E)) (2 + k) =
      4 + sizeTo (T ++ OpCode.Jump (1 + weight E) :: OpCode.Pop :: E) k := by
    intro k
    rw [show 2 + k = (1 + k) + 1 from by omega, sizeTo_cons]
    rw [show 1 + k = k + 1 from by omega, sizeTo_cons]
    simp [OpCode.size]
    omega
  have hjcons : ∀ m, sizeTo (OpCode.Jump (1 + weight E) :: OpCode.Pop :: E) (2 + m) =
      4 + sizeTo E m := by
    intro m
    rw [show 2 + m = (1 + m) + 1 from by omega, sizeTo_cons]
    rw [show 1 + m = m + 1 from by omega, sizeTo_cons]
    simp [OpCode.size]
    omega
  -- byte offsets of the key boundaries
  have hs1 : sizeTo (P ++ OpCode.JumpIfFalse (4 + weight T) :: OpCode.Pop ::
      (T ++ OpCode.Jump (1 + weight E) :: OpCode.Pop :: E)) (P.length + 1) =
      weight P + 3 := by
    rw [htail, show (1 : Nat) = 0 + 1 from rfl, sizeTo_cons, sizeTo_zero]
    simp [OpCode.size]
  have hsT : ∀ k, k ≤ T.length →
      sizeTo (P ++ OpCode.JumpIfFalse (4 + weight T) :: OpCode.Pop ::
        (T ++ OpCode.Jump (1 + weight E) :: OpCode.Pop :: E)) (P.length + (2 + k)) =
      weight P + 4 + sizeTo T k := by
    intro k hk
    rw [htail, hcons2, hTLk k hk]
    omega
  have hsJ1 : sizeTo (P ++ OpCode.JumpIfFalse (4 + weight T) :: OpCode.Pop ::
      (T ++ OpCode.Jump (1 + weight E) :: OpCode.Pop :: E))
      (P.length + (3 + T.length)) = weight P + 7 + weight T := by
    rw [show 3 + T.length = 2 + (T.length + 1) from by omega, htail, hcons2, hTL 1]
    rw [show (1 : Nat) = 0 + 1 from rfl, sizeTo_cons, sizeTo_zero]
    simp [OpCode.size]
    omega
  have hsP2 : sizeTo (P ++ OpCode.JumpIfFalse (4 + weight T) :: OpCode.Pop ::
      (T ++ OpCode.Jump (1 + weight E) :: OpCode.Pop :: E))
      (P.length + (4 + T.length + E.length)) = weight P + 8 + weight T + weight E := by
    rw [show 4 + T.length + E.length = 2 + (T.length + (2 + E.length)) from by omega,
      htail, hcons2, hTL, hjcons, sizeTo_length]
    omega
  -- the two branch targets
  have hTgt1 : TgtF (P ++ OpCode.JumpIfFalse (4 + weight T) :: OpCode.Pop ::
      (T ++ OpCode.Jump (1 + weight E) :: OpCode.Pop :: E)) P.length (4 + weight T)
      (P.length + (3 + T.length)) := by
    refine ⟨by rw [hlen]; omega, ?_⟩
    rw [hsJ1, hs1]
    omega
  have hTgt2 : TgtF (P ++ OpCode.JumpIfFalse (4 + weight T) :: OpCode.Pop ::
      (T ++ OpCode.Jump (1 + weight E) :: OpCode.Pop :: E))
      (P.length + (2 + T.length)) (1 + weight E)
      (P.length + (4 + T.length + E.length)) := by
    refine ⟨by rw [hlen], ?_⟩
    rw [hsP2, show P.length + (2 + T.length) + 1 = P.length + (3 + T.length) by omega,
      hsJ1]
    omega
  -- height values at the key boundaries
  have hHp : ifH P.length T.length HP HT HE P.length = 1 := by
    simp [ifH, hPl]
  have hHfall : ifH P.length T.length HP HT HE (P.length + 1) = 1 := by
    simp only [ifH, if_neg (by omega : ¬ P.length + 1 ≤ P.length)]
    simp
  have hHt : ∀ k, k ≤ T.length →
      ifH P.length T.length HP HT HE (P.length + (2 + k)) = HT k := by
    intro k hk
    simp only [ifH, if_neg (by omega : ¬ P.length + (2 + k) ≤ P.length),
      if_neg (by omega : ¬ P.length + (2 + k) = P.length + 1),
      if_pos (by omega : P.length + (2 + k) ≤ P.length + 2 + T.length)]
    rw [show P.length + (2 + k) - (P.length + 2) = k by omega]
  have hHj : ifH P.length T.length HP HT HE (P.length + (3 + T.length)) = 1 := by
    simp only [ifH, if_neg (by omega : ¬ P.length + (3 + T.length) ≤ P.length),
      if_neg (by omega : ¬ P.length + (3 + T.length) = P.length + 1),
      if_neg (by omega : ¬ P.length + (3 + T.length) ≤ P.length + 2 + T.length),
      if_pos (by omega : P.length + (3 + T.length) = P.length + 3 + T.length)]
  have hHe : ∀ m, m ≤ E.length →
      ifH P.length T.length HP HT HE (P.length + (4 + T.length + m)) = HE m := by
    intro m hm
    simp only [ifH, if_neg (by omega : ¬ P.length + (4 + T.length + m) ≤ P.length),
      if_neg (by omega : ¬ P.length + (4 + T.length + m) = P.length + 1),
      if_neg (by omega : ¬ P.length + (4 + T.length + m) ≤ P.length + 2 + T.length),
      if_neg (by omega : ¬ P.length + (4 + T.length + m) = P.length + 3 + T.length)]
    rw [show P.length + (4 + T.length + m) - (P.length + 4 + T.length) = m by omega]
  -- agreement on the three embedded regions
  have agreeP : ∀ x, x ≤ P.length →
      ifH P.length T.length HP HT HE (0 + x) = 0 + HP x := by
    intro x hx
    simp [ifH, hx]
  have agreeT : ∀ x, x ≤ T.length →
      ifH P.length T.length HP HT HE
        ((P ++ [OpCode.JumpIfFalse (4 + weight T), OpCode.Pop]).length + x) =
      0 + HT x := by
    intro x hx
    have hl2 : (P ++ [OpCode.JumpIfFalse (4 + weight T), OpCode.Pop]).length =
        P.length + 2 := by simp
    rw [hl2, show P.length + 2 + x = P.length + (2 + x) by omega, hHt x hx]
    omega
  have agreeE : ∀ x, x ≤ E.length →
      ifH P.length T.length HP HT HE
        ((P ++ OpCode.JumpIfFalse (4 + weight T) :: OpCode.Pop ::
          (T ++ [OpCode.Jump (1 + weight E), OpCode.Pop])).length + x) =
      0 + HE x := by
    intro x hx
    have hl2 : (P ++ OpCode.JumpIfFalse (4 + weight T) :: OpCode.Pop ::
        (T ++ [OpCode.Jump (1 + weight E), OpCode.Pop])).length =
        P.length + (4 + T.length) := by
      simp
      omega
    rw [hl2, show P.length + (4 + T.length) + x = P.length + (4 + T.length + x) by omega,
      hHe x hx]
    omega
  have hconvT : (P ++ [OpCode.JumpIfFalse (4 + weight T), OpCode.Pop]) ++ T ++
      (OpCode.Jump (1 + weight E) :: OpCode.Pop :: E) =
      P ++ OpCode.JumpIfFalse (4 + weight T) :: OpCode.Pop ::
        (T ++ OpCode.Jump (1 + weight E) :: OpCode.Pop :: E) := by
    simp
  have hconvE : (P ++ OpCode.JumpIfFalse (4 + weight T) :: OpCode.Pop ::
      (T ++ [OpCode.Jump (1 + weight E), OpCode.Pop])) ++ E ++ [] =
      P ++ OpCode.JumpIfFalse (4 + weight T) :: OpCode.Pop ::
        (T ++ OpCode.Jump (1 + weight E) :: OpCode.Pop :: E) := by
    simp
  have hposT : ∀ k : Nat,
      (P ++ [OpCode.JumpIfFalse (4 + weight T), OpCode.Pop]).length + k =
      P.length + (k + 1 + 1) := by
    intro k
    simp
    omega
  have hposE : ∀ k : Nat,
      (P ++ OpCode.JumpIfFalse (4 + weight T) :: OpCode.Pop ::
        (T ++ [OpCode.Jump (1 + weight E), OpCode.Pop])).length + k =
      P.length + (T.length + (k + 1 + 1) + 1 + 1) := by
    intro k
    simp
    omega
  refine ⟨?_, ifH P.length T.length HP HT HE, by simp [ifH, hP0], ?_, ?_⟩
  · -- Confined
    intro pc op hget
    rcases getElem?_append_cases P _ pc op hget with ⟨hpc, hg⟩ | ⟨k, rfl, hg⟩
    · have := confinedAt_embed [] P (OpCode.JumpIfFalse (4 + weight T) :: OpCode.Pop ::
        (T ++ OpCode.Jump (1 + weight E) :: OpCode.Pop :: E)) cfP pc op hg
      simpa using this
    · rcases getElem?_cons_cases _ _ _ _ hg with ⟨rfl, rfl⟩ | ⟨k', rfl, hg'⟩
      · simp only [ConfinedAt, OpCode.cls, Nat.add_zero]
        exact ⟨P.length + (3 + T.length), hTgt1⟩
      · rcases getElem?_cons_cases _ _ _ _ hg' with ⟨rfl, rfl⟩ | ⟨k'', rfl, hg''⟩
        · simp [ConfinedAt, OpCode.cls]
        · rcases getElem?_append_cases T _ k'' op hg'' with ⟨hk2, hg3⟩ | ⟨m, rfl, hg3⟩
          · have := confinedAt_embed (P ++ [OpCode.JumpIfFalse (4 + weight T),
              OpCode.Pop]) T (OpCode.Jump (1 + weight E) :: OpCode.Pop :: E) cfT k'' op hg3
            rw [hconvT, hposT] at this
            exact this
          · rcases getElem?_cons_cases _ _ _ _ hg3 with ⟨rfl, rfl⟩ | ⟨m', rfl, hg4⟩
            · simp only [ConfinedAt, OpCode.cls]
              refine ⟨P.length + (4 + T.length + E.length), ?_⟩
              rw [show P.length + (T.length + 0 + 1 + 1) = P.length + (2 + T.length)
                by omega]
              exact hTgt2
            · rcases getElem?_cons_cases _ _ _ _ hg4 with ⟨rfl, rfl⟩ | ⟨m'', rfl, hg5⟩
              · simp [ConfinedAt, OpCode.cls]
              · have := confinedAt_embed (P ++ OpCode.JumpIfFalse (4 + weight T) ::
                  OpCode.Pop :: (T ++ [OpCode.Jump (1 + weight E), OpCode.Pop])) E []
                  cfE m'' op hg5
                rw [hconvE, hposE] at this
                exact this
  · rw [hlen, show P.length + (4 + T.length + E.length) =
      P.length + (4 + T.length + E.length) from rfl]
    have := hHe E.length (le_refl _)
    rw [this, hEl]
  · -- consistent
    intro pc op hget
    rcases getElem?_append_cases P _ pc op hget with ⟨hpc, hg⟩ | ⟨k, rfl, hg⟩
    · have := instrOK_embed [] P (OpCode.JumpIfFalse (4 + weight T) :: OpCode.Pop ::
        (T ++ OpCode.Jump (1 + weight E) :: OpCode.Pop :: E))
        (ifH P.length T.length HP HT HE) 0 HP cfP hcP agreeP pc op hg
      simpa using this
    · rcases getElem?_cons_cases _ _ _ _ hg with ⟨rfl, rfl⟩ | ⟨k', rfl, hg'⟩
      · simp only [InstrOK, OpCode.cls, Nat.add_zero]
        constructor
        · intro j hjt
          have hju : j = P.length + (3 + T.length) := TgtF_unique _ hjt hTgt1
          rw [hju, hHj, hHp]
        · rw [hHfall, hHp]
      · rcases getElem?_cons_cases _ _ _ _ hg' with ⟨rfl, rfl⟩ | ⟨k'', rfl, hg''⟩
        · simp only [InstrOK, show OpCode.Pop.cls = .plain (-1) from rfl]
          rw [show P.length + (0 + 1) + 1 = P.length + (2 + 0) by omega, hHt 0 (by omega)]
          rw [show P.length + (0 + 1) = P.length + 1 by omega, hHfall, hT0]
          omega
        · rcases getElem?_append_cases T _ k'' op hg'' with ⟨hk2, hg3⟩ | ⟨m, rfl, hg3⟩
          · have := instrOK_embed (P ++ [OpCode.JumpIfFalse (4 + weight T), OpCode.Pop])
              T (OpCode.Jump (1 + weight E) :: OpCode.Pop :: E)
              (ifH P.length T.length HP HT HE) 0 HT cfT hcT agreeT k'' op hg3
            rw [hconvT, hposT] at this
            exact this
          · rcases getElem?_cons_cases _ _ _ _ hg3 with ⟨rfl, rfl⟩ | ⟨m', rfl, hg4⟩
            · simp only [InstrOK, OpCode.cls]
              rw [show P.length + (T.length + 0 + 1 + 1) = P.length + (2 + T.length)
                by omega]
              intro j hjt
              have hju : j = P.length + (4 + T.length + E.length) :=
                TgtF_unique _ hjt hTgt2
              rw [hju]
              have he := hHe E.length (le_refl _)
              rw [he, hEl, hHt T.length (le_refl _), hTl]
            · rcases getElem?_cons_cases _ _ _ _ hg4 with ⟨rfl, rfl⟩ | ⟨m'', rfl, hg5⟩
              · simp only [InstrOK, show OpCode.Pop.cls = .plain (-1) from rfl]
                rw [show P.length + (T.length + 0 + 1 + 1 + 1) + 1 =
                  P.length + (4 + T.length + 0) by omega, hHe 0 (by omega)]
                rw [show P.length + (T.length + 0 + 1 + 1 + 1) =
                  P.length + (3 + T.length) by omega, hHj, hE0]
                omega
              · have := instrOK_embed (P ++ OpCode.JumpIfFalse (4 + weight T) ::
                  OpCode.Pop :: (T ++ [OpCode.Jump (1 + weight E), OpCode.Pop])) E []
                  (ifH P.length T.length HP HT HE) 0 HE cfE hcE agreeE m'' op hg5
                rw [hconvE, hposE] at this
                exact this

/-- Height annotation for the while-statement shape. -/
def whileH (n1 nB : Nat) (HP HB : Nat → Int) : Nat → Int :=
  fun p =>
    if p ≤ n1 then HP p
    else if p = n1 + 1 then 1
    else if p ≤ n1 + 2 + nB then HB (p - (n1 + 2))
    else if p = n1 + 3 + nB then 1
    else 0

/-- The emitted shape of `Emitter::while_stmt`: predicate, `JumpIfFalse`
to the exit `Pop`, `Pop`, body, `Loop` back to the predicate, `Pop`.
Every (finite) path from entry to exit is stack neutral. -/
theorem bal_whileshape {P B : List OpCode} (hP : Bal P 1) (hB : Bal B 0) :
    Bal (P ++ OpCode.JumpIfFalse (4 + weight B) :: OpCode.Pop ::
      (B ++ [OpCode.Loop (weight P + weight B + 7), OpCode.Pop])) 0 := by
  obtain ⟨cfP, HP, hP0, hPl, hcP⟩ := hP
  obtain ⟨cfB, HB, hB0, hBl, hcB⟩ := hB
  have hlen : (P ++ OpCode.JumpIfFalse (4 + weight B) :: OpCode.Pop ::
      (B ++ [OpCode.Loop (weight P + weight B + 7), OpCode.Pop])).length =
      P.length + (4 + B.length) := by
    simp
    omega
  have htail : ∀ x, sizeTo (P ++ OpCode.JumpIfFalse (4 + weight B) :: OpCode.Pop ::
      (B ++ [OpCode.Loop (weight P + weight B + 7), OpCode.Pop])) (P.length + x) =
      weight P + sizeTo (OpCode.JumpIfFalse (4 + weight B) :: OpCode.Pop ::
        (B ++ [OpCode.Loop (weight P + weight B + 7), OpCode.Pop])) x :=
    fun x => sizeTo_append_right P _ x
  have hcons2 : ∀ k, sizeTo (OpCode.JumpIfFalse (4 + weight B) :: OpCode.Pop ::
      (B ++ [OpCode.Loop (weight P + weight B + 7), OpCode.Pop])) (2 + k) =
      4 + sizeTo (B ++ [OpCode.Loop (weight P + weight B + 7), OpCode.Pop]) k := by
    intro k
    rw [show 2 + k = (1 + k) + 1 from by omega, sizeTo_cons]
    rw [show 1 + k = k + 1 from by omega, sizeTo_cons]
    simp [OpCode.size]
    omega
  have hBm : ∀ m, sizeTo (B ++ [OpCode.Loop (weight P + weight B + 7), OpCode.Pop])
      (B.length + m) =
      weight B + sizeTo [OpCode.Loop (weight P + weight B + 7), OpCode.Pop] m :=
    fun m => sizeTo_append_right B _ m
  have hs0 : sizeTo (P ++ OpCode.JumpIfFalse (4 + weight B) :: OpCode.Pop ::
      (B ++ [OpCode.Loop (weight P + weight B + 7), OpCode.Pop])) 0 = 0 :=
    sizeTo_zero _
  have hs1 : sizeTo (P ++ OpCode.JumpIfFalse (4 + weight B) :: OpCode.Pop ::
      (B ++ [OpCode.Loop (weight P + weight B + 7), OpCode.Pop])) (P.length + 1) =
      weight P + 3 := by
    rw [htail, show (1 : Nat) = 0 + 1 from rfl, sizeTo_cons, sizeTo_zero]
    simp [OpCode.size]
  have hsJ : sizeTo (P ++ OpCode.JumpIfFalse (4 + weight B) :: OpCode.Pop ::
      (B ++ [OpCode.Loop (weight P + weight B + 7), OpCode.Pop]))
      (P.length + (3 + B.length)) = weight P + 7 + weight B := by
    rw [show 3 + B.length = 2 + (B.length + 1) from by omega, htail, hcons2, hBm]
    rw [show (1 : Nat) = 0 + 1 from rfl, sizeTo_cons, sizeTo_zero]
    simp [OpCode.size]
    omega
  have hTgt1 : TgtF (P ++ OpCode.JumpIfFalse (4 + weight B) :: OpCode.Pop ::
      (B ++ [OpCode.Loop (weight P + weight B + 7), OpCode.Pop])) P.length
      (4 + weight B) (P.length + (3 + B.length)) := by
    refine ⟨by rw [hlen]; omega, ?_⟩
    rw [hsJ, hs1]
    omega
  have hTgtB : TgtB (P ++ OpCode.JumpIfFalse (4 + weight B) :: OpCode.Pop ::
      (B ++ [OpCode.Loop (weight P + weight B + 7), OpCode.Pop]))
      (P.length + (2 + B.length)) (weight P + weight B + 7) 0 := by
    refine ⟨by omega, ?_⟩
    rw [show P.length + (2 + B.length) + 1 = P.length + (3 + B.length) by omega,
      hsJ, hs0]
    omega
  have hHp : whileH P.length B.length HP HB P.length = 1 := by
    simp [whileH, hPl]
  have hH0 : whileH P.length B.length HP HB 0 = 0 := by
    simp [whileH, hP0]
  have hHfall : whileH P.length B.length HP HB (P.length + 1) = 1 := by
    simp only [whileH, if_neg (by omega : ¬ P.length + 1 ≤ P.length)]
    simp
  have hHb : ∀ k, k ≤ B.length →
      whileH P.length B.length HP HB (P.length + (2 + k)) = HB k := by
    intro k hk
    simp only [whileH, if_neg (by omega : ¬ P.length + (2 + k) ≤ P.length),
      if_neg (by omega : ¬ P.length + (2 + k) = P.length + 1),
      if_pos (by omega : P.length + (2 + k) ≤ P.length + 2 + B.length)]
    rw [show P.length + (2 + k) - (P.length + 2) = k by omega]
  have hHj : whileH P.length B.length HP HB (P.length + (3 + B.length)) = 1 := by
    simp only [whileH, if_neg (by omega : ¬ P.length + (3 + B.length) ≤ P.length),
      if_neg (by omega : ¬ P.length + (3 + B.length) = P.length + 1),
      if_neg (by omega : ¬ P.length + (3 + B.length) ≤ P.length + 2 + B.length),
      if_pos (by omega : P.length + (3 + B.length) = P.length + 3 + B.length)]
  have hHend : whileH P.length B.length HP HB (P.length + (4 + B.length)) = 0 := by
    simp only [whileH, if_neg (by omega : ¬ P.length + (4 + B.length) ≤ P.length),
      if_neg (by omega : ¬ P.length + (4 + B.length) = P.length + 1),
      if_neg (by omega : ¬ P.length + (4 + B.length) ≤ P.length + 2 + B.length),
      if_neg (by omega : ¬ P.length + (4 + B.length) = P.length + 3 + B.length)]
  have agreeP : ∀ x, x ≤ P.length →
      whileH P.length B.length HP HB (0 + x) = 0 + HP x := by
    intro x hx
    simp [whileH, hx]
  have agreeB : ∀ x, x ≤ B.length →
      whileH P.length B.length HP HB
        ((P ++ [OpCode.JumpIfFalse (4 + weight B), OpCode.Pop]).length + x) =
      0 + HB x := by
    intro x hx
    have hl2 : (P ++ [OpCode.JumpIfFalse (4 + weight B), OpCode.Pop]).length =
        P.length + 2 := by simp
    rw [hl2, show P.length + 2 + x = P.length + (2 + x) by omega, hHb x hx]
    omega
  have hconvB : (P ++ [OpCode.JumpIfFalse (4 + weight B), OpCode.Pop]) ++ B ++
      [OpCode.Loop (weight P + weight B + 7), OpCode.Pop] =
      P ++ OpCode.JumpIfFalse (4 + weight B) :: OpCode.Pop ::
        (B ++ [OpCode.Loop (weight P + weight B + 7), OpCode.Pop]) := by
    simp
  have hposB : ∀ k : Nat,
      (P ++ [OpCode.JumpIfFalse (4 + weight B), OpCode.Pop]).length + k =
      P.length + (k + 1 + 1) := by
    intro k
    simp
    omega
  refine ⟨?_, whileH P.length B.length HP HB, hH0, by rw [hlen, hHend], ?_⟩
  · intro pc op hget
    rcases getElem?_append_cases P _ pc op hget with ⟨hpc, hg⟩ | ⟨k, rfl, hg⟩
    · have := confinedAt_embed [] P (OpCode.JumpIfFalse (4 + weight B) :: OpCode.Pop ::
        (B ++ [OpCode.Loop (weight P + weight B + 7), OpCode.Pop])) cfP pc op hg
      simpa using this
    · rcases getElem?_cons_cases _ _ _ _ hg with ⟨rfl, rfl⟩ | ⟨k', rfl, hg'⟩
      · simp only [ConfinedAt, OpCode.cls, Nat.add_zero]
        exact ⟨P.length + (3 + B.length), hTgt1⟩
      · rcases getElem?_cons_cases _ _ _ _ hg' with ⟨rfl, rfl⟩ | ⟨k'', rfl, hg''⟩
        · simp [ConfinedAt, OpCode.cls]
        · rcases getElem?_append_cases B _ k'' op hg'' with ⟨hk2, hg3⟩ | ⟨m, rfl, hg3⟩
          · have := confinedAt_embed (P ++ [OpCode.JumpIfFalse (4 + weight B),
              OpCode.Pop]) B [OpCode.Loop (weight P + weight B + 7), OpCode.Pop]
              cfB k'' op hg3
            rw [hconvB, hposB] at this
            exact this
          · rcases getElem?_cons_cases _ _ _ _ hg3 with ⟨rfl, rfl⟩ | ⟨m', rfl, hg4⟩
            · simp only [ConfinedAt, OpCode.cls]
              refine ⟨0, ?_⟩
              rw [show P.length + (B.length + 0 + 1 + 1) = P.length + (2 + B.length)
                by omega]
              exact hTgtB
            · rcases getElem?_cons_cases _ _ _ _ hg4 with ⟨rfl, rfl⟩ | ⟨m'', rfl, hg5⟩
              · simp [ConfinedAt, OpCode.cls]
              · simp at hg5
  · intro pc op hget
    rcases getElem?_append_cases P _ pc op hget with ⟨hpc, hg⟩ | ⟨k, rfl, hg⟩
    · have := instrOK_embed [] P (OpCode.JumpIfFalse (4 + weight B) :: OpCode.Pop ::
        (B ++ [OpCode.Loop (weight P + weight B + 7), OpCode.Pop]))
        (whileH P.length B.length HP HB) 0 HP cfP hcP agreeP pc op hg
      simpa using this
    · rcases getElem?_cons_cases _ _ _ _ hg with ⟨rfl, rfl⟩ | ⟨k', rfl, hg'⟩
      · simp only [InstrOK, OpCode.cls, Nat.add_zero]
        constructor
        · intro j hjt
          have hju : j = P.length + (3 + B.length) := TgtF_unique _ hjt hTgt1
          rw [hju, hHj, hHp]
        · rw [hHfall, hHp]
      · rcases getElem?_cons_cases _ _ _ _ hg' with ⟨rfl, rfl⟩ | ⟨k'', rfl, hg''⟩
        · simp only [InstrOK, show OpCode.Pop.cls = .plain (-1) from rfl]
          rw [show P.length + (0 + 1) + 1 = P.length + (2 + 0) by omega,
            hHb 0 (by omega)]
          rw [show P.length + (0 + 1) = P.length + 1 by omega, hHfall, hB0]
          omega
        · rcases getElem?_append_cases B _ k'' op hg'' with ⟨hk2, hg3⟩ | ⟨m, rfl, hg3⟩
          · have := instrOK_embed (P ++ [OpCode.JumpIfFalse (4 + weight B), OpCode.Pop])
              B [OpCode.Loop (weight P + weight B + 7), OpCode.Pop]
              (whileH P.length B.length HP HB) 0 HB cfB hcB agreeB k'' op hg3
            rw [hconvB, hposB] at this
            exact this
          · rcases getElem?_cons_cases _ _ _ _ hg3 with ⟨rfl, rfl⟩ | ⟨m', rfl, hg4⟩
            · simp only [InstrOK, OpCode.cls]
              rw [show P.length + (B.length + 0 + 1 + 1) = P.length + (2 + B.length)
                by omega]
              intro j hjt
              have hpcb : P.length + (2 + B.length) <
                  (P ++ OpCode.JumpIfFalse (4 + weight B) :: OpCode.Pop ::
                    (B ++ [OpCode.Loop (weight P + weight B + 7), OpCode.Pop])).length := by
                rw [hlen]
                omega
              have hju : j = 0 := TgtB_unique _ hpcb hjt hTgtB
              rw [hju, hH0, hHb B.length (le_refl _), hBl]
            · rcases getElem?_cons_cases _ _ _ _ hg4 with ⟨rfl, rfl⟩ | ⟨m'', rfl, hg5⟩
              · simp only [InstrOK, show OpCode.Pop.cls = .plain (-1) from rfl]
                rw [show P.length + (B.length + 0 + 1 + 1 + 1) + 1 =
                  P.length + (4 + B.length) by omega, hHend]
                rw [show P.length + (B.length + 0 + 1 + 1 + 1) =
                  P.length + (3 + B.length) by omega, hHj]
                omega
              · simp at hg5

theorem bal_popn (n : Nat) : Bal (List.replicate n OpCode.Pop) (-(n : Int)) := by
  induction n with
  | zero => simpa using bal_nil
  | succ n ih =>
    have hone : Bal [OpCode.Pop] (-1) := bal_single rfl
    have := bal_append hone ih
    rw [show [OpCode.Pop] ++ List.replicate n OpCode.Pop =
      List.replicate (n + 1) OpCode.Pop from by simp [List.replicate_succ]] at this
    rw [show (-1 : Int) + -(n : Int) = -((n + 1 : Nat) : Int) from by push_cast; ring] at this
    exact this

/-!
## Unfolding equations for the emitter's primitive state updates
-/

theorem Emitter.emit_eq (e : Emitter) (op : OpCode) (span : FreeSpan) :
    e.emit op span =
      ({ e with chunk := ⟨e.chunk.code ++ [op], e.chunk.constants,
        e.chunk.spans ++ [span]⟩ }, e.chunk.code.length) := rfl

theorem Emitter.emit1_eq (e : Emitter) (op : OpCode) (span : FreeSpan) :
    e.emit1 op span =
      { e with chunk := ⟨e.chunk.code ++ [op], e.chunk.constants,
        e.chunk.spans ++ [span]⟩ } := rfl

theorem Emitter.identifier_constant_eq (e : Emitter) (ident : Identifier) :
    e.identifier_constant ident =
      (e.chunk.constants.length,
        { e with chunk := ⟨e.chunk.code,
          e.chunk.constants ++ [Value.object (ident.token.span.anchor e.source)],
          e.chunk.spans⟩ }) := rfl

theorem set_append_at {α : Type} (a : List α) (x : α) (b : List α) (v : α) :
    (a ++ x :: b).set a.length v = a ++ v :: b := by
  induction a with
  | nil => simp
  | cons y a ih => simp [ih]

theorem getElem?_at_append {α : Type} (a : List α) (x : α) (b : List α) :
    (a ++ x :: b)[a.length]? = some x := by
  rw [List.getElem?_append, if_neg (by omega)]
  simp

theorem Emitter.patch_eq (e : Emitter) (handle : Nat) (op : OpCode)
    (h : e.chunk.code[handle]? = some op) :
    e.patch handle =
      { e with chunk := ⟨e.chunk.code.set handle
          (withOffset op (sizeTo e.chunk.code e.chunk.code.length -
            sizeTo e.chunk.code (handle + 1))),
        e.chunk.constants, e.chunk.spans⟩ } := by
  simp [Emitter.patch, Chunk.patch_jump, h]

/-- Successful `add_local`: capacity was below `u16::MAX`, no same-scope
shadowing, and the local is appended at the current depth. -/
theorem add_local_ok {e : Emitter} {name : Identifier} {e' : Emitter}
    (h : Emitter.add_local e name = .ok e') :
    e.locals.length < 65535 ∧
      e' = { e with locals := e.locals ++ [⟨name, e.scope_depth⟩] } := by
  unfold Emitter.add_local at h
  split at h
  · exact absurd h (by simp)
  · split at h
    · exact absurd h (by simp)
    · refine ⟨by omega, ?_⟩
      simpa using h.symm

/-!
## The locals discipline of `end_scope`
-/

/-- The emitter's locals are well-formed: no local is deeper than the
current scope depth.  `compile` starts this way and every operation
preserves it. -/
def WfLocals (e : Emitter) : Prop :=
  ∀ l ∈ e.locals, l.depth ≤ e.scope_depth

theorem mem_of_getLast? {α : Type} {l : List α} {a : α} (h : l.getLast? = some a) :
    a ∈ l := by
  cases l using List.reverseRecOn with
  | nil => simp at h
  | append_singleton init x =>
    rw [List.getLast?_concat] at h
    cases h
    simp

theorem popScopeLocals_stop (e : Emitter) (span : FreeSpan)
    (hall : ∀ l ∈ e.locals, l.depth ≤ e.scope_depth) :
    Emitter.popScopeLocals e span = e := by
  rw [Emitter.popScopeLocals]
  split
  · next top hlast =>
      have hmem : top ∈ e.locals := mem_of_getLast? hlast
      have hle := hall top hmem
      rw [if_neg (by omega)]
  · rfl

theorem popScopeLocals_spec (new : List Local) :
    ∀ (e : Emitter) (span : FreeSpan) (old : List Local),
      e.locals = old ++ new →
      (∀ l ∈ old, l.depth ≤ e.scope_depth) →
      (∀ l ∈ new, e.scope_depth < l.depth) →
      Emitter.popScopeLocals e span =
        { e with
          locals := old,
          chunk := ⟨e.chunk.code ++ List.replicate new.length OpCode.Pop,
            e.chunk.constants,
            e.chunk.spans ++ List.replicate new.length span⟩ } := by
  induction new using List.reverseRecOn with
  | nil =>
    intro e span old hsplit hold hnew
    simp only [List.append_nil] at hsplit
    rw [popScopeLocals_stop e span (by rw [hsplit]; exact hold)]
    cases e with
    | mk src ch lo sd =>
      cases ch with
      | mk a b c =>
        simp at hsplit
        simp [hsplit]
  | append_singleton rest lastL ih =>
    intro e span old hsplit hold hnew
    have hlast : e.locals.getLast? = some lastL := by
      rw [hsplit, show old ++ (rest ++ [lastL]) = (old ++ rest) ++ [lastL] from by simp]
      simp [List.getLast?_concat]
    have hdeep : lastL.depth > e.scope_depth := hnew lastL (by simp)
    rw [Emitter.popScopeLocals]
    rw [hlast]
    simp only [hdeep, if_true]
    have hdrop : e.locals.dropLast = old ++ rest := by
      rw [hsplit, show old ++ (rest ++ [lastL]) = (old ++ rest) ++ [lastL] from by simp]
      simp
    have := ih { e with
        locals := e.locals.dropLast,
        chunk := (e.chunk.emit OpCode.Pop span).1 } span old
      (by simpa using hdrop)
      (by simpa using hold)
      (by
        intro l hl
        exact hnew l (by simp [hl]))
    rw [this]
    cases e with
    | mk src ch lo sd =>
      cases ch with
      | mk a b c =>
        simp [Chunk.emit, List.replicate_succ]

theorem end_scope_eq (e : Emitter) (span : FreeSpan) (hpos : e.scope_depth > 0) :
    Emitter.end_scope e span =
      .ok (Emitter.popScopeLocals { e with scope_depth := e.scope_depth - 1 } span) := by
  unfold Emitter.end_scope
  rw [if_pos hpos]

/-!
## Post-conditions of the emitter functions
-/

/-- `e'` extends `e` by appending the instructions `Δ`, leaving the locals,
scope depth and source untouched (the constant pool and span table may
grow). -/
def Emits (e e' : Emitter) (Δ : List OpCode) : Prop :=
  e'.chunk.code = e.chunk.code ++ Δ ∧ e'.locals = e.locals ∧
    e'.scope_depth = e.scope_depth ∧ e'.source = e.source

/-- A successfully compiled expression appends a balanced slice pushing
exactly one value. -/
def ExprPost (e e' : Emitter) : Prop :=
  ∃ Δ, Emits e e' Δ ∧ Bal Δ 1

/-- A successfully compiled statement appends a stack-neutral slice. -/
def StmtPost (e e' : Emitter) : Prop :=
  ∃ Δ, Emits e e' Δ ∧ Bal Δ 0

/-- A successfully compiled declaration appends a slice whose stack delta
equals the number of locals it introduces (all at the current depth). -/
def DeclPost (e e' : Emitter) : Prop :=
  ∃ Δ L, e'.chunk.code = e.chunk.code ++ Δ ∧ e'.locals = e.locals ++ L ∧
    e'.scope_depth = e.scope_depth ∧ e'.source = e.source ∧
    Bal Δ (L.length : Int) ∧ ∀ l ∈ L, l.depth = e.scope_depth

theorem Emits.rfl (e : Emitter) : Emits e e [] := by
  simp [Emits]

theorem Emits.trans {e e1 e2 : Emitter} {Δ1 Δ2 : List OpCode}
    (h1 : Emits e e1 Δ1) (h2 : Emits e1 e2 Δ2) : Emits e e2 (Δ1 ++ Δ2) := by
  obtain ⟨hc1, hl1, hs1, hr1⟩ := h1
  obtain ⟨hc2, hl2, hs2, hr2⟩ := h2
  exact ⟨by rw [hc2, hc1, List.append_assoc], by rw [hl2, hl1],
    by rw [hs2, hs1], by rw [hr2, hr1]⟩

theorem Emits.emit1 (e : Emitter) (op : OpCode) (span : FreeSpan) :
    Emits e (e.emit1 op span) [op] := by
  simp [Emits, Emitter.emit1_eq]

theorem Emits.ic (e : Emitter) (ident : Identifier) :
    Emits e (e.identifier_constant ident).2 [] := by
  simp [Emits, Emitter.identifier_constant_eq]

theorem weight_cons (op : OpCode) (l : List OpCode) :
    weight (op :: l) = op.size + weight l := by
  simp [weight]

/-- Patching the branch at position `pre.length` of `pre ++ jop :: rest`
overwrites its operand with the byte distance to the current end of code,
which is the byte weight of `rest`. -/
theorem patch_at (e : Emitter) (pre : List OpCode) (jop : OpCode) (rest : List OpCode)
    (hcode : e.chunk.code = pre ++ jop :: rest) :
    e.patch pre.length =
      { e with chunk := ⟨pre ++ withOffset jop (weight rest) :: rest,
        e.chunk.constants, e.chunk.spans⟩ } := by
  have hget : e.chunk.code[pre.length]? = some jop := by
    rw [hcode]
    exact getElem?_at_append pre jop rest
  rw [Emitter.patch_eq e pre.length jop hget]
  have hoff : sizeTo e.chunk.code e.chunk.code.length -
      sizeTo e.chunk.code (pre.length + 1) = weight rest := by
    rw [hcode]
    rw [sizeTo_all _ (le_refl _), weight_append, weight_cons]
    rw [sizeTo_append_right pre (jop :: rest) 1,
      show (1 : Nat) = 0 + 1 from rfl, sizeTo_cons, sizeTo_zero]
    omega
  rw [hoff]
  congr 1
  rw [hcode, set_append_at]

theorem number_post {e : Emitter} {p : PrimaryExpr} {e' : Emitter}
    (h : Emitter.number e p = .ok e') : ExprPost e e' := by
  unfold Emitter.number at h
  simp only [Chunk.insert_constant] at h
  split at h
  · injection h with h
    subst h
    exact ⟨[.Constant e.chunk.constants.length], Emits.emit1 _ _ _, bal_single rfl⟩
  · exact absurd h (by simp)

theorem string_post {e : Emitter} {p : PrimaryExpr} {e' : Emitter}
    (h : Emitter.string e p = .ok e') : ExprPost e e' := by
  unfold Emitter.string at h
  simp only [Chunk.insert_constant] at h
  split at h
  · injection h with h
    subst h
    exact ⟨[.Constant e.chunk.constants.length], Emits.emit1 _ _ _, bal_single rfl⟩
  · exact absurd h (by simp)

theorem identifier_post {e : Emitter} {p : PrimaryExpr} {e' : Emitter}
    (h : Emitter.identifier e p = .ok e') : ExprPost e e' := by
  simp only [Emitter.identifier, Emitter.identifier_constant_eq] at h
  split at h
  · next slot _ =>
    injection h with h
    subst h
    exact ⟨[.GetLocal slot], Emits.emit1 _ _ _, bal_single rfl⟩
  · injection h with h
    subst h
    refine ⟨[.GetGlobal e.chunk.constants.length], ?_, bal_single rfl⟩
    have h1 := Emits.ic e ⟨p.token⟩
    have h2 := Emits.emit1 (e.identifier_constant ⟨p.token⟩).2
      (.GetGlobal e.chunk.constants.length) (Identifier.span ⟨p.token⟩)
    have := h1.trans h2
    simpa [Emitter.identifier_constant_eq] using this

theorem primary_expr_post {e : Emitter} {p : PrimaryExpr} {e' : Emitter}
    (h : Emitter.primary_expr e p = .ok e') : ExprPost e e' := by
  simp only [Emitter.primary_expr] at h
  split at h
  · injection h with h
    subst h
    exact ⟨[.Unit], Emits.emit1 _ _ _, bal_single rfl⟩
  · injection h with h
    subst h
    exact ⟨[.True], Emits.emit1 _ _ _, bal_single rfl⟩
  · injection h with h
    subst h
    exact ⟨[.False], Emits.emit1 _ _ _, bal_single rfl⟩
  · exact absurd h (by simp)
  · exact absurd h (by simp)
  · exact number_post h
  · exact string_post h
  · exact identifier_post h
  · exact absurd h (by simp)

theorem exprpost_binop {e e1 e2 : Emitter} {Δl Δr : List OpCode}
    (h1 : Emits e e1 Δl) (hb1 : Bal Δl 1) (h2 : Emits e1 e2 Δr) (hb2 : Bal Δr 1)
    {op : OpCode} (hop : op.cls = .plain (-1)) (span : FreeSpan) :
    ExprPost e (e2.emit1 op span) := by
  refine ⟨Δl ++ (Δr ++ [op]), h1.trans (h2.trans (Emits.emit1 _ _ _)), ?_⟩
  have := bal_append hb1 (bal_append hb2 (bal_single hop))
  rwa [show (1 : Int) + (1 + -1) = 1 from by norm_num] at this

theorem exprpost_binop2 {e e1 e2 : Emitter} {Δl Δr : List OpCode}
    (h1 : Emits e e1 Δl) (hb1 : Bal Δl 1) (h2 : Emits e1 e2 Δr) (hb2 : Bal Δr 1)
    {op1 op2 : OpCode} (hop1 : op1.cls = .plain (-1)) (hop2 : op2.cls = .plain 0)
    (span1 span2 : FreeSpan) :
    ExprPost e ((e2.emit1 op1 span1).emit1 op2 span2) := by
  refine ⟨Δl ++ (Δr ++ ([op1] ++ [op2])),
    h1.trans (h2.trans ((Emits.emit1 _ _ _).trans (Emits.emit1 _ _ _))), ?_⟩
  have := bal_append hb1 (bal_append hb2 (bal_append (bal_single hop1) (bal_single hop2)))
  rwa [show (1 : Int) + (1 + (-1 + 0)) = 1 from by norm_num] at this

theorem exprpost_tail0 {e e1 : Emitter} {Δ : List OpCode}
    (h1 : Emits e e1 Δ) (hb1 : Bal Δ 1) {op : OpCode} (hop : op.cls = .plain 0)
    (span : FreeSpan) : ExprPost e (e1.emit1 op span) := by
  refine ⟨Δ ++ [op], h1.trans (Emits.emit1 _ _ _), ?_⟩
  have := bal_append hb1 (bal_single hop)
  rwa [show (1 : Int) + 0 = 1 from by norm_num] at this

mutual

theorem expression_post (e : Emitter) (x : Expression) (e' : Emitter)
    (h : Emitter.expression e x = .ok e') : ExprPost e e' := by
  cases x with
  | Binary b =>
    simp only [Emitter.expression] at h
    exact binary_expr_post e b e' h
  | Unary u =>
    simp only [Emitter.expression] at h
    exact unary_expr_post e u e' h
  | Field f =>
    simp only [Emitter.expression, Emitter.field_expr] at h
    exact absurd h (by simp)
  | Group g =>
    cases g with
    | mk l inner r =>
      simp only [Emitter.expression] at h
      exact expression_post e inner e' h
  | Call c =>
    simp only [Emitter.expression, Emitter.call_expr] at h
    exact absurd h (by simp)
  | Primary p =>
    simp only [Emitter.expression] at h
    exact primary_expr_post h
  termination_by (sizeOf x, 0)
  decreasing_by
    all_goals (try subst_vars)
    all_goals decreasing_tactic

theorem binary_expr_post (e : Emitter) (b : BinaryExpr) (e' : Emitter)
    (h : Emitter.binary_expr e b = .ok e') : ExprPost e e' := by
  cases b with
  | mk lhs operator rhs =>
    simp only [Emitter.binary_expr.eq_def, bind, Except.bind,
      Emitter.identifier_constant_eq] at h
    by_cases hEq : operator.kind = .Equal
    · rw [if_pos hEq] at h
      split at h
      · next primary =>
        by_cases hid : primary.token.kind = .Identifier
        · rw [if_pos hid] at h
          split at h
          · simp at h
          · next e1 heq1 =>
            have hp1 := expression_post e rhs e1 heq1
            obtain ⟨Δr, hm1, hb1⟩ := hp1
            split at h
            · next slot _ =>
              injection h with h
              subst h
              refine exprpost_tail0 hm1 hb1 ?_ _
              rfl
            · injection h with h
              subst h
              refine exprpost_tail0 (Δ := Δr) ?_ hb1 ?_ _
              · have := hm1.trans (Emits.ic e1 ⟨primary.token⟩)
                simpa [Emitter.identifier_constant_eq] using this
              · rfl
        · rw [if_neg hid] at h
          simp at h
      · simp at h
    · rw [if_neg hEq] at h
      by_cases hOr : operator.kind = .Or
      · rw [if_pos hOr] at h
        exact or_post e (.mk lhs operator rhs) e' h
      · rw [if_neg hOr] at h
        by_cases hAnd : operator.kind = .And
        · rw [if_pos hAnd] at h
          exact and_post e (.mk lhs operator rhs) e' h
        · rw [if_neg hAnd] at h
          split at h
          · simp at h
          · next e1 heq1 =>
            have hp1 := expression_post e lhs e1 heq1
            obtain ⟨Δl, hm1, hb1⟩ := hp1
            split at h
            · simp at h
            · next e2 heq2 =>
              have hp2 := expression_post e1 rhs e2 heq2
              obtain ⟨Δr, hm2, hb2⟩ := hp2
              split at h <;>
                first
                | simp at h
                | (injection h with h
                   subst h
                   refine exprpost_binop hm1 hb1 hm2 hb2 ?_ _
                   rfl)
                | (injection h with h
                   subst h
                   refine exprpost_binop2 hm1 hb1 hm2 hb2 ?_ ?_ _ _ <;> rfl)
  termination_by (sizeOf b, 1)
  decreasing_by
    all_goals (try subst_vars)
    all_goals decreasing_tactic

theorem and_post (e : Emitter) (b : BinaryExpr) (e' : Emitter)
    (h : Emitter.and e b = .ok e') : ExprPost e e' := by
  cases b with
  | mk lhs operator rhs =>
    simp only [Emitter.and, bind, Except.bind, Emitter.emit_eq] at h
    split at h
    · simp at h
    · next e1 heq1 =>
      have hp1 := expression_post e lhs e1 heq1
      obtain ⟨Δl, hm1, hb1⟩ := hp1
      split at h
      · simp at h
      · next e4 heq2 =>
        have hp2 := expression_post _ rhs e4 heq2
        obtain ⟨Δr, hm2, hb2⟩ := hp2
        injection h with h
        subst h
        obtain ⟨hc1, hl1, hs1, hr1⟩ := hm1
        obtain ⟨hc2, hl2, hs2, hr2⟩ := hm2
        simp only [Emitter.emit1_eq] at hc2 hl2 hs2 hr2
        have hcode4 : e4.chunk.code =
            (e.chunk.code ++ Δl) ++ OpCode.JumpIfFalse DUMMY :: OpCode.Pop :: Δr := by
          rw [hc2, hc1]
          simp
        have hhandle : e1.chunk.code.length = (e.chunk.code ++ Δl).length := by
          rw [hc1]
        rw [hhandle, patch_at e4 (e.chunk.code ++ Δl) (.JumpIfFalse DUMMY)
          (OpCode.Pop :: Δr) hcode4]
        have hw : weight (OpCode.Pop :: Δr) = 1 + weight Δr := by
          simp [weight_cons, OpCode.size]
        refine ⟨Δl ++ OpCode.JumpIfFalse (1 + weight Δr) :: OpCode.Pop :: Δr,
          ⟨?_, ?_, ?_, ?_⟩, ?_⟩
        · simp [withOffset, hw]
        · simp [hl2, hl1]
        · simp [hs2, hs1]
        · simp [hr2, hr1]
        · exact bal_shortcircuit rfl hb1 hb2
  termination_by (sizeOf b, 0)
  decreasing_by
    all_goals (try subst_vars)
    all_goals decreasing_tactic

theorem or_post (e : Emitter) (b : BinaryExpr) (e' : Emitter)
    (h : Emitter.or e b = .ok e') : ExprPost e e' := by
  cases b with
  | mk lhs operator rhs =>
    simp only [Emitter.or, bind, Except.bind, Emitter.emit_eq] at h
    split at h
    · simp at h
    · next e1 heq1 =>
      have hp1 := expression_post e lhs e1 heq1
      obtain ⟨Δl, hm1, hb1⟩ := hp1
      split at h
      · simp at h
      · next e4 heq2 =>
        have hp2 := expression_post _ rhs e4 heq2
        obtain ⟨Δr, hm2, hb2⟩ := hp2
        injection h with h
        subst h
        obtain ⟨hc1, hl1, hs1, hr1⟩ := hm1
        obtain ⟨hc2, hl2, hs2, hr2⟩ := hm2
        simp only [Emitter.emit1_eq] at hc2 hl2 hs2 hr2
        have hcode4 : e4.chunk.code =
            (e.chunk.code ++ Δl) ++ OpCode.JumpIfTrue DUMMY :: OpCode.Pop :: Δr := by
          rw [hc2, hc1]
          simp
        have hhandle : e1.chunk.code.length = (e.chunk.code ++ Δl).length := by
          rw [hc1]
        rw [hhandle, patch_at e4 (e.chunk.code ++ Δl) (.JumpIfTrue DUMMY)
          (OpCode.Pop :: Δr) hcode4]
        have hw : weight (OpCode.Pop :: Δr) = 1 + weight Δr := by
          simp [weight_cons, OpCode.size]
        refine ⟨Δl ++ OpCode.JumpIfTrue (1 + weight Δr) :: OpCode.Pop :: Δr,
          ⟨?_, ?_, ?_, ?_⟩, ?_⟩
        · simp [withOffset, hw]
        · simp [hl2, hl1]
        · simp [hs2, hs1]
        · simp [hr2, hr1]
        · exact bal_shortcircuit rfl hb1 hb2
  termination_by (sizeOf b, 0)
  decreasing_by
    all_goals (try subst_vars)
    all_goals decreasing_tactic

theorem unary_expr_post (e : Emitter) (u : UnaryExpr) (e' : Emitter)
    (h : Emitter.unary_expr e u = .ok e') : ExprPost e e' := by
  cases u with
  | mk operator expr =>
    simp only [Emitter.unary_expr, bind, Except.bind] at h
    split at h
    · simp at h
    · next e1 heq1 =>
      have hp1 := expression_post e expr e1 heq1
      obtain ⟨Δ, hm1, hb1⟩ := hp1
      split at h <;>
        first
        | simp at h
        | (injection h with h
           subst h
           refine exprpost_tail0 hm1 hb1 ?_ _
           rfl)
  termination_by (sizeOf u, 0)
  decreasing_by
    all_goals (try subst_vars)
    all_goals decreasing_tactic

end

theorem WfLocals.of_eq {e e' : Emitter} (hl : e'.locals = e.locals)
    (hs : e'.scope_depth = e.scope_depth) (hw : WfLocals e) : WfLocals e' := by
  intro l hlm
  rw [hl] at hlm
  rw [hs]
  exact hw l hlm

theorem stmtpost_tail {e e1 : Emitter} {Δ : List OpCode}
    (h1 : Emits e e1 Δ) (hb : Bal Δ 1) {op : OpCode} (hop : op.cls = .plain (-1))
    (span : FreeSpan) : StmtPost e (e1.emit1 op span) := by
  refine ⟨Δ ++ [op], h1.trans (Emits.emit1 _ _ _), ?_⟩
  have := bal_append hb (bal_single hop)
  rwa [show (1 : Int) + -1 = 0 from by norm_num] at this

theorem DeclPost_of_StmtPost {e e' : Emitter} (h : StmtPost e e') : DeclPost e e' := by
  obtain ⟨Δ, ⟨hc, hl, hs, hr⟩, hb⟩ := h
  exact ⟨Δ, [], hc, by simp [hl], hs, hr, by simpa using hb, by simp⟩

theorem expr_stmt_post (e : Emitter) (es : ExprStmt) (e' : Emitter)
    (h : Emitter.expr_stmt e es = .ok e') : StmtPost e e' := by
  cases es with
  | mk expr semicolon_tok =>
    simp only [Emitter.expr_stmt, bind, Except.bind] at h
    split at h
    · simp at h
    · next e1 heq1 =>
      obtain ⟨Δ, hm1, hb1⟩ := expression_post e expr e1 heq1
      injection h with h
      subst h
      refine stmtpost_tail hm1 hb1 ?_ _
      rfl

theorem assert_stmt_post (e : Emitter) (a : AssertStmt) (e' : Emitter)
    (h : Emitter.assert_stmt e a = .ok e') : StmtPost e e' := by
  cases a with
  | mk assert_tok expr semicolon_tok =>
    simp only [Emitter.assert_stmt, bind, Except.bind] at h
    split at h
    · simp at h
    · next e1 heq1 =>
      obtain ⟨Δ, hm1, hb1⟩ := expression_post e expr e1 heq1
      injection h with h
      subst h
      refine stmtpost_tail hm1 hb1 ?_ _
      rfl

theorem print_stmt_post (e : Emitter) (p : PrintStmt) (e' : Emitter)
    (h : Emitter.print_stmt e p = .ok e') : StmtPost e e' := by
  cases p with
  | mk print_tok expr semicolon_tok =>
    simp only [Emitter.print_stmt, bind, Except.bind] at h
    split at h
    · simp at h
    · next e1 heq1 =>
      obtain ⟨Δ, hm1, hb1⟩ := expression_post e expr e1 heq1
      injection h with h
      subst h
      refine stmtpost_tail hm1 hb1 ?_ _
      rfl

theorem var_decl_post (e : Emitter) (v : VarDecl) (e' : Emitter)
    (h : Emitter.var_decl e v = .ok e') : DeclPost e e' := by
  cases v with
  | mk var_tok ident init semicolon_tok =>
    cases init with
    | some vi =>
      cases vi with
      | mk equal_tok initExpr =>
        simp only [Emitter.var_decl, bind, Except.bind,
          Emitter.identifier_constant_eq] at h
        split at h
        · simp at h
        · next e1 heq1 =>
          obtain ⟨Δi, hm1, hb1⟩ := expression_post e initExpr e1 heq1
          obtain ⟨hc1, hl1, hs1, hr1⟩ := hm1
          split at h
          · -- global: DefGlobal
            next hz =>
            injection h with h
            subst h
            refine ⟨Δi ++ [.DefGlobal e1.chunk.constants.length], [], ?_, ?_, ?_, ?_, ?_, ?_⟩
            · simp [Emitter.emit1_eq, hc1]
            · simp [Emitter.emit1_eq, hl1]
            · simp [Emitter.emit1_eq, hs1]
            · simp [Emitter.emit1_eq, hr1]
            · have := bal_append hb1
                (bal_single (show (OpCode.DefGlobal e1.chunk.constants.length).cls =
                  .plain (-1) from rfl))
              simpa using this
            · simp
          · -- local: add_local
            next hz =>
            obtain ⟨hcap, rfl⟩ := add_local_ok h
            refine ⟨Δi, [⟨ident, e.scope_depth⟩], by simpa using hc1, ?_, by simpa using hs1,
              by simpa using hr1, ?_, ?_⟩
            · simp [hl1, hs1]
            · simpa using hb1
            · simp
    | none =>
      simp only [Emitter.var_decl, bind, Except.bind, pure, Except.pure,
        Emitter.identifier_constant_eq, Emitter.emit1_eq] at h
      split at h
      · -- global
        next hz =>
        injection h with h
        subst h
        refine ⟨[.Unit, .DefGlobal e.chunk.constants.length], [], ?_, ?_, ?_, ?_, ?_, ?_⟩
        · simp
        · simp
        · simp
        · simp
        · have := bal_append (bal_single (show OpCode.Unit.cls = .plain 1 from rfl))
            (bal_single (show (OpCode.DefGlobal e.chunk.constants.length).cls =
              .plain (-1) from rfl))
          simpa using this
        · simp
      · -- local
        next hz =>
        obtain ⟨hcap, rfl⟩ := add_local_ok h
        refine ⟨[.Unit], [⟨ident, e.scope_depth⟩], ?_, ?_, ?_, ?_, ?_, ?_⟩
        · simp
        · simp
        · simp
        · simp
        · simpa using bal_single (show OpCode.Unit.cls = .plain 1 from rfl)
        · simp

mutual

theorem declaration_post (e : Emitter) (d : Declaration) (e' : Emitter)
    (hw : WfLocals e) (h : Emitter.declaration e d = .ok e') : DeclPost e e' := by
  cases d with
  | Class c =>
    simp only [Emitter.declaration, Emitter.class_decl] at h
    exact absurd h (by simp)
  | Fun f =>
    simp only [Emitter.declaration, Emitter.fun_decl] at h
    exact absurd h (by simp)
  | Var v =>
    simp only [Emitter.declaration] at h
    exact var_decl_post e v e' h
  | Statement s =>
    simp only [Emitter.declaration] at h
    exact DeclPost_of_StmtPost (statement_post e s e' hw h)
  termination_by (sizeOf d, 0)
  decreasing_by
    all_goals (try subst_vars)
    all_goals decreasing_tactic

theorem statement_post (e : Emitter) (s : Statement) (e' : Emitter)
    (hw : WfLocals e) (h : Emitter.statement e s = .ok e') : StmtPost e e' := by
  cases s with
  | Expr es =>
    simp only [Emitter.statement] at h
    exact expr_stmt_post e es e' h
  | For f =>
    simp only [Emitter.statement, Emitter.for_stmt] at h
    exact absurd h (by simp)
  | If i =>
    simp only [Emitter.statement] at h
    exact if_stmt_post e i e' hw h
  | Assert a =>
    simp only [Emitter.statement] at h
    exact assert_stmt_post e a e' h
  | Print p =>
    simp only [Emitter.statement] at h
    exact print_stmt_post e p e' h
  | Return r =>
    simp only [Emitter.statement, Emitter.return_stmt] at h
    exact absurd h (by simp)
  | While w =>
    simp only [Emitter.statement] at h
    exact while_stmt_post e w e' hw h
  | Block b =>
    simp only [Emitter.statement] at h
    exact block_post e b e' hw h
  termination_by (sizeOf s, 0)
  decreasing_by
    all_goals (try subst_vars)
    all_goals decreasing_tactic

theorem if_stmt_post (e : Emitter) (i : IfStmt) (e' : Emitter)
    (hw : WfLocals e) (h : Emitter.if_stmt e i = .ok e') : StmtPost e e' := by
  cases i with
  | mk if_tok pred body else_branch =>
    cases else_branch with
    | some eb =>
      cases eb with
      | mk else_tok ebody =>
        simp only [Emitter.if_stmt, bind, Except.bind, Emitter.emit_eq,
          Emitter.emit1_eq, pure, Except.pure] at h
        split at h
        · simp at h
        · next e1 heq1 =>
          obtain ⟨ΔP, ⟨hc1, hl1, hs1, hr1⟩, hb1⟩ := expression_post e pred e1 heq1
          split at h
          · simp at h
          · next e4 heq2 =>
            obtain ⟨ΔT, ⟨hc2, hl2, hs2, hr2⟩, hb2⟩ := block_post _ body e4
              (WfLocals.of_eq (e := e) (by simp [hl1]) (by simp [hs1]) hw) heq2
            simp only at hc2 hl2 hs2 hr2
            split at h
            · simp at h
            · next e8 heq3 =>
              -- the state before the else block
              have hcode5 : ({ e4 with chunk := ⟨e4.chunk.code ++ [OpCode.Jump DUMMY],
                  e4.chunk.constants, e4.chunk.spans ++ [if_tok.span]⟩ } :
                    Emitter).chunk.code =
                  (e.chunk.code ++ ΔP) ++ OpCode.JumpIfFalse DUMMY ::
                    OpCode.Pop :: (ΔT ++ [OpCode.Jump DUMMY]) := by
                simp [hc2, hc1]
              have hhandle : e1.chunk.code.length = (e.chunk.code ++ ΔP).length := by
                rw [hc1]
              rw [hhandle, patch_at _ (e.chunk.code ++ ΔP) (.JumpIfFalse DUMMY)
                (OpCode.Pop :: (ΔT ++ [OpCode.Jump DUMMY])) hcode5] at heq3
              obtain ⟨ΔE, ⟨hc3, hl3, hs3, hr3⟩, hb3⟩ := block_post _ ebody e8
                (WfLocals.of_eq (e := e) (by simp [hl2, hl1])
                  (by simp [hs2, hs1]) hw) heq3
              simp only at hc3 hl3 hs3 hr3
              injection h with h
              subst h
              have hwT : weight (OpCode.Pop :: (ΔT ++ [OpCode.Jump DUMMY])) =
                  4 + weight ΔT := by
                simp [weight_cons, weight_append, weight, OpCode.size]
                omega
              have hcode8 : e8.chunk.code =
                  ((e.chunk.code ++ ΔP) ++ OpCode.JumpIfFalse (4 + weight ΔT) ::
                    OpCode.Pop :: ΔT) ++ OpCode.Jump DUMMY :: OpCode.Pop :: ΔE := by
                rw [hc3]
                simp [hwT, withOffset]
              have hej : e4.chunk.code.length =
                  (((e.chunk.code ++ ΔP) ++ OpCode.JumpIfFalse (4 + weight ΔT) ::
                    OpCode.Pop :: ΔT)).length := by
                rw [hc2, hc1]
                simp
              rw [hej, patch_at e8 _ (.Jump DUMMY) (OpCode.Pop :: ΔE) hcode8]
              have hwE : weight (OpCode.Pop :: ΔE) = 1 + weight ΔE := by
                simp [weight_cons, OpCode.size]
              refine ⟨ΔP ++ OpCode.JumpIfFalse (4 + weight ΔT) :: OpCode.Pop ::
                (ΔT ++ OpCode.Jump (1 + weight ΔE) :: OpCode.Pop :: ΔE),
                ⟨?_, ?_, ?_, ?_⟩, ?_⟩
              · simp [withOffset, hwE]
              · simp [hl3, hl2, hl1]
              · simp [hs3, hs2, hs1]
              · simp [hr3, hr2, hr1]
              · exact bal_ifshape hb1 hb2 hb3
    | none =>
      simp only [Emitter.if_stmt, bind, Except.bind, Emitter.emit_eq,
        Emitter.emit1_eq, pure, Except.pure] at h
      split at h
      · simp at h
      · next e1 heq1 =>
        obtain ⟨ΔP, ⟨hc1, hl1, hs1, hr1⟩, hb1⟩ := expression_post e pred e1 heq1
        split at h
        · simp at h
        · next e4 heq2 =>
          obtain ⟨ΔT, ⟨hc2, hl2, hs2, hr2⟩, hb2⟩ := block_post _ body e4
            (WfLocals.of_eq (e := e) (by simp [hl1]) (by simp [hs1]) hw) heq2
          simp only at hc2 hl2 hs2 hr2
          have hcode5 : ({ e4 with chunk := ⟨e4.chunk.code ++ [OpCode.Jump DUMMY],
              e4.chunk.constants, e4.chunk.spans ++ [if_tok.span]⟩ } :
                Emitter).chunk.code =
              (e.chunk.code ++ ΔP) ++ OpCode.JumpIfFalse DUMMY ::
                OpCode.Pop :: (ΔT ++ [OpCode.Jump DUMMY]) := by
            simp [hc2, hc1]
          have hhandle : e1.chunk.code.length = (e.chunk.code ++ ΔP).length := by
            rw [hc1]
          rw [hhandle, patch_at _ (e.chunk.code ++ ΔP) (.JumpIfFalse DUMMY)
            (OpCode.Pop :: (ΔT ++ [OpCode.Jump DUMMY])) hcode5] at h
          simp only [Emitter.emit1_eq] at h
          injection h with h
          subst h
          have hwT : weight (OpCode.Pop :: (ΔT ++ [OpCode.Jump DUMMY])) =
              4 + weight ΔT := by
            simp [weight_cons, weight_append, weight, OpCode.size]
            omega
          have hcode8 : ((⟨e4.source,
              ⟨((e.chunk.code ++ ΔP) ++ withOffset (OpCode.JumpIfFalse DUMMY)
                  (weight (OpCode.Pop :: (ΔT ++ [OpCode.Jump DUMMY]))) ::
                  OpCode.Pop :: (ΔT ++ [OpCode.Jump DUMMY])) ++ [OpCode.Pop],
                e4.chunk.constants, e4.chunk.spans ++ [if_tok.span] ++ [if_tok.span]⟩,
              e4.locals, e4.scope_depth⟩ : Emitter)).chunk.code =
              ((e.chunk.code ++ ΔP) ++ OpCode.JumpIfFalse (4 + weight ΔT) ::
                OpCode.Pop :: ΔT) ++ OpCode.Jump DUMMY :: OpCode.Pop :: [] := by
            simp [withOffset, hwT]
          have hej : e4.chunk.code.length =
              (((e.chunk.code ++ ΔP) ++ OpCode.JumpIfFalse (4 + weight ΔT) ::
                OpCode.Pop :: ΔT)).length := by
            rw [hc2, hc1]
            simp
          rw [hej, patch_at _ _ (.Jump DUMMY) (OpCode.Pop :: []) hcode8]
          refine ⟨ΔP ++ OpCode.JumpIfFalse (4 + weight ΔT) :: OpCode.Pop ::
            (ΔT ++ OpCode.Jump (1 + weight ([] : List OpCode)) :: OpCode.Pop :: []),
            ⟨?_, ?_, ?_, ?_⟩, ?_⟩
          · simp [withOffset, weight_cons, weight, OpCode.size]
          · simp [hl2, hl1]
          · simp [hs2, hs1]
          · simp [hr2, hr1]
          · exact bal_ifshape hb1 hb2 bal_nil
  termination_by (sizeOf i, 0)
  decreasing_by
    all_goals (try subst_vars)
    all_goals decreasing_tactic

theorem while_stmt_post (e : Emitter) (w : WhileStmt) (e' : Emitter)
    (hw : WfLocals e) (h : Emitter.while_stmt e w = .ok e') : StmtPost e e' := by
  cases w with
  | mk while_tok pred body =>
    cases body with
    | mk left_brace_tok bodyDecls right_brace_tok =>
      simp only [Emitter.while_stmt, bind, Except.bind, Emitter.emit_eq,
        Emitter.emit1_eq, pure, Except.pure, Chunk.loop_point] at h
      split at h
      · simp at h
      · next e1 heq1 =>
        obtain ⟨ΔP, ⟨hc1, hl1, hs1, hr1⟩, hb1⟩ := expression_post e pred e1 heq1
        split at h
        · simp at h
        · next e4 heq2 =>
          obtain ⟨ΔB, ⟨hc2, hl2, hs2, hr2⟩, hb2⟩ :=
            block_post _ (.mk left_brace_tok bodyDecls right_brace_tok) e4
              (WfLocals.of_eq (e := e) (by simp [hl1]) (by simp [hs1]) hw) heq2
          simp only at hc2 hl2 hs2 hr2
          injection h with h
          subst h
          -- the emit_loop offset
          have hloop : Chunk.emit_loop e4.chunk e.chunk.code.length
              right_brace_tok.span =
              ⟨e4.chunk.code ++ [OpCode.Loop (weight ΔP + weight ΔB + 7)],
                e4.chunk.constants, e4.chunk.spans ++ [right_brace_tok.span]⟩ := by
            unfold Chunk.emit_loop Chunk.emit
            have hcode4 : e4.chunk.code = e.chunk.code ++
                (ΔP ++ OpCode.JumpIfFalse DUMMY :: OpCode.Pop :: ΔB) := by
              rw [hc2, hc1]
              simp
            have h1 : sizeTo e4.chunk.code e4.chunk.code.length =
                weight e.chunk.code + (weight ΔP + 4 + weight ΔB) := by
              rw [sizeTo_all _ (le_refl _), hcode4, weight_append, weight_append,
                weight_cons, weight_cons]
              simp [OpCode.size]
              omega
            have h2 : sizeTo e4.chunk.code e.chunk.code.length =
                weight e.chunk.code := by
              rw [hcode4, sizeTo_append_left _ _ (le_refl _), sizeTo_length]
            rw [h1, h2]
            have hAB : weight e.chunk.code + (weight ΔP + 4 + weight ΔB) + 3 -
                weight e.chunk.code = weight ΔP + weight ΔB + 7 := by omega
            simp [hAB]
          rw [hloop]
          -- the exit-jump patch
          have hcode5 : (⟨e4.chunk.code ++ [OpCode.Loop (weight ΔP + weight ΔB + 7)],
              e4.chunk.constants, e4.chunk.spans ++ [right_brace_tok.span]⟩ : Chunk).code =
              (e.chunk.code ++ ΔP) ++ OpCode.JumpIfFalse DUMMY :: OpCode.Pop ::
                (ΔB ++ [OpCode.Loop (weight ΔP + weight ΔB + 7)]) := by
            simp [hc2, hc1]
          have hhandle : e1.chunk.code.length = (e.chunk.code ++ ΔP).length := by
            rw [hc1]
          rw [hhandle, patch_at _ (e.chunk.code ++ ΔP) (.JumpIfFalse DUMMY)
            (OpCode.Pop :: (ΔB ++ [OpCode.Loop (weight ΔP + weight ΔB + 7)])) hcode5]
          have hwB : weight (OpCode.Pop :: (ΔB ++
              [OpCode.Loop (weight ΔP + weight ΔB + 7)])) = 4 + weight ΔB := by
            simp [weight_cons, weight_append, weight, OpCode.size]
            omega
          refine ⟨ΔP ++ OpCode.JumpIfFalse (4 + weight ΔB) :: OpCode.Pop ::
            (ΔB ++ [OpCode.Loop (weight ΔP + weight ΔB + 7), OpCode.Pop]),
            ⟨?_, ?_, ?_, ?_⟩, ?_⟩
          · simp [Emitter.emit1_eq, withOffset, hwB]
          · simp [Emitter.emit1_eq, hl2, hl1]
          · simp [Emitter.emit1_eq, hs2, hs1]
          · simp [Emitter.emit1_eq, hr2, hr1]
          · exact bal_whileshape hb1 hb2
  termination_by (sizeOf w, 0)
  decreasing_by
    all_goals (try subst_vars)
    all_goals decreasing_tactic

theorem block_post (e : Emitter) (b : Block) (e' : Emitter)
    (hw : WfLocals e) (h : Emitter.block e b = .ok e') : StmtPost e e' := by
  cases b with
  | mk left_brace_tok body right_brace_tok =>
    simp only [Emitter.block, bind, Except.bind] at h
    split at h
    · simp at h
    · next e2 heq1 =>
      have hw1 : WfLocals (Emitter.begin_scope e) := by
        intro l hl
        simp only [Emitter.begin_scope] at hl ⊢
        have := hw l hl
        omega
      obtain ⟨Δ, L, hc, hloc, hs, hr, hb, hdep⟩ :=
        declList_post (Emitter.begin_scope e) body e2 hw1 heq1
      simp only [Emitter.begin_scope] at hc hloc hs hr hdep
      unfold Emitter.end_scope at h
      split at h
      · next hpos =>
        injection h with h
        subst h
        have hpop := popScopeLocals_spec L
          { e2 with scope_depth := e2.scope_depth - 1 } right_brace_tok.span e.locals
          (by simpa using hloc)
          (by
            intro l hl
            simp only
            have := hw l hl
            omega)
          (by
            intro l hl
            simp only
            rw [hdep l hl]
            omega)
        rw [hpop]
        refine ⟨Δ ++ List.replicate L.length OpCode.Pop, ⟨?_, ?_, ?_, ?_⟩, ?_⟩
        · simp [hc]
        · simp
        · simp [hs]
        · simp [hr]
        · have := bal_append hb (bal_popn L.length)
          rwa [show (L.length : Int) + -(L.length : Int) = 0 from by ring] at this
      · simp at h
  termination_by (sizeOf b, 1)
  decreasing_by
    all_goals (try subst_vars)
    all_goals decreasing_tactic

theorem declList_post (e : Emitter) (ds : List Declaration) (e' : Emitter)
    (hw : WfLocals e) (h : Emitter.declList e ds = .ok e') : DeclPost e e' := by
  cases ds with
  | nil =>
    simp only [Emitter.declList] at h
    injection h with h
    subst h
    exact ⟨[], [], by simp, by simp, rfl, rfl, by simpa using bal_nil, by simp⟩
  | cons d rest =>
    simp only [Emitter.declList, bind, Except.bind] at h
    split at h
    · simp at h
    · next e1 heq1 =>
      obtain ⟨Δ1, L1, hc1, hl1, hs1, hr1, hb1, hdep1⟩ :=
        declaration_post e d e1 hw heq1
      have hw1 : WfLocals e1 := by
        intro l hl
        rw [hl1] at hl
        rw [hs1]
        rcases List.mem_append.mp hl with hmem | hmem
        · exact hw l hmem
        · rw [hdep1 l hmem]
      obtain ⟨Δ2, L2, hc2, hl2, hs2, hr2, hb2, hdep2⟩ :=
        declList_post e1 rest e' hw1 h
      refine ⟨Δ1 ++ Δ2, L1 ++ L2, ?_, ?_, ?_, ?_, ?_, ?_⟩
      · rw [hc2, hc1, List.append_assoc]
      · rw [hl2, hl1, List.append_assoc]
      · rw [hs2, hs1]
      · rw [hr2, hr1]
      · have := bal_append hb1 hb2
        rwa [show (L1.length : Int) + (L2.length : Int) =
          (((L1 ++ L2).length : Nat) : Int) from by simp] at this
      · intro l hl
        rcases List.mem_append.mp hl with hmem | hmem
        · exact hdep1 l hmem
        · rw [hdep2 l hmem, hs1]
  termination_by (sizeOf ds, 0)
  decreasing_by
    all_goals (try subst_vars)
    all_goals decreasing_tactic

end


/-!
## The claims about the emitter (C2 and the concrete fixtures)
-/

/-- C2.  Stack discipline: a successfully compiled statement appends an
instruction slice whose stack-height delta along every control-flow path
from its start to its end is 0, and a successfully compiled expression
appends a slice whose delta is exactly +1; both slices are balanced
(`Bal`): all branches stay inside the slice, witnessed by a consistent
height annotation. -/
theorem c2_stack_discipline :
    (∀ (e : Emitter) (s : Statement) (e' : Emitter), WfLocals e →
      Emitter.statement e s = .ok e' →
      ∃ Δ, e'.chunk.code = e.chunk.code ++ Δ ∧ Bal Δ 0 ∧
        ∀ h h' : Int, Reach Δ (0, h) (Δ.length, h') → h' = h) ∧
    (∀ (e : Emitter) (x : Expression) (e' : Emitter),
      Emitter.expression e x = .ok e' →
      ∃ Δ, e'.chunk.code = e.chunk.code ++ Δ ∧ Bal Δ 1 ∧
        ∀ h h' : Int, Reach Δ (0, h) (Δ.length, h') → h' = h + 1) := by
  constructor
  · intro e s e' hw h
    obtain ⟨Δ, ⟨hc, -, -, -⟩, hb⟩ := statement_post e s e' hw h
    refine ⟨Δ, hc, hb, fun h1 h2 hr => ?_⟩
    have := bal_reach hb hr
    omega
  · intro e x e' h
    obtain ⟨Δ, ⟨hc, -, -, -⟩, hb⟩ := expression_post e x e' h
    exact ⟨Δ, hc, hb, fun h1 h2 hr => bal_reach hb hr⟩

/-- Concrete fixture: the source `1;`. -/
def srcOne : List Char := ['1', ';']

def tokOne : Token := ⟨.Number, ⟨0, 1⟩⟩

def tokSemiOne : Token := ⟨.Semicolon, ⟨1, 2⟩⟩

/-- The expression statement `1;`. -/
def stmtOne : Statement := .Expr (.mk (.Primary (.mk tokOne)) tokSemiOne)

/-- A fresh emitter over the source `1;`. -/
def emOne : Emitter := ⟨srcOne, Chunk.empty, [], 0⟩

/-- The emitter state after compiling the statement `1;`. -/
def emOne' : Emitter :=
  ⟨srcOne, ⟨[.Constant 0, .Pop], [.number ['1']], [⟨0, 1⟩, ⟨1, 2⟩]⟩, [], 0⟩

/-- The emitter state after compiling the expression `1` alone. -/
def emOneE : Emitter :=
  ⟨srcOne, ⟨[.Constant 0], [.number ['1']], [⟨0, 1⟩]⟩, [], 0⟩

theorem c2_witness :
    (WfLocals emOne ∧ Emitter.statement emOne stmtOne = .ok emOne' ∧
      (∃ Δ, emOne'.chunk.code = emOne.chunk.code ++ Δ ∧ Bal Δ 0 ∧
        ∀ h h' : Int, Reach Δ (0, h) (Δ.length, h') → h' = h)) ∧
    (Emitter.expression emOne (.Primary (.mk tokOne)) = .ok emOneE ∧
      (∃ Δ, emOneE.chunk.code = emOne.chunk.code ++ Δ ∧ Bal Δ 1 ∧
        ∀ h h' : Int, Reach Δ (0, h) (Δ.length, h') → h' = h + 1)) := by
  have hwf : WfLocals emOne := by
    intro l hl
    simp [emOne] at hl
  have hst : Emitter.statement emOne stmtOne = .ok emOne' := by
    simp [Emitter.statement, Emitter.expr_stmt, Emitter.expression,
      Emitter.primary_expr, Emitter.number, Emitter.emit1, Emitter.emit,
      Chunk.emit, Chunk.insert_constant, Chunk.empty, validNumberLexeme,
      FreeSpan.anchor, PrimaryExpr.span, emOne, emOne', stmtOne, tokOne,
      tokSemiOne, srcOne, bind, Except.bind, pure, Except.pure]
  have hex : Emitter.expression emOne (.Primary (.mk tokOne)) = .ok emOneE := by
    simp [Emitter.expression, Emitter.primary_expr, Emitter.number,
      Emitter.emit1, Emitter.emit, Chunk.emit, Chunk.insert_constant,
      Chunk.empty, validNumberLexeme, FreeSpan.anchor, PrimaryExpr.span,
      emOne, emOneE, tokOne, srcOne]
  exact ⟨⟨hwf, hst, c2_stack_discipline.1 emOne stmtOne emOne' hwf hst⟩,
    ⟨hex, c2_stack_discipline.2 emOne (.Primary (.mk tokOne)) emOneE hex⟩⟩


/-!
## C3: the locals-capacity boundary
-/

/-- Fixture: a one-character identifier anchored at `x`. -/
def identX : Identifier := ⟨⟨.Identifier, ⟨0, 1⟩⟩⟩

/-- Fixture: an emitter holding exactly 65535 (= `u16::MAX`) locals. -/
def emFull : Emitter :=
  ⟨['x'], Chunk.empty, List.replicate 65535 ⟨identX, 1⟩, 1⟩

/-- Fixture: an emitter inside a scope with no locals yet. -/
def emEmptyScope : Emitter := ⟨['x'], Chunk.empty, [], 1⟩

/-- The fixture emitter holds exactly `u16::MAX` locals. -/
theorem emFull_len : emFull.locals.length = 65535 := by
  simp only [emFull]
  exact List.length_replicate 65535 _

/-- C3 counterexample.  With exactly 65535 = `u16::MAX` locals — strictly
fewer than the 2¹⁶ the claim allows — `add_local` already fails with
`TooManyLocals`, so a program can never hold 2¹⁶ locals in scope and the
2¹⁶-th declaration is never accepted: the code's boundary is `u16::MAX`,
not 2¹⁶. -/
theorem c3_counterexample :
    emFull.locals.length = 65535 ∧ emFull.locals.length < 2 ^ 16 ∧
      Emitter.add_local emFull identX =
        .error (.err (.TooManyLocals identX.span)) := by
  refine ⟨emFull_len, by rw [emFull_len]; norm_num, ?_⟩
  unfold Emitter.add_local
  rw [if_pos (by rw [emFull_len])]

/-- C3 (amended).  The capacity boundary is `u16::MAX` = 65535, not 2¹⁶:
`add_local` succeeds only while the local count is strictly below 65535
(so the 65535-th local in scope is the last accepted), and fails with
`TooManyLocals` carrying the declared name's span as soon as the count has
reached 65535; below the bound it fails only by same-scope shadowing, and
otherwise appends the new local at the current depth. -/
theorem c3_amended_capacity :
    (∀ (e : Emitter) (name : Identifier) (e' : Emitter),
      Emitter.add_local e name = .ok e' → e.locals.length < 65535) ∧
    (∀ (e : Emitter) (name : Identifier), 65535 ≤ e.locals.length →
      Emitter.add_local e name = .error (.err (.TooManyLocals name.span))) ∧
    (∀ (e : Emitter) (name : Identifier), e.locals.length < 65535 →
      (e.locals.reverse.takeWhile fun loc => loc.depth == e.scope_depth).find?
          (fun loc => e.identSlice loc.name == e.identSlice name) = none →
      Emitter.add_local e name =
        .ok { e with locals := e.locals ++ [⟨name, e.scope_depth⟩] }) := by
  refine ⟨?_, ?_, ?_⟩
  · intro e name e' h
    exact (add_local_ok h).1
  · intro e name h
    simp [Emitter.add_local, h]
  · intro e name h1 h2
    simp [Emitter.add_local, h2, Nat.not_le.mpr h1]

theorem c3_witness :
    (emEmptyScope.locals.length < 65535 ∧
      Emitter.add_local emEmptyScope identX =
        .ok { emEmptyScope with
          locals := emEmptyScope.locals ++ [⟨identX, emEmptyScope.scope_depth⟩] }) ∧
    (65535 ≤ emFull.locals.length ∧
      Emitter.add_local emFull identX =
        .error (.err (.TooManyLocals identX.span))) :=
  ⟨⟨by simp [emEmptyScope],
    c3_amended_capacity.2.2 emEmptyScope identX (by simp [emEmptyScope])
      (by simp [emEmptyScope])⟩,
   ⟨emFull_len.ge,
    c3_amended_capacity.2.1 emFull identX emFull_len.ge⟩⟩

/-!
## C4: `for` and `return` panic instead of returning `NotYetImplemented`
-/

/-- Fixture: the statement `return 1;`. -/
def retOne : ReturnStmt := .mk ⟨.Return, ⟨0, 0⟩⟩ (.Primary (.mk tokOne)) tokSemiOne

/-- Fixture: a `for x in 1 {}` statement. -/
def forOne : ForStmt :=
  .mk identX (.Primary (.mk tokOne))
    (.mk ⟨.LeftBrace, ⟨0, 0⟩⟩ [] ⟨.RightBrace, ⟨0, 0⟩⟩)

/-- C4 counterexample.  A program containing a `return` (or `for`)
statement makes the emitter hit `todo!()` — a panic aborting compilation —
not a returned `NotYetImplemented` diagnostic; no `NotYetImplemented`
value is involved at all. -/
theorem c4_counterexample :
    compile srcOne [.Statement (.Return retOne)] =
      .error (.panicked (.todoAt .return_stmt)) ∧
    compile srcOne [.Statement (.For forOne)] =
      .error (.panicked (.todoAt .for_stmt)) ∧
    (∀ (feature : List Char) (span : FreeSpan),
      (Fail.panicked (.todoAt .return_stmt)) ≠ .err (.NotYetImplemented feature span)) := by
  refine ⟨?_, ?_, ?_⟩
  · simp [compile, Emitter.declList, Emitter.declaration, Emitter.statement,
      Emitter.return_stmt, bind, Except.bind]
  · simp [compile, Emitter.declList, Emitter.declaration, Emitter.statement,
      Emitter.for_stmt, bind, Except.bind]
  · intro feature span
    simp

/-- C4 (amended).  `Emitter::for_stmt` and `Emitter::return_stmt` are
`todo!()`: compiling any program whose first declaration is a `for` or a
`return` statement aborts with that panic (for every emitter state, source
and trailing program), whereas the *class* and *fun* declarations are the
constructs rejected with a structured `NotYetImplemented` diagnostic
carrying the construct's span. -/
theorem c4_for_return_panic :
    (∀ (e : Emitter) (f : ForStmt),
      Emitter.statement e (.For f) = .error (.panicked (.todoAt .for_stmt))) ∧
    (∀ (e : Emitter) (r : ReturnStmt),
      Emitter.statement e (.Return r) = .error (.panicked (.todoAt .return_stmt))) ∧
    (∀ (src : List Char) (r : ReturnStmt) (rest : List Declaration),
      compile src (.Statement (.Return r) :: rest) =
        .error (.panicked (.todoAt .return_stmt))) ∧
    (∀ (src : List Char) (f : ForStmt) (rest : List Declaration),
      compile src (.Statement (.For f) :: rest) =
        .error (.panicked (.todoAt .for_stmt))) ∧
    (∀ (e : Emitter) (c : ClassDecl),
      Emitter.declaration e (.Class c) =
        .error (.err (.NotYetImplemented ['c', 'l', 'a', 's', 's'] c.class_tok.span))) ∧
    (∀ (e : Emitter) (f : FunDecl),
      Emitter.declaration e (.Fun f) =
        .error (.err (.NotYetImplemented
          ['f', 'u', 'n', 'c', 't', 'i', 'o', 'n'] f.fun_tok.span))) := by
  refine ⟨?_, ?_, ?_, ?_, ?_, ?_⟩
  · intro e f
    simp [Emitter.statement, Emitter.for_stmt]
  · intro e r
    simp [Emitter.statement, Emitter.return_stmt]
  · intro src r rest
    simp [compile, Emitter.declList, Emitter.declaration, Emitter.statement,
      Emitter.return_stmt, bind, Except.bind]
  · intro src f rest
    simp [compile, Emitter.declList, Emitter.declaration, Emitter.statement,
      Emitter.for_stmt, bind, Except.bind]
  · intro e c
    simp [Emitter.declaration, Emitter.class_decl]
  · intro e f
    simp [Emitter.declaration, Emitter.fun_decl]


/-!
## C5: shadowing granularity and innermost resolution
-/

theorem takeWhile_eq_nil_of_all {α : Type} {p : α → Bool} {l : List α}
    (h : ∀ x ∈ l, p x = false) : l.takeWhile p = [] := by
  cases l with
  | nil => rfl
  | cons a as => simp [List.takeWhile_cons, h a (by simp)]

theorem takeWhile_append_all {α : Type} {p : α → Bool} {A B : List α}
    (h : ∀ x ∈ A, p x = true) : (A ++ B).takeWhile p = A ++ B.takeWhile p := by
  induction A with
  | nil => simp
  | cons a as ih =>
    have ha := h a (by simp)
    have hrest := ih (fun x hx => h x (by simp [hx]))
    simp [List.takeWhile_cons, ha, hrest]

/-- `rposition` finding nothing means no element satisfies the predicate. -/
theorem rposition_none {α : Type} {p : α → Bool} {l : List α}
    (h : rposition p l = none) : ∀ x ∈ l, p x = false := by
  induction l with
  | nil => simp
  | cons a as ih =>
    rw [rposition] at h
    cases hr : rposition p as with
    | some i0 =>
      rw [hr] at h
      cases h
    | none =>
      rw [hr] at h
      by_cases hpa : p a = true
      · rw [if_pos hpa] at h
        cases h
      · intro x hx
        rcases List.mem_cons.mp hx with hxa | hxas
        · subst hxa
          exact Bool.eq_false_iff.mpr hpa
        · exact ih hr x hxas

/-- `rposition` returns the index of the *last* element satisfying the
predicate: the element at the returned index satisfies it and every
element above it does not. -/
theorem rposition_spec {α : Type} {p : α → Bool} {l : List α} {i : Nat}
    (h : rposition p l = some i) :
    ∃ x, l[i]? = some x ∧ p x = true ∧
      ∀ j y, i < j → l[j]? = some y → p y = false := by
  induction l generalizing i with
  | nil => simp [rposition] at h
  | cons a as ih =>
    rw [rposition] at h
    cases hr : rposition p as with
    | some i0 =>
      rw [hr] at h
      injection h with h
      subst h
      obtain ⟨x, hx, hpx, hmax⟩ := ih hr
      refine ⟨x, by simpa using hx, hpx, ?_⟩
      intro j y hij hjy
      cases j with
      | zero => omega
      | succ j' =>
        exact hmax j' y (by omega) (by simpa using hjy)
    | none =>
      rw [hr] at h
      by_cases hpa : p a = true
      · rw [if_pos hpa] at h
        injection h with h
        subst h
        refine ⟨a, by simp, hpa, ?_⟩
        intro j y hij hjy
        cases j with
        | zero => omega
        | succ j' =>
          have hjy' : as[j']? = some y := by simpa using hjy
          obtain ⟨hlt, hget⟩ := List.getElem?_eq_some.mp hjy'
          have hmem : y ∈ as := hget ▸ List.getElem_mem hlt
          exact rposition_none hr y hmem
      · rw [if_neg hpa] at h
        cases h

/-- `rposition` finds an index whenever some element satisfies the
predicate. -/
theorem rposition_isSome {α : Type} {p : α → Bool} {l : List α} {x : α}
    (hx : x ∈ l) (hpx : p x = true) : ∃ i, rposition p l = some i := by
  induction l with
  | nil => simp at hx
  | cons a as ih =>
    rw [rposition]
    cases hr : rposition p as with
    | some i0 => exact ⟨i0 + 1, rfl⟩
    | none =>
      rcases List.mem_cons.mp hx with hxa | hxas
      · subst hxa
        rw [if_pos hpx]
        exact ⟨0, rfl⟩
      · obtain ⟨i, hi⟩ := ih hxas
        rw [hi] at hr
        cases hr

/-- C5.  Shadowing is per scope depth and resolution is innermost-first:
(1) when the locals split into an older part strictly shallower than the
current depth and a top run at the current depth, a declaration byte-equal
to a member of the top run fails with `Shadowing` naming the new and the
shadowed spans; (2) when no local sits at the current depth (a strictly
deeper fresh scope), the declaration succeeds and appends the local;
(3) a resolved name is the *highest-indexed* byte-equal local — every
higher-indexed local differs; (4) an identifier read whose name resolves
to slot `i` compiles to `GetLocal i`. -/
theorem c5_shadowing_granularity :
    (∀ (e : Emitter) (name : Identifier) (deep run : List Local) (loc : Local),
      e.locals = deep ++ run →
      (∀ l ∈ deep, l.depth ≠ e.scope_depth) →
      (∀ l ∈ run, l.depth = e.scope_depth) →
      loc ∈ run → e.identSlice loc.name = e.identSlice name →
      e.locals.length < 65535 →
      ∃ shadowed : Local, shadowed ∈ run ∧
        e.identSlice shadowed.name = e.identSlice name ∧
        Emitter.add_local e name =
          .error (.err (.Shadowing name.span shadowed.name.span))) ∧
    (∀ (e : Emitter) (name : Identifier),
      (∀ l ∈ e.locals, l.depth ≠ e.scope_depth) →
      e.locals.length < 65535 →
      Emitter.add_local e name =
        .ok { e with locals := e.locals ++ [⟨name, e.scope_depth⟩] }) ∧
    (∀ (e : Emitter) (name : Identifier) (i : Nat),
      e.locals.length ≤ 65536 →
      Emitter.resolve_local e name = some i →
      ∃ loc, e.locals[i]? = some loc ∧
        e.identSlice loc.name = e.identSlice name ∧
        ∀ j loc', i < j → e.locals[j]? = some loc' →
          e.identSlice loc'.name ≠ e.identSlice name) ∧
    (∀ (e : Emitter) (primary : PrimaryExpr) (slot : Nat),
      Emitter.resolve_local e ⟨primary.token⟩ = some slot →
      Emitter.identifier e primary =
        .ok (Emitter.emit1 e (.GetLocal slot) primary.token.span)) := by
  refine ⟨?_, ?_, ?_, ?_⟩
  · intro e name deep run loc hsplit hdeep hrun hloc hslice hlen
    have hrev : e.locals.reverse.takeWhile
        (fun l => l.depth == e.scope_depth) = run.reverse ++
          deep.reverse.takeWhile (fun l => l.depth == e.scope_depth) := by
      rw [hsplit, List.reverse_append]
      exact takeWhile_append_all
        (fun x hx => by simp [hrun x (List.mem_reverse.mp hx)])
    have hdeepnil : deep.reverse.takeWhile
        (fun l => l.depth == e.scope_depth) = [] :=
      takeWhile_eq_nil_of_all (fun x hx => by
        simp [hdeep x (List.mem_reverse.mp hx)])
    have hfind : ∃ shadowed, (e.locals.reverse.takeWhile
        (fun l => l.depth == e.scope_depth)).find?
          (fun l => e.identSlice l.name == e.identSlice name) = some shadowed := by
      rw [hrev, hdeepnil, List.append_nil]
      have hmem : loc ∈ run.reverse := List.mem_reverse.mpr hloc
      have : (run.reverse.find?
          (fun l => e.identSlice l.name == e.identSlice name)).isSome := by
        rw [List.find?_isSome]
        exact ⟨loc, hmem, by simp [hslice]⟩
      exact Option.isSome_iff_exists.mp this
    obtain ⟨shadowed, hsh⟩ := hfind
    have hshmem : shadowed ∈ run ∧
        (e.identSlice shadowed.name == e.identSlice name) = true := by
      have h1 := List.mem_of_find?_eq_some hsh
      have h2 := List.find?_some hsh
      rw [hrev, hdeepnil, List.append_nil] at h1
      exact ⟨List.mem_reverse.mp h1, h2⟩
    refine ⟨shadowed, hshmem.1, by simpa using hshmem.2, ?_⟩
    unfold Emitter.add_local
    rw [if_neg (by omega), hsh]
  · intro e name hnone hlen
    have hnil : e.locals.reverse.takeWhile
        (fun l => l.depth == e.scope_depth) = [] :=
      takeWhile_eq_nil_of_all (fun x hx => by
        simp [hnone x (List.mem_reverse.mp hx)])
    unfold Emitter.add_local
    rw [if_neg (by omega), hnil]
    rfl
  · intro e name i hlen h
    unfold Emitter.resolve_local at h
    cases hr : rposition (fun loc => e.identSlice loc.name ==
        e.identSlice name) e.locals with
    | none => rw [hr] at h; cases h
    | some i0 =>
      rw [hr] at h
      simp only [Option.map_some'] at h
      injection h with h
      obtain ⟨x, hx, hpx, hmax⟩ := rposition_spec hr
      have hi0 : i0 < e.locals.length := by
        by_contra hcon
        rw [List.getElem?_eq_none (by omega)] at hx
        cases hx
      have hieq : i = i0 := by
        rw [← h, Nat.mod_eq_of_lt (by omega)]
      subst hieq
      refine ⟨x, hx, by simpa using hpx, ?_⟩
      intro j loc' hij hj
      have := hmax j loc' hij hj
      simpa using this
  · intro e primary slot h
    unfold Emitter.identifier
    simp [h, Identifier.span]


/-!
## C6: short-circuit `and` lowering
-/

/-- Fixture: the source `1 and 2;`. -/
def srcAnd : List Char := ['1', ' ', 'a', 'n', 'd', ' ', '2', ';']

def tkNum1 : Token := ⟨.Number, ⟨0, 1⟩⟩

def tkAnd : Token := ⟨.And, ⟨2, 5⟩⟩

def tkNum2 : Token := ⟨.Number, ⟨6, 7⟩⟩

def tkSemiAnd : Token := ⟨.Semicolon, ⟨7, 8⟩⟩

/-- Fixture: the parsed program `1 and 2;`. -/
def astAnd : List Declaration :=
  [.Statement (.Expr (.mk
    (.Binary (.mk (.Primary (.mk tkNum1)) tkAnd (.Primary (.mk tkNum2))))
    tkSemiAnd))]

/-- C6.  Short-circuit `and` lowering: compiling `lhs and rhs` appends the
code of `lhs`, a `JumpIfFalse` (emitted with the `DUMMY` operand), a `Pop`,
and the code of `rhs`, then patches the jump so its operand is the byte
distance to the end of `rhs` — the branch targets the boundary right after
the appended slice, with no `Pop` on the short-circuit path.  Concretely,
`1 and 2;` compiles to `Constant 0, JumpIfFalse 4, Pop, Constant 1, Pop`,
where the jump (operand 4) targets instruction boundary 4 — the final
expression-statement `Pop`. -/
theorem c6_and_lowering :
    (∀ (e : Emitter) (lhs : Expression) (operator : Token) (rhs : Expression)
        (e' : Emitter), operator.kind = .And →
      Emitter.binary_expr e (.mk lhs operator rhs) = .ok e' →
      ∃ (e1 e2 : Emitter) (Δl Δr : List OpCode),
        Emitter.expression e lhs = .ok e1 ∧
        e1.chunk.code = e.chunk.code ++ Δl ∧
        Emitter.expression ⟨e1.source,
          ⟨e1.chunk.code ++ [.JumpIfFalse DUMMY] ++ [.Pop], e1.chunk.constants,
            e1.chunk.spans ++ [FreeSpan.join lhs.span operator.span] ++
              [operator.span]⟩,
          e1.locals, e1.scope_depth⟩ rhs = .ok e2 ∧
        e2.chunk.code = (e.chunk.code ++ Δl) ++ OpCode.JumpIfFalse DUMMY ::
          OpCode.Pop :: Δr ∧
        e' = Emitter.patch e2 e1.chunk.code.length ∧
        e'.chunk.code = e.chunk.code ++
          (Δl ++ OpCode.JumpIfFalse (1 + weight Δr) :: OpCode.Pop :: Δr) ∧
        TgtF (Δl ++ OpCode.JumpIfFalse (1 + weight Δr) :: OpCode.Pop :: Δr)
          Δl.length (1 + weight Δr)
          (Δl ++ OpCode.JumpIfFalse (1 + weight Δr) :: OpCode.Pop :: Δr).length) ∧
    ((compile srcAnd astAnd).toOption.map Chunk.code =
        some [.Constant 0, .JumpIfFalse 4, .Pop, .Constant 1, .Pop] ∧
      TgtF [.Constant 0, .JumpIfFalse 4, .Pop, .Constant 1, .Pop] 1 4 4) := by
  constructor
  · intro e lhs operator rhs e' hk h
    simp only [Emitter.binary_expr.eq_def] at h
    rw [if_neg (by simp [hk]), if_neg (by simp [hk]), if_pos hk] at h
    simp only [Emitter.and, bind, Except.bind, Emitter.emit_eq] at h
    split at h
    · simp at h
    · next e1 heq1 =>
      obtain ⟨Δl, ⟨hc1, hl1, hs1, hr1⟩, hb1⟩ := expression_post e lhs e1 heq1
      split at h
      · simp at h
      · next e4 heq2 =>
        obtain ⟨Δr, ⟨hc2, hl2, hs2, hr2⟩, hb2⟩ := expression_post _ rhs e4 heq2
        injection h with h
        subst h
        simp only [Emitter.emit1_eq] at hc2 heq2
        have hcode4 : e4.chunk.code =
            (e.chunk.code ++ Δl) ++ OpCode.JumpIfFalse DUMMY ::
              OpCode.Pop :: Δr := by
          rw [hc2, hc1]
          simp
        have hhandle : e1.chunk.code.length = (e.chunk.code ++ Δl).length := by
          rw [hc1]
        have hpatch := patch_at e4 (e.chunk.code ++ Δl) (.JumpIfFalse DUMMY)
          (OpCode.Pop :: Δr) hcode4
        have hw : weight (OpCode.Pop :: Δr) = 1 + weight Δr := by
          simp [weight_cons, OpCode.size]
        refine ⟨e1, e4, Δl, Δr, heq1, hc1, heq2, hcode4, rfl, ?_, le_refl _, ?_⟩
        · rw [hhandle, hpatch]
          simp [withOffset, hw]
        · rw [sizeTo_all _ (le_refl _)]
          have h1 : sizeTo (Δl ++ OpCode.JumpIfFalse (1 + weight Δr) ::
              OpCode.Pop :: Δr) (Δl.length + 1) = weight Δl + 3 := by
            rw [sizeTo_append_right Δl _ 1]
            simp [sizeTo, OpCode.size]
          rw [h1, weight_append, weight_cons, weight_cons]
          simp [OpCode.size]
          omega
  · constructor
    · simp [compile, Emitter.declList, Emitter.declaration, Emitter.statement,
        Emitter.expr_stmt, Emitter.expression, Emitter.binary_expr,
        Emitter.and, Emitter.primary_expr, Emitter.number, Emitter.emit1,
        Emitter.emit, Emitter.patch, Chunk.emit, Chunk.patch_jump,
        Chunk.insert_constant, Chunk.empty, sizeTo, withOffset, OpCode.size,
        validNumberLexeme, FreeSpan.anchor, BinaryExpr.span, Expression.span,
        PrimaryExpr.span, FreeSpan.join, DUMMY, tkNum1, tkAnd, tkNum2,
        tkSemiAnd, srcAnd, astAnd, bind, Except.bind, pure, Except.pure,
        Except.toOption]
    · unfold TgtF
      decide


/-!
## C7: initializer before binding
-/

/-- Fixture: the one-character source `x` (every identifier anchors it). -/
def srcX : List Char := ['x']

def tokVar : Token := ⟨.Var, ⟨0, 0⟩⟩

def tokSemiX : Token := ⟨.Semicolon, ⟨0, 0⟩⟩

def tokEqX : Token := ⟨.Equal, ⟨0, 0⟩⟩

def tokLB : Token := ⟨.LeftBrace, ⟨0, 0⟩⟩

def tokRB : Token := ⟨.RightBrace, ⟨0, 0⟩⟩

/-- Fixture: `var x;` (no initializer). -/
def varDeclOuter : VarDecl := .mk tokVar identX none tokSemiX

/-- Fixture: `var x = x;`. -/
def varDeclInner : VarDecl :=
  .mk tokVar identX (some (.mk tokEqX (.Primary (.mk ⟨.Identifier, ⟨0, 1⟩⟩))))
    tokSemiX

/-- Fixture: a block declaring `x`, then an inner block with `var x = x;`. -/
def astVarShadow : List Declaration :=
  [.Statement (.Block (.mk tokLB
    [.Var varDeclOuter,
     .Statement (.Block (.mk tokLB [.Var varDeclInner] tokRB))]
    tokRB))]

set_option maxRecDepth 2000 in
set_option maxHeartbeats 2000000 in
/-- C7.  Var-declaration ordering: lowering `var x = init;` first compiles
the initializer in the *pre-binding* state (same locals, same depth), and
only afterwards introduces the binding — `DefGlobal` at depth 0,
`add_local` otherwise.  Consequently `var x = x;` in a scope nested under
an outer `x` compiles the right-hand `x` to `GetLocal 0` (the outer
binding): the whole fixture compiles to `Unit, GetLocal 0, Pop, Pop`. -/
theorem c7_init_before_binding :
    (∀ (e : Emitter) (var_tok : Token) (ident : Identifier) (equal_tok : Token)
        (initExpr : Expression) (semicolon_tok : Token) (e' : Emitter),
      Emitter.var_decl e (.mk var_tok ident
        (some (.mk equal_tok initExpr)) semicolon_tok) = .ok e' →
      ∃ e1, Emitter.expression e initExpr = .ok e1 ∧ e1.locals = e.locals ∧
        e1.scope_depth = e.scope_depth ∧
        (e.scope_depth = 0 →
          e' = Emitter.emit1 (Emitter.identifier_constant e1 ident).2
            (.DefGlobal (Emitter.identifier_constant e1 ident).1)
            (VarDecl.span (.mk var_tok ident
              (some (.mk equal_tok initExpr)) semicolon_tok))) ∧
        (e.scope_depth ≠ 0 → Emitter.add_local e1 ident = .ok e')) ∧
    (compile srcX astVarShadow).toOption.map Chunk.code =
      some [.Unit, .GetLocal 0, .Pop, .Pop] := by
  constructor
  · intro e var_tok ident equal_tok initExpr semicolon_tok e' h
    simp only [Emitter.var_decl, bind, Except.bind, pure, Except.pure,
      Emitter.identifier_constant_eq] at h
    split at h
    · simp at h
    · next e1 heq1 =>
      obtain ⟨Δi, ⟨hc1, hl1, hs1, hr1⟩, hb1⟩ := expression_post e initExpr e1 heq1
      by_cases hz : e1.scope_depth = 0
      · rw [if_pos hz] at h
        injection h with h
        refine ⟨e1, heq1, hl1, hs1, fun _ => ?_,
          fun hnz => absurd (hs1.symm.trans hz) hnz⟩
        rw [← h]
        simp [Emitter.identifier_constant_eq, Emitter.emit1_eq]
      · rw [if_neg hz] at h
        exact ⟨e1, heq1, hl1, hs1,
          fun hz0 => absurd (hs1.trans hz0) hz, fun _ => h⟩
  · have hvd1 : Emitter.var_decl ⟨['x'], Chunk.empty, [], 1⟩ (.mk ⟨.Var, ⟨0, 0⟩⟩ ⟨⟨.Identifier, ⟨0, 1⟩⟩⟩ none ⟨.Semicolon, ⟨0, 0⟩⟩) =
        .ok ⟨['x'], ⟨[.Unit], [], [⟨0, 0⟩]⟩, [⟨⟨⟨.Identifier, ⟨0, 1⟩⟩⟩, 1⟩], 1⟩ := by
      simp [Emitter.var_decl, Emitter.add_local, Emitter.emit1,
        Emitter.emit, Chunk.emit, Chunk.empty, VarDecl.span, FreeSpan.join,
        Emitter.identSlice, bind, Except.bind, pure, Except.pure]
    have hexpr : Emitter.expression
        ⟨['x'], ⟨[.Unit], [], [⟨0, 0⟩]⟩, [⟨⟨⟨.Identifier, ⟨0, 1⟩⟩⟩, 1⟩], 2⟩
        (.Primary (.mk ⟨.Identifier, ⟨0, 1⟩⟩)) =
        .ok ⟨['x'], ⟨[.Unit, .GetLocal 0], [], [⟨0, 0⟩, ⟨0, 1⟩]⟩,
          [⟨⟨⟨.Identifier, ⟨0, 1⟩⟩⟩, 1⟩], 2⟩ := by
      simp [Emitter.expression, Emitter.primary_expr, Emitter.identifier,
        Emitter.resolve_local, rposition, Emitter.identSlice, FreeSpan.anchor,
        Identifier.span, Emitter.emit1, Emitter.emit, Chunk.emit]
    have hvd2 : Emitter.var_decl
        ⟨['x'], ⟨[.Unit], [], [⟨0, 0⟩]⟩, [⟨⟨⟨.Identifier, ⟨0, 1⟩⟩⟩, 1⟩], 2⟩ (.mk ⟨.Var, ⟨0, 0⟩⟩ ⟨⟨.Identifier, ⟨0, 1⟩⟩⟩ (some (.mk ⟨.Equal, ⟨0, 0⟩⟩ (.Primary (.mk ⟨.Identifier, ⟨0, 1⟩⟩)))) ⟨.Semicolon, ⟨0, 0⟩⟩) =
        .ok ⟨['x'], ⟨[.Unit, .GetLocal 0], [], [⟨0, 0⟩, ⟨0, 1⟩]⟩,
          [⟨⟨⟨.Identifier, ⟨0, 1⟩⟩⟩, 1⟩, ⟨⟨⟨.Identifier, ⟨0, 1⟩⟩⟩, 2⟩], 2⟩ := by
      simp [Emitter.var_decl, hexpr, Emitter.add_local,
        Emitter.identSlice, FreeSpan.anchor,
        bind, Except.bind, pure, Except.pure]
    have hblockInner : Emitter.block
        ⟨['x'], ⟨[.Unit], [], [⟨0, 0⟩]⟩, [⟨⟨⟨.Identifier, ⟨0, 1⟩⟩⟩, 1⟩], 1⟩
        (.mk ⟨.LeftBrace, ⟨0, 0⟩⟩ [.Var (.mk ⟨.Var, ⟨0, 0⟩⟩ ⟨⟨.Identifier, ⟨0, 1⟩⟩⟩ (some (.mk ⟨.Equal, ⟨0, 0⟩⟩ (.Primary (.mk ⟨.Identifier, ⟨0, 1⟩⟩)))) ⟨.Semicolon, ⟨0, 0⟩⟩)] ⟨.RightBrace, ⟨0, 0⟩⟩) =
        .ok ⟨['x'], ⟨[.Unit, .GetLocal 0, .Pop], [],
          [⟨0, 0⟩, ⟨0, 1⟩, ⟨0, 0⟩]⟩, [⟨⟨⟨.Identifier, ⟨0, 1⟩⟩⟩, 1⟩], 1⟩ := by
      simp [Emitter.block, Emitter.begin_scope, Emitter.declList,
        Emitter.declaration, hvd2, Emitter.end_scope, Emitter.popScopeLocals,
        Emitter.emit1, Emitter.emit, Chunk.emit, List.getLast?,
        bind, Except.bind, pure, Except.pure]
    have hdlOuter : Emitter.declList ⟨['x'], ⟨[.Unit], [], [⟨0, 0⟩]⟩, [⟨⟨⟨.Identifier, ⟨0, 1⟩⟩⟩, 1⟩], 1⟩
        [.Statement (.Block (.mk ⟨.LeftBrace, ⟨0, 0⟩⟩ [.Var (.mk ⟨.Var, ⟨0, 0⟩⟩ ⟨⟨.Identifier, ⟨0, 1⟩⟩⟩ (some (.mk ⟨.Equal, ⟨0, 0⟩⟩ (.Primary (.mk ⟨.Identifier, ⟨0, 1⟩⟩)))) ⟨.Semicolon, ⟨0, 0⟩⟩)]
          ⟨.RightBrace, ⟨0, 0⟩⟩))] =
        .ok ⟨['x'], ⟨[.Unit, .GetLocal 0, .Pop], [],
          [⟨0, 0⟩, ⟨0, 1⟩, ⟨0, 0⟩]⟩, [⟨⟨⟨.Identifier, ⟨0, 1⟩⟩⟩, 1⟩], 1⟩ := by
      simp [Emitter.declList, Emitter.declaration, Emitter.statement,
        hblockInner, bind, Except.bind, pure, Except.pure]
    have hdlOuter2 : Emitter.declList ⟨['x'], Chunk.empty, [], 1⟩
        [.Var (.mk ⟨.Var, ⟨0, 0⟩⟩ ⟨⟨.Identifier, ⟨0, 1⟩⟩⟩ none ⟨.Semicolon, ⟨0, 0⟩⟩),
         .Statement (.Block (.mk ⟨.LeftBrace, ⟨0, 0⟩⟩ [.Var (.mk ⟨.Var, ⟨0, 0⟩⟩ ⟨⟨.Identifier, ⟨0, 1⟩⟩⟩ (some (.mk ⟨.Equal, ⟨0, 0⟩⟩ (.Primary (.mk ⟨.Identifier, ⟨0, 1⟩⟩)))) ⟨.Semicolon, ⟨0, 0⟩⟩)]
           ⟨.RightBrace, ⟨0, 0⟩⟩))] =
        .ok ⟨['x'], ⟨[.Unit, .GetLocal 0, .Pop], [],
          [⟨0, 0⟩, ⟨0, 1⟩, ⟨0, 0⟩]⟩, [⟨⟨⟨.Identifier, ⟨0, 1⟩⟩⟩, 1⟩], 1⟩ := by
      rw [Emitter.declList]
      simp only [bind, Except.bind, Emitter.declaration, hvd1]
      exact hdlOuter
    have hstmtOuter : Emitter.statement ⟨['x'], Chunk.empty, [], 0⟩
        (.Block (.mk ⟨.LeftBrace, ⟨0, 0⟩⟩
          [.Var (.mk ⟨.Var, ⟨0, 0⟩⟩ ⟨⟨.Identifier, ⟨0, 1⟩⟩⟩ none ⟨.Semicolon, ⟨0, 0⟩⟩),
           .Statement (.Block (.mk ⟨.LeftBrace, ⟨0, 0⟩⟩ [.Var (.mk ⟨.Var, ⟨0, 0⟩⟩ ⟨⟨.Identifier, ⟨0, 1⟩⟩⟩ (some (.mk ⟨.Equal, ⟨0, 0⟩⟩ (.Primary (.mk ⟨.Identifier, ⟨0, 1⟩⟩)))) ⟨.Semicolon, ⟨0, 0⟩⟩)]
             ⟨.RightBrace, ⟨0, 0⟩⟩))]
          ⟨.RightBrace, ⟨0, 0⟩⟩)) =
        .ok ⟨['x'], ⟨[.Unit, .GetLocal 0, .Pop, .Pop], [],
          [⟨0, 0⟩, ⟨0, 1⟩, ⟨0, 0⟩, ⟨0, 0⟩]⟩, [], 0⟩ := by
      simp [Emitter.statement, Emitter.block, Emitter.begin_scope, hdlOuter2,
        Emitter.end_scope, Emitter.popScopeLocals, Emitter.emit1,
        Emitter.emit, Chunk.emit, List.getLast?,
        bind, Except.bind, pure, Except.pure]
    simp [compile, astVarShadow, varDeclOuter, varDeclInner, identX, tokVar,
      tokSemiX, tokEqX, tokLB, tokRB, srcX, Emitter.declList,
      Emitter.declaration, hstmtOuter,
      bind, Except.bind, pure, Except.pure, Except.toOption]


/-!
## C8: which error a failing program reports
-/

/-- Fixture: the source `var a;var a=1=2;`. -/
def srcC8 : List Char :=
  ['v', 'a', 'r', ' ', 'a', ';', 'v', 'a', 'r', ' ', 'a', '=',
   '1', '=', '2', ';']

/-- Fixture: the first `a` (bytes 4..5). -/
def identA1 : Identifier := ⟨⟨.Identifier, ⟨4, 5⟩⟩⟩

/-- Fixture: the second `a` (bytes 10..11). -/
def identA2 : Identifier := ⟨⟨.Identifier, ⟨10, 11⟩⟩⟩

/-- Fixture: `var a;`. -/
def vdC8a : VarDecl := .mk ⟨.Var, ⟨0, 3⟩⟩ identA1 none ⟨.Semicolon, ⟨5, 6⟩⟩

/-- Fixture: `var a = 1=2;` — its initializer contains an assignment to
the number literal at bytes 12..13, an invalid assignment target. -/
def vdC8b : VarDecl :=
  .mk ⟨.Var, ⟨6, 9⟩⟩ identA2
    (some (.mk ⟨.Equal, ⟨11, 12⟩⟩ (.Binary (.mk
      (.Primary (.mk ⟨.Number, ⟨12, 13⟩⟩)) ⟨.Equal, ⟨13, 14⟩⟩
      (.Primary (.mk ⟨.Number, ⟨14, 15⟩⟩))))))
    ⟨.Semicolon, ⟨15, 16⟩⟩

/-- Fixture: both declarations inside one block. -/
def astC8 : List Declaration :=
  [.Statement (.Block (.mk ⟨.LeftBrace, ⟨0, 0⟩⟩ [.Var vdC8a, .Var vdC8b]
    ⟨.RightBrace, ⟨0, 0⟩⟩))]

/-- Fixture: the emitter state reached after `var a;` inside the block. -/
def eC8mid : Emitter := ⟨srcC8, ⟨[.Unit], [], [⟨0, 6⟩]⟩, [⟨identA1, 1⟩], 1⟩

/-- C8 counterexample.  The program `{var a;var a=1=2;}` holds two
errors: redeclaring `a` (a `Shadowing` whose span starts at byte 10) and
an assignment targeting the number literal `1` (span starting at byte 12).
Because `var_decl` lowers the initializer *before* binding the name,
compilation reports the `InvalidAssignmentTarget` at bytes 12..13 — an
error strictly *later* in source order than the `Shadowing` the same
program contains: at the reached state, binding the second `a` fails with
`Shadowing` at bytes 10..11. -/
theorem c8_counterexample :
    compile srcC8 astC8 =
      .error (.err (.InvalidAssignmentTarget ⟨12, 13⟩)) ∧
    Emitter.declaration (Emitter.begin_scope ⟨srcC8, Chunk.empty, [], 0⟩)
      (.Var vdC8a) = .ok eC8mid ∧
    Emitter.add_local eC8mid identA2 =
      .error (.err (.Shadowing ⟨10, 11⟩ ⟨4, 5⟩)) ∧
    (⟨10, 11⟩ : FreeSpan).start < (⟨12, 13⟩ : FreeSpan).start := by
  have hv1 : Emitter.var_decl ⟨srcC8, Chunk.empty, [], 1⟩ vdC8a = .ok eC8mid := by
    simp [Emitter.var_decl, vdC8a, eC8mid, Emitter.add_local, Emitter.emit1,
      Emitter.emit, Chunk.emit, Chunk.empty, VarDecl.span, FreeSpan.join,
      Emitter.identSlice, identA1, bind, Except.bind, pure, Except.pure]
  have herr : Emitter.expression eC8mid (.Binary (.mk
      (.Primary (.mk ⟨.Number, ⟨12, 13⟩⟩)) ⟨.Equal, ⟨13, 14⟩⟩
      (.Primary (.mk ⟨.Number, ⟨14, 15⟩⟩)))) =
      .error (.err (.InvalidAssignmentTarget ⟨12, 13⟩)) := by
    simp [Emitter.expression, Emitter.binary_expr, Expression.span,
      PrimaryExpr.span]
  have hv2 : Emitter.var_decl eC8mid vdC8b =
      .error (.err (.InvalidAssignmentTarget ⟨12, 13⟩)) := by
    simp [Emitter.var_decl, vdC8b, herr, bind, Except.bind]
  have hdl : Emitter.declList ⟨srcC8, Chunk.empty, [], 1⟩ [.Var vdC8a, .Var vdC8b] =
      .error (.err (.InvalidAssignmentTarget ⟨12, 13⟩)) := by
    rw [Emitter.declList]
    simp only [bind, Except.bind, Emitter.declaration, hv1]
    rw [Emitter.declList]
    simp [bind, Except.bind, Emitter.declaration, hv2]
  refine ⟨?_, ?_, ?_, by norm_num⟩
  · simp [compile, astC8, Emitter.declList, Emitter.declaration,
      Emitter.statement, Emitter.block, Emitter.begin_scope, hdl,
      bind, Except.bind, pure, Except.pure]
  · simp [Emitter.declaration, Emitter.begin_scope, hv1]
  · simp [Emitter.add_local, eC8mid, identA1, identA2, Emitter.identSlice,
      FreeSpan.anchor, srcC8, Identifier.span]

/-- C8 (amended).  Compilation stops at the first *failing declaration* in
program order (every earlier declaration compiled successfully), and
reports whatever error that declaration's own lowering hits first — which,
because `var x = init;` lowers `init` before binding `x`, need not be the
error whose span is earliest in the source text. -/
theorem c8_amended_first_failing_declaration :
    (∀ (ds : List Declaration) (e : Emitter) (f : Fail),
      Emitter.declList e ds = .error f →
      ∃ ds1 d ds2 e1, ds = ds1 ++ d :: ds2 ∧
        Emitter.declList e ds1 = .ok e1 ∧
        Emitter.declaration e1 d = .error f) ∧
    (∀ (src : List Char) (ast : List Declaration) (f : Fail),
      compile src ast = .error f →
      ∃ ds1 d ds2 e1, ast = ds1 ++ d :: ds2 ∧
        Emitter.declList ⟨src, Chunk.empty, [], 0⟩ ds1 = .ok e1 ∧
        Emitter.declaration e1 d = .error f) := by
  have main : ∀ (ds : List Declaration) (e : Emitter) (f : Fail),
      Emitter.declList e ds = .error f →
      ∃ ds1 d ds2 e1, ds = ds1 ++ d :: ds2 ∧
        Emitter.declList e ds1 = .ok e1 ∧
        Emitter.declaration e1 d = .error f := by
    intro ds
    induction ds with
    | nil =>
      intro e f h
      simp [Emitter.declList] at h
    | cons d rest ih =>
      intro e f h
      rw [Emitter.declList] at h
      simp only [bind, Except.bind] at h
      cases hd : Emitter.declaration e d with
      | error f2 =>
        rw [hd] at h
        injection h with h
        subst h
        exact ⟨[], d, rest, e, rfl, by rw [Emitter.declList], hd⟩
      | ok e1 =>
        rw [hd] at h
        obtain ⟨ds1, d2, ds2, e2, hsplit, hok, herr⟩ := ih e1 f h
        refine ⟨d :: ds1, d2, ds2, e2, by rw [hsplit]; rfl, ?_, herr⟩
        rw [Emitter.declList]
        simp [bind, Except.bind, hd, hok]
  refine ⟨main, ?_⟩
  intro src ast f h
  simp only [compile, bind, Except.bind] at h
  cases hd : Emitter.declList ⟨src, Chunk.empty, [], 0⟩ ast with
  | error f2 =>
    rw [hd] at h
    injection h with h
    subst h
    exact main ast _ f2 hd
  | ok e1 =>
    rw [hd] at h
    simp [pure, Except.pure] at h

theorem c8_witness :
    ∃ ds1 d ds2 e1,
      [Declaration.Statement (.Return retOne)] = ds1 ++ d :: ds2 ∧
      Emitter.declList emOne ds1 = .ok e1 ∧
      Emitter.declaration e1 d = .error (.panicked (.todoAt .return_stmt)) :=
  c8_amended_first_failing_declaration.1 [.Statement (.Return retOne)] emOne
    (.panicked (.todoAt .return_stmt))
    (by simp [Emitter.declList, Emitter.declaration, Emitter.statement,
      Emitter.return_stmt, bind, Except.bind])


/-!
## The C5 witness fixtures and C10
-/

/-- Fixture: one local `x` from depth 1, current depth still 1. -/
def emSame : Emitter := ⟨['x'], Chunk.empty, [⟨identX, 1⟩], 1⟩

/-- Fixture: one local `x` from depth 1, inside a fresh depth-2 scope. -/
def emOuter : Emitter := ⟨['x'], Chunk.empty, [⟨identX, 1⟩], 2⟩

/-- Fixture: the outer and the shadowing inner `x`. -/
def emBoth : Emitter := ⟨['x'], Chunk.empty, [⟨identX, 1⟩, ⟨identX, 2⟩], 2⟩

/-- Fixture: a primary-expression read of `x`. -/
def pxX : PrimaryExpr := ⟨⟨.Identifier, ⟨0, 1⟩⟩⟩

theorem c5_witness :
    (∃ shadowed : Local, shadowed ∈ [(⟨identX, 1⟩ : Local)] ∧
      emSame.identSlice shadowed.name = emSame.identSlice identX ∧
      Emitter.add_local emSame identX =
        .error (.err (.Shadowing identX.span shadowed.name.span))) ∧
    Emitter.add_local emOuter identX =
      .ok { emOuter with locals := emOuter.locals ++
        [⟨identX, emOuter.scope_depth⟩] } ∧
    (∃ loc, emBoth.locals[1]? = some loc ∧
      emBoth.identSlice loc.name = emBoth.identSlice identX ∧
      ∀ j loc', 1 < j → emBoth.locals[j]? = some loc' →
        emBoth.identSlice loc'.name ≠ emBoth.identSlice identX) ∧
    Emitter.identifier emBoth pxX =
      .ok (Emitter.emit1 emBoth (.GetLocal 1) pxX.token.span) := by
  refine ⟨?_, ?_, ?_, ?_⟩
  · exact c5_shadowing_granularity.1 emSame identX [] [⟨identX, 1⟩] ⟨identX, 1⟩
      (by simp [emSame]) (by simp) (by simp [emSame]) (by simp) rfl
      (by simp [emSame])
  · exact c5_shadowing_granularity.2.1 emOuter identX
      (by
        intro l hl
        simp only [emOuter, List.mem_singleton] at hl
        simp [hl, emOuter])
      (by simp [emOuter])
  · exact c5_shadowing_granularity.2.2.1 emBoth identX 1 (by simp [emBoth])
      (by decide)
  · exact c5_shadowing_granularity.2.2.2 emBoth pxX 1 (by decide)

/-- C10.  Slot operands are lossless: `add_local` keeps the locals vector
at or below `u16::MAX` entries; under that bound `resolve_local` returns
the untruncated `rposition` index (strictly below the vector length —
the `as u16` cast is the identity); an identifier read emits `GetLocal`
with exactly the resolved slot, and an assignment to an identifier emits
`SetLocal` with exactly the resolved slot (or `SetGlobal` when the name
does not resolve). -/
theorem c10_slot_operands :
    (∀ (e : Emitter) (name : Identifier) (e' : Emitter),
      Emitter.add_local e name = .ok e' →
      e' = { e with locals := e.locals ++ [⟨name, e.scope_depth⟩] } ∧
        e'.locals.length ≤ 65535) ∧
    (∀ (e : Emitter) (name : Identifier) (i : Nat), e.locals.length ≤ 65535 →
      Emitter.resolve_local e name = some i →
      rposition (fun loc => e.identSlice loc.name == e.identSlice name)
        e.locals = some i ∧ i < e.locals.length) ∧
    (∀ (e : Emitter) (primary : PrimaryExpr) (slot : Nat),
      Emitter.resolve_local e ⟨primary.token⟩ = some slot →
      ∃ e', Emitter.identifier e primary = .ok e' ∧
        e'.chunk.code = e.chunk.code ++ [.GetLocal slot]) ∧
    (∀ (e : Emitter) (operator : Token) (rhs : Expression)
        (e' : Emitter) (primary : PrimaryExpr),
      primary.token.kind = .Identifier → operator.kind = .Equal →
      Emitter.binary_expr e (.mk (.Primary primary) operator rhs) = .ok e' →
      ∃ e2, Emitter.expression e rhs = .ok e2 ∧
        ((∃ slot, Emitter.resolve_local e2 ⟨primary.token⟩ = some slot ∧
          e'.chunk.code = e2.chunk.code ++ [.SetLocal slot]) ∨
         (Emitter.resolve_local e2 ⟨primary.token⟩ = none ∧
          ∃ key, e'.chunk.code = e2.chunk.code ++ [.SetGlobal key]))) := by
  refine ⟨?_, ?_, ?_, ?_⟩
  · intro e name e' h
    obtain ⟨hlt, rfl⟩ := add_local_ok h
    refine ⟨rfl, ?_⟩
    simp only [List.length_append, List.length_singleton]
    omega
  · intro e name i hlen h
    unfold Emitter.resolve_local at h
    cases hr : rposition (fun loc => e.identSlice loc.name ==
        e.identSlice name) e.locals with
    | none =>
      rw [hr] at h
      cases h
    | some i0 =>
      rw [hr] at h
      simp only [Option.map_some'] at h
      injection h with h
      obtain ⟨x, hx, hpx, hmax⟩ := rposition_spec hr
      have hi0 : i0 < e.locals.length := by
        by_contra hcon
        rw [List.getElem?_eq_none (by omega)] at hx
        cases hx
      have hieq : i = i0 := by
        rw [← h, Nat.mod_eq_of_lt (by omega)]
      subst hieq
      exact ⟨rfl, hi0⟩
  · intro e primary slot h
    refine ⟨Emitter.emit1 e (.GetLocal slot) primary.token.span, ?_, ?_⟩
    · unfold Emitter.identifier
      simp [h, Identifier.span]
    · simp [Emitter.emit1_eq]
  · intro e operator rhs e' primary hid hEq h
    simp only [Emitter.binary_expr.eq_def, bind, Except.bind,
      Emitter.identifier_constant_eq] at h
    rw [if_pos hEq] at h
    rw [if_pos hid] at h
    split at h
    · simp at h
    · next e2 heq =>
      refine ⟨e2, heq, ?_⟩
      split at h
      · next x slot hres =>
        injection h with h
        subst h
        exact Or.inl ⟨slot, hres, by simp [Emitter.emit1_eq]⟩
      · next x hres =>
        injection h with h
        subst h
        exact Or.inr ⟨hres, e2.chunk.constants.length,
          by simp [Emitter.emit1_eq]⟩

theorem c10_witness :
    (({ emEmptyScope with locals := emEmptyScope.locals ++
          [⟨identX, emEmptyScope.scope_depth⟩] } : Emitter) =
        { emEmptyScope with locals := emEmptyScope.locals ++
          [⟨identX, emEmptyScope.scope_depth⟩] } ∧
      ({ emEmptyScope with locals := emEmptyScope.locals ++
          [⟨identX, emEmptyScope.scope_depth⟩] } : Emitter).locals.length ≤
        65535) ∧
    (rposition (fun loc => emBoth.identSlice loc.name ==
        emBoth.identSlice identX) emBoth.locals = some 1 ∧
      1 < emBoth.locals.length) ∧
    (∃ e', Emitter.identifier emBoth pxX = .ok e' ∧
      e'.chunk.code = emBoth.chunk.code ++ [.GetLocal 1]) := by
  refine ⟨c10_slot_operands.1 emEmptyScope identX _ ?_, ?_, ?_⟩
  · simp [Emitter.add_local, emEmptyScope]
  · exact c10_slot_operands.2.1 emBoth identX 1 (by simp [emBoth]) (by decide)
  · exact c10_slot_operands.2.2.1 emBoth pxX 1 (by decide)

end Rox
